import Mathlib

/-!
# Versioned exploration store: a verification development

Shallow embedding of `src/utils/git-db.js`, `src/utils/solution-explorer.js` and
`src/utils/patch-explorer.js`, followed by the theorems that settle the claims of the
specification against that code.
-/

namespace Agentic

/-! ## GitDB.sanitizeBranchName (src/utils/git-db.js, lines 178-185)

The method is the chain `toLowerCase`, three global `replace` calls and `trim`:
the first `replace` deletes every character that is neither a word character (`\w`),
white space (`\s`) nor a hyphen; the second turns each run
of white space into one hyphen; the third turns each run of hyphens into one hyphen.
Strings are handled as lists of characters. -/

/-- The regular-expression class `\w` (no `u` or `i` flag): `[A-Za-z0-9_]`. -/
def isWordChar (c : Char) : Bool :=
  c.isAlphanum || c == '_'

/-- The regular-expression class `\s`, which is also the set `String.prototype.trim`
removes: TAB, LF, VT, FF, CR, SPACE, NBSP, U+1680, U+2000..U+200A, U+2028, U+2029,
U+202F, U+205F, U+3000 and U+FEFF. -/
def isSpaceChar (c : Char) : Bool :=
  let n := c.toNat
  (9 ≤ n && n ≤ 13) || n == 0x20 || n == 0xA0 || n == 0x1680 ||
  (0x2000 ≤ n && n ≤ 0x200A) || n == 0x2028 || n == 0x2029 || n == 0x202F ||
  n == 0x205F || n == 0x3000 || n == 0xFEFF

/-- The hyphen, third member of the kept class and the subject of the last `replace`. -/
def isHyphen (c : Char) : Bool :=
  c == '-'

/-- Lower-case form of one code point, as `String.prototype.toLowerCase` gives it, for
every code point whose lower-case form contains a character of `[\w\s-]`: `A`..`Z`,
U+0130 (to `i` followed by U+0307) and U+212A KELVIN SIGN (to `k`). Every other code
point is left in place: neither it nor its lower-case form belongs to `[\w\s-]`, so the
replacement that follows `toLowerCase` in `sanitizeBranchName` deletes it either way. -/
def lowerChar (c : Char) : List Char :=
  if c.toNat == 0x130 then ['i', Char.ofNat 0x307]
  else if c.toNat == 0x212A then ['k']
  else [c.toLower]

/-- Model of `.toLowerCase()` on the characters of a string. -/
def toLowerCase (l : List Char) : List Char :=
  l.flatMap lowerChar

/-- Model of the first `replace` (pattern: one character that is neither `\w`, `\s` nor a
hyphen; flag `g`; replacement: the empty string): every such character is deleted. -/
def removeSpecial (l : List Char) : List Char :=
  l.filter (fun c => isWordChar c || isSpaceChar c || isHyphen c)

/-- Model of a global `replace` of the pattern `p+` by a hyphen, for a character class
`p` (white space in the second `replace`, the hyphen in the third): scanning left to right,
each maximal run of characters of `p` is replaced by one hyphen (a character of `p`
followed by another one is dropped, the last one of the run becomes the hyphen). -/
def replaceRuns (p : Char → Bool) : List Char → List Char
  | [] => []
  | [c] => if p c then ['-'] else [c]
  | c :: d :: cs =>
    if p c then
      if p d then replaceRuns p (d :: cs) else '-' :: replaceRuns p (d :: cs)
    else c :: replaceRuns p (d :: cs)

/-- Model of `.trim()`: white space is removed from both ends. -/
def trim (l : List Char) : List Char :=
  ((l.dropWhile isSpaceChar).reverse.dropWhile isSpaceChar).reverse

/-- The chain of `sanitizeBranchName` on the characters of the name. -/
def sanitizeChars (l : List Char) : List Char :=
  trim (replaceRuns isHyphen (replaceRuns isSpaceChar (removeSpecial (toLowerCase l))))

/-- Model of `GitDB.sanitizeBranchName(name)`. -/
def sanitizeBranchName (name : String) : String :=
  ⟨sanitizeChars name.data⟩


/-- The lower-cased name after the first `replace`: the input of the two run-collapsing
`replace` calls. -/
def strippedLower (name : String) : List Char :=
  removeSpecial (toLowerCase name.data)

/-- White space or hyphen: the characters the second and third `replace` act on. -/
def isSeparator (c : Char) : Bool :=
  isSpaceChar c || isHyphen c

/-- The characters a sanitized name is made of: `a`..`z`, `0`..`9`, underscore, hyphen. -/
def isOutputChar (c : Char) : Bool :=
  c.isLower || c.isDigit || c == '_' || c == '-'

/-- No hyphen is directly followed by another hyphen. -/
def NoAdjacentHyphens (l : List Char) : Prop :=
  List.Chain' (fun a b => ¬ (a = '-' ∧ b = '-')) l

/-- Specification wording of the collapse ("whitespace runs collapsed to single hyphens,
repeated hyphens collapsed"), to be compared with the chain of `replace` calls: reading
left to right, a character of `p` and the whole run of `p` characters after it are
replaced by exactly one hyphen, and every other character is copied. -/
def collapseSeparators (p : Char → Bool) : List Char → List Char
  | [] => []
  | c :: cs =>
    if p c then '-' :: collapseSeparators p (cs.dropWhile p)
    else c :: collapseSeparators p cs
termination_by l => l.length
decreasing_by
  all_goals simp_wf
  exact Nat.lt_succ_of_le (List.dropWhile_sublist p).length_le

/-! ## JavaScript values

Numbers are IEEE doubles in the source. `Math.min`, `Math.max` and the comparison
operators never round, so a number is modelled by its exact value: NaN, an infinity, or a
finite value taken in the rationals (every finite double is one). The two zeros of IEEE
are one value here; they compare equal in the source as well. -/

/-- A JavaScript number. -/
inductive JSNumber where
  | nan
  | negInf
  | posInf
  | fin (q : ℚ)
deriving DecidableEq

namespace JSNumber

/-- The operator `a < b` on numbers: false as soon as one side is NaN. -/
def lt : JSNumber → JSNumber → Bool
  | fin a, fin b => decide (a < b)
  | negInf, fin _ => true
  | negInf, posInf => true
  | fin _, posInf => true
  | _, _ => false

/-- The operator `a <= b` on numbers: false as soon as one side is NaN. -/
def le : JSNumber → JSNumber → Bool
  | nan, _ => false
  | _, nan => false
  | a, b => !(lt b a)

/-- Model of `Math.min(a, b)` on two numbers: NaN when an argument is NaN. -/
def min : JSNumber → JSNumber → JSNumber
  | nan, _ => nan
  | _, nan => nan
  | a, b => if lt b a then b else a

/-- Model of `Math.max(a, b)` on two numbers: NaN when an argument is NaN. -/
def max : JSNumber → JSNumber → JSNumber
  | nan, _ => nan
  | _, nan => nan
  | a, b => if lt a b then b else a

/-- Modelled from the spec: the operator `a + b` on two numbers (ECMAScript
`Number::add`): NaN when an operand is NaN or the operands are infinities of opposite
sign. Finite sums are exact here; rounding is not represented. -/
def add : JSNumber → JSNumber → JSNumber
  | nan, _ => nan
  | _, nan => nan
  | posInf, negInf => nan
  | negInf, posInf => nan
  | posInf, _ => posInf
  | _, posInf => posInf
  | negInf, _ => negInf
  | _, negInf => negInf
  | fin a, fin b => fin (a + b)

end JSNumber

/-- A JavaScript value as far as the store handles it: the values JSON can carry, plus
`undefined` and the non-finite numbers. -/
inductive JSValue where
  | undefined
  | null
  | bool (b : Bool)
  | number (n : JSNumber)
  | string (s : String)
  | array (items : List JSValue)
  | object (fields : List (String × JSValue))

namespace JSValue

/-- Lookup of a key in the fields of an object: `undefined` when the key is absent. -/
def lookup (key : String) : List (String × JSValue) → JSValue
  | [] => undefined
  | (k, v) :: rest => if k = key then v else lookup key rest

/-- Property read `v.key` on a value other than `null` and `undefined`, for the keys the
store reads (`description`, `metadata`, `solution`, `evaluation`, `iteration`): the field
of an object, `undefined` on any other value. -/
def get (v : JSValue) (key : String) : JSValue :=
  match v with
  | object fields => lookup key fields
  | _ => undefined

/-- Optional chaining `v?.key`: `undefined` when `v` is `null` or `undefined`. -/
def getOpt (v : JSValue) (key : String) : JSValue :=
  match v with
  | undefined => undefined
  | null => undefined
  | w => w.get key

/-- Truthiness (ToBoolean). -/
def truthy : JSValue → Bool
  | undefined => false
  | null => false
  | bool b => b
  | number (JSNumber.fin q) => decide (q ≠ 0)
  | number JSNumber.nan => false
  | number _ => true
  | string s => decide (s ≠ "")
  | array _ => true
  | object _ => true

/-- The operator `a || b`. -/
def orElse (a b : JSValue) : JSValue :=
  if a.truthy then a else b

/-- ToNumber on `undefined`, `null`, booleans and numbers; `none` on the values whose
conversion goes through text (strings, arrays, objects). -/
def primToNumber : JSValue → Option JSNumber
  | undefined => some JSNumber.nan
  | null => some (JSNumber.fin 0)
  | bool b => some (JSNumber.fin (if b then 1 else 0))
  | number n => some n
  | _ => none

/-- Assignment of a key in the fields of an object (object literal with spread): an
existing key keeps its place and takes the new value, a new key goes last. -/
def setField (key : String) (v : JSValue) : List (String × JSValue) → List (String × JSValue)
  | [] => [(key, v)]
  | (k, w) :: rest => if k = key then (k, v) :: rest else (k, w) :: setField key v rest

end JSValue

/-- Built-in operations of the JavaScript runtime that the store calls and whose results
depend on the text form of values. They are parameters of the model. -/
structure Runtime where
  /-- ToNumber on a string, an array or an object. -/
  toNumber : JSValue → JSNumber
  /-- The operator `a > b` when an operand is a string, an array or an object. -/
  greater : JSValue → JSValue → Bool
  /-- The operator `a + b`. -/
  add : JSValue → JSValue → JSValue
  /-- The call `JSON.stringify(value, null, 2)`. -/
  stringify : JSValue → String
  /-- The call `JSON.parse(text)`: `none` when it throws a SyntaxError. -/
  parse : String → Option JSValue

/-- ToNumber, as `Math.min` and `Math.max` apply it to their arguments. -/
def toNumber (R : Runtime) (v : JSValue) : JSNumber :=
  match v.primToNumber with
  | some n => n
  | none => R.toNumber v

/-- The operator `a > b`: both operands are converted to numbers and compared, unless one
of them is a string, an array or an object. -/
def jsGreater (R : Runtime) (a b : JSValue) : Bool :=
  match a.primToNumber, b.primToNumber with
  | some x, some y => JSNumber.lt y x
  | _, _ => R.greater a b

/-! ## JavaScript strings

The methods of `String.prototype` and the default order of `Array.prototype.sort` that
`PatchExplorer.listSolutions` and `findLatestConfig` use, on the characters of a string.
JavaScript compares UTF-16 code units; a character outside the Basic Multilingual Plane is
compared by its code point here. -/

/-- Model of `s.startsWith(p)`. -/
def startsWith : List Char → List Char → Bool
  | _, [] => true
  | [], _ :: _ => false
  | c :: cs, p :: ps => c == p && startsWith cs ps

/-- Model of `s.endsWith(p)`. -/
def endsWith (s p : List Char) : Bool :=
  startsWith s.reverse p.reverse

/-- Model of `s.replace(pattern, replacement)` with a string pattern: the first occurrence
of the pattern is replaced, no other. -/
def replaceFirst (pattern replacement : List Char) : List Char → List Char
  | [] => if pattern.isEmpty then replacement else []
  | c :: cs =>
    if startsWith (c :: cs) pattern then replacement ++ (c :: cs).drop pattern.length
    else c :: replaceFirst pattern replacement cs

/-- The order `a < b` of strings, which the default `sort()` uses: lexicographic in the
code units. -/
def codeUnitLt : List Char → List Char → Bool
  | [], [] => false
  | [], _ :: _ => true
  | _ :: _, [] => false
  | a :: as, b :: bs => decide (a.toNat < b.toNat) || (a.toNat == b.toNat && codeUnitLt as bs)

/-- Insertion of a name into an ascending list of names. -/
def insertName (name : String) : List String → List String
  | [] => [name]
  | other :: rest =>
    if codeUnitLt other.data name.data then other :: insertName name rest
    else name :: other :: rest

/-- Model of `names.sort()` on an array of strings: ascending in the order of the code
units. -/
def sortNames (names : List String) : List String :=
  names.foldr insertName []

/-! ## The version-control backend and the awaited calls

The classes of the repository drive `simple-git` and `fs/promises`. Both are outside the
repository; the specification gives their contract (its section 6). The state below keeps
what the store's operations can observe: the active lineage, each lineage with its
snapshots (newest first), the files of the patch directory, and a plan that says which of
the coming calls fail for a reason of the environment (conflicting working state, disk
error, nothing to snapshot). The content of the working tree is not represented. -/

/-- A thrown `Error`: the call that raised it and its message. -/
structure JSError where
  origin : String
  message : String
deriving DecidableEq

/-- One snapshot, as `git.log()` reports it. -/
structure Commit where
  hash : String
  date : String
  message : String
deriving DecidableEq

/-- State of the backend. -/
structure Repo where
  /-- The active lineage (the branch `HEAD` points to). -/
  head : String
  /-- Every lineage, in the order the backend lists them, with its log, newest first. -/
  branches : List (String × List Commit)
  /-- The files of the patch directory: path and content. -/
  files : List (String × String)
  /-- Outcome the environment imposes on the coming calls, one entry per call:
  `some msg` makes the call throw `msg`. An exhausted plan imposes nothing. -/
  faults : List (Option String)
  /-- Number of snapshots taken so far; the next hash and date are derived from it. -/
  clock : Nat

/-- An awaited call: from a state to a returned value or a thrown error, and the state it
leaves. The state left by a call that throws is kept, as in the source. -/
def Git (α : Type) : Type :=
  Repo → Except JSError α × Repo

instance : Monad Git where
  pure a := fun s => (Except.ok a, s)
  bind x f := fun s =>
    match x s with
    | (Except.ok a, s') => f a s'
    | (Except.error e, s') => (Except.error e, s')

instance : MonadExcept JSError Git where
  throw e := fun s => (Except.error e, s)
  tryCatch x handler := fun s =>
    match x s with
    | (Except.ok a, s') => (Except.ok a, s')
    | (Except.error e, s') => handler e s'

namespace Repo

/-- The log of a lineage; empty for a name that is no lineage. -/
def logOf (s : Repo) (name : String) : List Commit :=
  match s.branches.find? (fun b => b.1 == name) with
  | some b => b.2
  | none => []

/-- Whether a name is a lineage. -/
def hasBranch (s : Repo) (name : String) : Bool :=
  s.branches.any (fun b => b.1 == name)

end Repo

/-- Modelled from the spec: the environment's part in every call to `simple-git` or
`fs/promises` (each primitive of the adapter contract is "able to fail"). The call takes
the next entry of the fault plan and throws when the entry names a failure. -/
def environment (origin : String) : Git Unit := fun s =>
  match s.faults with
  | some msg :: rest => (Except.error ⟨origin, msg⟩, { s with faults := rest })
  | none :: rest => (Except.ok (), { s with faults := rest })
  | [] => (Except.ok (), s)

/-- Modelled from the spec: `git.revparse(['--abbrev-ref', 'HEAD'])` of `simple-git`,
the name of the active lineage. -/
def revparseHead : Git String := do
  environment "revparse"
  fun s => (Except.ok s.head, s)

/-- Modelled from the spec: `git.checkoutLocalBranch(name)` of `simple-git`, the primitive
`createLineage` of the adapter contract: "branches from current state; fails if name
exists or working state is unsnapshottable". The new lineage starts with the log of the
active one and becomes active; the contract does not say where it stands in the listing,
the model puts it last. -/
def checkoutLocalBranch (name : String) : Git Unit := do
  environment "checkoutLocalBranch"
  fun s =>
    if s.hasBranch name then
      (Except.error ⟨"checkoutLocalBranch", "a branch named " ++ name ++ " already exists"⟩, s)
    else
      (Except.ok (), { s with head := name, branches := s.branches ++ [(name, s.logOf s.head)] })

/-- Modelled from the spec: `git.checkout(name)` of `simple-git`, the primitive
`switchActive` of the adapter contract: "fails on conflicting uncommitted state", and on a
name that is no lineage. The call makes the lineage active and leaves the file table as
it is: which files a snapshot records is not represented, so the model follows the
backend for files that no snapshot records. The backend also removes from the working
tree the files that the lineage left records and the lineage entered does not (a patch
file that an earlier `git.add('.')` staged and a snapshot recorded); that effect is
outside the model. -/
def checkout (name : String) : Git Unit := do
  environment "checkout"
  fun s =>
    if s.hasBranch name then (Except.ok (), { s with head := name })
    else (Except.error ⟨"checkout", "pathspec " ++ name ++ " did not match"⟩, s)

/-- Modelled from the spec: `git.add('.')` of `simple-git`; the staged content is not
represented: the call stages every file of the working tree, the patch directory
included, and the model keeps no record of it. -/
def add : Git Unit :=
  environment "add"

/-- Modelled from the spec: `git.commit(message)` of `simple-git`, the primitive
`snapshot` of the adapter contract, for a working tree that has changed since the last
snapshot. The snapshot goes first in the log of the active lineage; the call returns its
hash. The working tree is not represented: on an unchanged tree the backend records
nothing (the contract: "fails if nothing changed"), a case the model does not have. -/
def commit (message : String) : Git String := do
  environment "commit"
  fun s =>
    let c : Commit := ⟨"c" ++ toString s.clock, toString s.clock, message⟩
    (Except.ok c.hash,
      { s with
        branches := s.branches.map (fun b => if b.1 == s.head then (b.1, c :: b.2) else b),
        clock := s.clock + 1 })

/-- Modelled from the spec: `git.deleteLocalBranch(name, true)` and `git.branch(['-D',
name])` of `simple-git`, the primitive `deleteLineage` of the adapter contract with
`force`. The backend refuses to delete the active lineage and a name that is no lineage. -/
def deleteLocalBranch (name : String) : Git Unit := do
  environment "deleteLocalBranch"
  fun s =>
    if s.hasBranch name && name != s.head then
      (Except.ok (), { s with branches := s.branches.filter (fun b => b.1 != name) })
    else (Except.error ⟨"deleteLocalBranch", "cannot delete branch " ++ name⟩, s)

/-- Modelled from the spec: `git.branch()` of `simple-git`, the primitive `listLineages`
of the adapter contract; the field `all` of its result. -/
def branchAll : Git (List String) := do
  environment "branch"
  fun s => (Except.ok (s.branches.map (fun b => b.1)), s)

/-- Modelled from the spec: `git.log()` of `simple-git`, the primitive `history` of the
adapter contract: the snapshots of the active lineage, newest first; the field `all` of
its result. -/
def logAll : Git (List Commit) := do
  environment "log"
  fun s => (Except.ok (s.logOf s.head), s)

/-- Modelled from the spec: `git.raw(['format-patch', '-1', '--stdout', 'HEAD'])`, the
primitive `extractPatch` of the adapter contract. The working tree is not represented, so
the patch text only names the snapshot it was extracted from. -/
def formatPatch : Git String := do
  environment "format-patch"
  fun s =>
    match s.logOf s.head with
    | c :: _ => (Except.ok ("From " ++ c.hash), s)
    | [] => (Except.error ⟨"format-patch", "no snapshot"⟩, s)

/-- Modelled from the spec: `fs.writeFile(path, content)`: the file is created or
overwritten. -/
def writeFile (path content : String) : Git Unit := do
  environment "writeFile"
  fun s => (Except.ok (), { s with files := (path, content) :: s.files.filter (fun f => f.1 != path) })

/-- Modelled from the spec: `git.raw(['apply', path])`, the primitive `applyPatch` of the
adapter contract: "fails if patch does not cleanly apply", and when the file is missing.
The working tree is not represented. -/
def applyPatch (path : String) : Git Unit := do
  environment "apply"
  fun s =>
    if s.files.any (fun f => f.1 == path) then (Except.ok (), s)
    else (Except.error ⟨"apply", "cannot open " ++ path⟩, s)

/-- The snapshot a hash names: the first one with that hash in the logs of the lineages. -/
def Repo.findCommit (s : Repo) (hash : String) : Option Commit :=
  s.branches.findSome? (fun b => b.2.find? (fun c => c.hash == hash))

/-- Modelled from the spec: `git.show([hash])` of `simple-git`, the text that presents a
snapshot and its diff. The working tree is not represented, so the text only names the
snapshot. The call fails on a hash that names no snapshot. -/
def showCommit (hash : String) : Git String := do
  environment "show"
  fun s =>
    match s.findCommit hash with
    | some c => (Except.ok ("commit " ++ c.hash), s)
    | none => (Except.error ⟨"show", "bad object " ++ hash⟩, s)

/-- Modelled from the spec: `git.log(['-1', hash])` of `simple-git`, the field `latest` of
its result: the snapshot the hash names. The call fails on a hash that names no
snapshot. -/
def logLatest (hash : String) : Git Commit := do
  environment "log"
  fun s =>
    match s.findCommit hash with
    | some c => (Except.ok c, s)
    | none => (Except.error ⟨"log", "bad revision " ++ hash⟩, s)

/-- Modelled from the spec: `git.diff([hash1, hash2])` of `simple-git`, the primitive
`diff` of the adapter contract: "textual diff between two snapshot identifiers". The
working tree is not represented, so the text only names the two snapshots. The call fails
on a hash that names no snapshot. -/
def diff (hash1 hash2 : String) : Git String := do
  environment "diff"
  fun s =>
    match s.findCommit hash1, s.findCommit hash2 with
    | some a, some b => (Except.ok ("diff " ++ a.hash ++ " " ++ b.hash), s)
    | _, _ => (Except.error ⟨"diff", "bad revision"⟩, s)

/-- The name a path has inside a directory: the rest of the path after the directory and
a slash, when the rest names no deeper directory. -/
def entryOf (dir path : String) : Option String :=
  if startsWith path.data (dir ++ "/").data then
    let rest := path.data.drop (dir ++ "/").data.length
    if rest.contains '/' then none else some (String.mk rest)
  else none

/-- Modelled from the spec: `fs.readdir(dir)` of `fs/promises`: the names of the files
stored in the directory, in the order of the file table. -/
def readdir (dir : String) : Git (List String) := do
  environment "readdir"
  fun s => (Except.ok (s.files.filterMap (fun f => entryOf dir f.1)), s)

/-- An awaited caller-supplied function whose outcome is known: the backend state is
left as it is. -/
def awaited {α : Type} (outcome : Except JSError α) : Git α :=
  fun s => (outcome, s)

/-- Number of failures the environment still plans. -/
def Repo.failures (s : Repo) : Nat :=
  (s.faults.filter Option.isSome).length

/-- Specification of an awaited call: from a state that satisfies `P`, the call returns a
value `a` in a state that satisfies `Q a`, or throws in a state that satisfies `E`. -/
def Triple {α : Type} (P : Repo → Prop) (x : Git α) (Q : α → Repo → Prop)
    (E : Repo → Prop) : Prop :=
  ∀ s, P s →
    match x s with
    | (Except.ok a, s') => Q a s'
    | (Except.error _, s') => E s'

/-- Specification of an awaited call that tells the thrown errors apart: from a state
that satisfies `P`, the call returns a value `a` in a state that satisfies `Q a`, or
throws an error `e` in a state that satisfies `E e`. -/
def Raises {α : Type} (P : Repo → Prop) (x : Git α) (Q : α → Repo → Prop)
    (E : JSError → Repo → Prop) : Prop :=
  ∀ s, P s →
    match x s with
    | (Except.ok a, s') => Q a s'
    | (Except.error e, s') => E e s'

/-- The call leaves the lineages and their logs as they are, whether it returns or
throws. -/
def KeepsBranches {α : Type} (x : Git α) : Prop :=
  ∀ s, (x s).2.branches = s.branches

/-- A quiet plan and the home space among the lineages: what the clean-up needs. -/
def QuietHome (home : String) (s : Repo) : Prop :=
  s.failures = 0 ∧ s.hasBranch home = true

/-- The disposable space is the active one and the home space is among the lineages. -/
def Entered (home b : String) (s : Repo) : Prop :=
  s.hasBranch home = true ∧ s.hasBranch b = true ∧ s.head = b

/-! ## GitDB (src/utils/git-db.js) -/

namespace GitDB

/-- The `catch (error)` clause every method of `GitDB` ends with: a new `Error` whose
message is `prefix: <message of the caught error>`. -/
def wrap {α : Type} (method : String) (label : String) (body : Git α) : Git α :=
  tryCatch body (fun error => throw ⟨method, label ++ ": " ++ error.message⟩)

/-- Model of `GitDB.initSolutionSpace(spaceName, description)`, lines 18-34. -/
def initSolutionSpace (spaceName description : String) : Git (String × String) :=
  wrap "GitDB.initSolutionSpace" "Failed to initialize solution space" (do
    let sanitizedName := sanitizeBranchName spaceName
    let currentBranch ← revparseHead
    checkoutLocalBranch sanitizedName
    add
    let _ ← commit description
    return (sanitizedName, currentBranch))

/-- Model of `GitDB.saveAttempt(description, metadata)`, lines 42-51; `metadata` defaults
to the empty object when it is `undefined`. The message of the snapshot is the text
`JSON.stringify` gives for the object holding `description` and `metadata`. -/
def saveAttempt (R : Runtime) (description : String) (metadata : JSValue) : Git String :=
  let metadata := match metadata with
    | JSValue.undefined => JSValue.object []
    | given => given
  wrap "GitDB.saveAttempt" "Failed to save attempt" (do
    add
    let commitMessage := R.stringify
      (JSValue.object [("description", JSValue.string description), ("metadata", metadata)])
    let result ← commit commitMessage
    return result)

/-- Model of `GitDB.listSolutionSpaces()`, lines 57-64. -/
def listSolutionSpaces : Git (List String) :=
  wrap "GitDB.listSolutionSpaces" "Failed to list solution spaces" (do
    let result ← branchAll
    return result.filter (fun branch => branch != "main" && branch != "master"))

/-- An attempt, as `getAttemptHistory` returns it. -/
structure Attempt where
  hash : String
  date : String
  description : JSValue
  metadata : JSValue

/-- The callback of `log.all.map` in `getAttemptHistory`, lines 73-91. The inner `try`
parses the message and destructures `description` and `metadata` from the result; the
inner `catch` is reached when `JSON.parse` throws and when the parsed value is `null`
(destructuring `null` throws a TypeError). -/
def decodeCommit (R : Runtime) (commit : Commit) : Attempt :=
  let fallback : Attempt :=
    ⟨commit.hash, commit.date, JSValue.string commit.message, JSValue.object []⟩
  match R.parse commit.message with
  | none => fallback
  | some JSValue.null => fallback
  | some JSValue.undefined => fallback
  | some v => ⟨commit.hash, commit.date, v.get "description", v.get "metadata"⟩

/-- Model of `GitDB.getAttemptHistory()`, lines 70-95. -/
def getAttemptHistory (R : Runtime) : Git (List Attempt) :=
  wrap "GitDB.getAttemptHistory" "Failed to get attempt history" (do
    let log ← logAll
    return log.map (decodeCommit R))

/-- Model of `GitDB.switchSolutionSpace(spaceName)`, lines 102-109. -/
def switchSolutionSpace (spaceName : String) : Git Unit :=
  wrap "GitDB.switchSolutionSpace" "Failed to switch solution space" (do
    let sanitizedName := sanitizeBranchName spaceName
    checkout sanitizedName)

/-- Model of `GitDB.deleteSolutionSpace(spaceName)`, lines 164-171. -/
def deleteSolutionSpace (spaceName : String) : Git Unit :=
  wrap "GitDB.deleteSolutionSpace" "Failed to delete solution space" (do
    let sanitizedName := sanitizeBranchName spaceName
    deleteLocalBranch sanitizedName)

/-- Model of `GitDB.retrieveAttempt(commitHash)`, lines 116-143: the attempt decoded from
the snapshot, as in `getAttemptHistory`, and the text of `git.show` as `diff`. -/
def retrieveAttempt (R : Runtime) (commitHash : String) : Git (Attempt × String) :=
  wrap "GitDB.retrieveAttempt" "Failed to retrieve attempt" (do
    let shown ← showCommit commitHash
    let commit ← logLatest commitHash
    return (decodeCommit R commit, shown))

/-- Model of `GitDB.compareAttempts(hash1, hash2)`, lines 151-157. -/
def compareAttempts (hash1 hash2 : String) : Git String :=
  wrap "GitDB.compareAttempts" "Failed to compare attempts" (diff hash1 hash2)

end GitDB

/-! ## SolutionExplorer (src/utils/solution-explorer.js) -/

namespace SolutionExplorer

/-- The caller-supplied evaluator, awaited: the value it returns (or resolves to), or the
error it throws (or rejects with). -/
abbrev Evaluator :=
  JSValue → Except JSError JSValue

/-- Model of `SolutionExplorer.evaluateSolution(solution)`, lines 65-73:
`Math.max(0, Math.min(1, score))` on the awaited score, and `0` from the `catch`. -/
def evaluateSolution (R : Runtime) (evaluator : Evaluator) (solution : JSValue) : JSNumber :=
  match evaluator solution with
  | Except.ok score =>
    JSNumber.max (JSNumber.fin 0) (JSNumber.min (JSNumber.fin 1) (toNumber R score))
  | Except.error _ => JSNumber.fin 0

/-- The object `enrichedMetadata` of `saveAttempt`, lines 47-52, for the awaited result
`evaluation` of `evaluateSolution`: the caller's metadata spread first, then `evaluation`,
`timestamp` (the clock's ISO text, a parameter) and
`iteration: (metadata.iteration || 0) + 1`. -/
def enrichedMetadata (R : Runtime) (evaluation : JSNumber) (now : String)
    (metadata : List (String × JSValue)) : List (String × JSValue) :=
  JSValue.setField "iteration"
    (R.add ((JSValue.lookup "iteration" metadata).orElse (JSValue.number (JSNumber.fin 0)))
      (JSValue.number (JSNumber.fin 1)))
    (JSValue.setField "timestamp" (JSValue.string now)
      (JSValue.setField "evaluation" (JSValue.number evaluation) metadata))

/-- The object `saveAttempt` hands to the store as the attempt's metadata, lines 54-57:
the solution and the enriched metadata. -/
def attemptPayload (R : Runtime) (evaluation : JSNumber) (now : String)
    (solution : JSValue) (metadata : List (String × JSValue)) : JSValue :=
  JSValue.object
    [("solution", solution),
     ("metadata", JSValue.object (enrichedMetadata R evaluation now metadata))]

/-- Model of `SolutionExplorer.saveAttempt(description, solution, metadata)`, lines 46-58. -/
def saveAttempt (R : Runtime) (evaluator : Evaluator) (now : String) (description : String)
    (solution : JSValue) (metadata : List (String × JSValue)) : Git String :=
  let evaluation := evaluateSolution R evaluator solution
  GitDB.saveAttempt R description (attemptPayload R evaluation now solution metadata)

/-- The expression `attempt.metadata?.evaluation || 0` of `getBestSolutions`, lines 89,
90 and 96. -/
def scoreOf (attempt : GitDB.Attempt) : JSValue :=
  (attempt.metadata.getOpt "evaluation").orElse (JSValue.number (JSNumber.fin 0))

/-- The callback of `history.reduce` in `getBestSolutions`, lines 88-91. -/
def pickBetter (R : Runtime) (best current : GitDB.Attempt) : GitDB.Attempt :=
  if jsGreater R (scoreOf current) (scoreOf best) then current else best

/-- The call `history.reduce(callback, history[0])` of lines 88-91. On an empty history
the initial value `history[0]` is `undefined` and so is the result: `none`. -/
def selectBest (R : Runtime) (history : List GitDB.Attempt) : Option GitDB.Attempt :=
  match history with
  | [] => none
  | first :: _ => some (history.foldl (pickBetter R) first)

/-- An entry of the result of `getBestSolutions`, lines 93-99. -/
structure BestSolution where
  space : String
  solution : JSValue
  score : JSValue
  description : JSValue
  hash : String

/-- The entry pushed for a space, lines 93-99. -/
def bestEntry (space : String) (best : GitDB.Attempt) : BestSolution :=
  ⟨space, best.metadata.getOpt "solution", scoreOf best, best.description, best.hash⟩

/-- The body of the loop `for (const space of spaces)` of `getBestSolutions`, lines
83-100, on the spaces still to visit. Reading `best.metadata` of an `undefined` best
throws a TypeError. -/
def bestOfSpaces (R : Runtime) : List String → Git (List BestSolution)
  | [] => pure []
  | space :: rest => do
    GitDB.switchSolutionSpace space
    let history ← GitDB.getAttemptHistory R
    match selectBest R history with
    | none =>
      throw ⟨"TypeError", "Cannot read properties of undefined (reading metadata)"⟩
    | some best =>
      let others ← bestOfSpaces R rest
      return bestEntry space best :: others

/-- Model of `SolutionExplorer.getBestSolutions()`, lines 79-103. -/
def getBestSolutions (R : Runtime) : Git (List BestSolution) := do
  let spaces ← GitDB.listSolutionSpaces
  bestOfSpaces R spaces

/-- The caller-supplied convergence strategy, awaited: the solution it returns, or the
error it throws. -/
abbrev ConvergenceStrategy :=
  List BestSolution → Except JSError JSValue

/-- The result of `createConvergedSolution`, lines 136-140. -/
structure Converged where
  solution : JSValue
  hash : String
  sourceSolutions : List BestSolution

/-- The callback of `bestSolutions.map` in `createConvergedSolution`, lines 128-132: the
triple `space`, `hash`, `score` of a best solution. -/
def sourceEntry (s : BestSolution) : JSValue :=
  JSValue.object
    [("space", JSValue.string s.space), ("hash", JSValue.string s.hash), ("score", s.score)]

/-- The caller metadata `createConvergedSolution` passes to `saveAttempt`, lines 127-133. -/
def sourceMetadata (bestSolutions : List BestSolution) : List (String × JSValue) :=
  [("sourceSolutions", JSValue.array (bestSolutions.map sourceEntry))]

/-- Model of `SolutionExplorer.createConvergedSolution(description, convergenceStrategy)`,
lines 111-141. -/
def createConvergedSolution (R : Runtime) (evaluator : Evaluator) (now : String)
    (description : String) (convergenceStrategy : ConvergenceStrategy) : Git Converged := do
  let bestSolutions ← getBestSolutions R
  let _ ← GitDB.initSolutionSpace "converged-solution" "Final converged solution"
  let convergedSolution ← awaited (convergenceStrategy bestSolutions)
  let hash ← saveAttempt R evaluator now description convergedSolution
    (sourceMetadata bestSolutions)
  return ⟨convergedSolution, hash, bestSolutions⟩

/-- The evaluation of an attempt as the specification reads it, "a missing evaluation
counting as 0": the number stored under `metadata.evaluation`, and 0 when there is none. -/
def evaluationOrZero (attempt : GitDB.Attempt) : JSNumber :=
  match attempt.metadata.getOpt "evaluation" with
  | JSValue.number n => n
  | _ => JSNumber.fin 0

/-- The evaluation of an attempt is missing (`undefined`, or `null` as JSON stores a NaN)
or a number other than NaN. -/
def hasNumericEvaluation (attempt : GitDB.Attempt) : Bool :=
  match attempt.metadata.getOpt "evaluation" with
  | JSValue.undefined => true
  | JSValue.null => true
  | JSValue.number JSNumber.nan => false
  | JSValue.number _ => true
  | _ => false

/-- The attempt `best` is the first one of `history` with the highest evaluation: every
attempt before it is strictly below, no attempt after it is above. -/
def FirstMaximal (history : List GitDB.Attempt) (best : GitDB.Attempt) : Prop :=
  ∃ before after, history = before ++ best :: after ∧
    (∀ a ∈ before, JSNumber.lt (evaluationOrZero a) (evaluationOrZero best) = true) ∧
    (∀ a ∈ after, JSNumber.lt (evaluationOrZero best) (evaluationOrZero a) = false)

/-- The spaces `listSolutionSpaces` returns on a store are ready to be read: each is a
lineage named by its own sanitized name and holds at least one snapshot. -/
def SpacesReadable (s : Repo) : Prop :=
  ∀ sp ∈ (s.branches.map (fun b => b.1)).filter
      (fun branch => branch != "main" && branch != "master"),
    sanitizeBranchName sp = sp ∧ s.hasBranch sp = true ∧ s.logOf sp ≠ []

/-- The message object `GitDB.saveAttempt` serialises for an attempt saved through
`SolutionExplorer.saveAttempt`. -/
def savedMessage (R : Runtime) (evaluator : Evaluator) (now description : String)
    (solution : JSValue) (metadata : List (String × JSValue)) : JSValue :=
  JSValue.object
    [("description", JSValue.string description),
     ("metadata",
      attemptPayload R (evaluateSolution R evaluator solution) now solution metadata)]

/-- The option `numExplorations` the constructor stores, lines 10-16, for the value the
caller gave under that key, if any: the object literal first sets
`options.numExplorations || 3`, and the spread `...options` that follows sets the key
again to the caller's own value when the caller gave one. The count is a natural number
here; a fractional count is not represented. -/
def numExplorations (given : Option Nat) : Nat :=
  let defaulted : Nat :=
    match given with
    | some 0 => 3
    | some n => n
    | none => 3
  match given with
  | some n => n
  | none => defaulted

/-- The loop `for (let i = 0; i < numExplorations; i++)` of
`initializeExplorationSpaces`, lines 27-34, with `remaining` rounds to go from index `i`
and the spaces pushed so far. -/
def explorationLoop (taskDescription : String) : Nat → Nat → List String → Git (List String)
  | 0, _, spaces => pure spaces
  | remaining + 1, i, spaces => do
    let spaceName := "exploration-path-" ++ toString (i + 1)
    let created ← GitDB.initSolutionSpace spaceName
      (taskDescription ++ " - Exploration Path " ++ toString (i + 1))
    explorationLoop taskDescription remaining (i + 1) (spaces ++ [created.1])

/-- Model of `SolutionExplorer.initializeExplorationSpaces(taskDescription)`, lines 24-37,
on an explorer whose option `numExplorations` is given. -/
def initializeExplorationSpaces (numExplorations : Nat) (taskDescription : String) :
    Git (List String) :=
  explorationLoop taskDescription numExplorations 0 []

/-- An entry of the result of `compareSolutions`, lines 155-159. -/
structure Comparison where
  solution1 : String
  solution2 : String
  diff : String
deriving DecidableEq

/-- The inner loop `for (let j = i + 1; ...)` of `compareSolutions`, lines 148-160, for
the hash at index `i` and the hashes after it. -/
def compareWith (first : String) : List String → Git (List Comparison)
  | [] => pure []
  | second :: rest => do
    let diff ← GitDB.compareAttempts first second
    let others ← compareWith first rest
    return ⟨first, second, diff⟩ :: others

/-- Model of `SolutionExplorer.compareSolutions(solutionHashes)`, lines 144-164: the
outer loop over the hashes, on the hashes from index `i` on. -/
def compareSolutions : List String → Git (List Comparison)
  | [] => pure []
  | first :: rest => do
    let row ← compareWith first rest
    let others ← compareSolutions rest
    return row ++ others

/-- The assignment `history[space] = value` on a plain object: an existing key keeps its
place and takes the new value, a new key goes last. The place JavaScript gives to keys
that are array indices is not represented. -/
def assign {β : Type} (key : String) (value : β) : List (String × β) → List (String × β)
  | [] => [(key, value)]
  | (k, w) :: rest => if k = key then (k, value) :: rest else (k, w) :: assign key value rest

/-- The loop `for (const space of spaces)` of `getExplorationHistory`, lines 176-179, on
the spaces still to visit and the object built so far. -/
def historyOfSpaces (R : Runtime) :
    List String → List (String × List GitDB.Attempt) → Git (List (String × List GitDB.Attempt))
  | [], history => pure history
  | space :: rest, history => do
    GitDB.switchSolutionSpace space
    let attempts ← GitDB.getAttemptHistory R
    historyOfSpaces R rest (assign space attempts history)

/-- Model of `SolutionExplorer.getExplorationHistory()`, lines 172-182. -/
def getExplorationHistory (R : Runtime) : Git (List (String × List GitDB.Attempt)) := do
  let spaces ← GitDB.listSolutionSpaces
  historyOfSpaces R spaces []

/-- The pairs of indices `i < j` below `n`, in lexicographic order: the pairs the claim on
`compareSolutions` names. -/
def indexPairs (n : Nat) : List (Nat × Nat) :=
  (List.range n).flatMap (fun i => ((List.range n).filter (fun j => i < j)).map (fun j => (i, j)))

end SolutionExplorer

/-! ## PatchExplorer (src/utils/patch-explorer.js) -/

/-- The fields of a `PatchExplorer` once `init()` has run: the patch directory and the
name of the lineage that was active when `init()` ran. -/
structure PatchExplorer where
  patchDir : String
  currentBranch : String

namespace PatchExplorer

/-- Model of `path.join(this.patchDir, name + '.patch')`; normalisation of the joined
path is not represented. -/
def patchPath (pe : PatchExplorer) (name : String) : String :=
  pe.patchDir ++ "/" ++ name ++ ".patch"

/-- Model of `PatchExplorer.init()`, lines 19-25, on an explorer built for `patchDir`:
`fs.mkdir` with `recursive`, then the active lineage is stored. -/
def init (patchDir : String) : Git PatchExplorer := do
  environment "mkdir"
  let currentBranch ← revparseHead
  return ⟨patchDir, currentBranch⟩

/-- Model of `PatchExplorer.createSolution(name, modifier)`, lines 33-69. The modifier is
any awaited call. -/
def createSolution (pe : PatchExplorer) (name : String) (modifier : Git Unit) : Git String :=
  let branchName := "solution/" ++ name
  tryCatch (do
      checkoutLocalBranch branchName
      modifier
      add
      let _ ← commit ("Solution attempt: " ++ name)
      let patchPath := pe.patchPath name
      let patch ← formatPatch
      writeFile patchPath patch
      checkout pe.currentBranch
      deleteLocalBranch branchName
      return patchPath)
    (fun error => do
      checkout pe.currentBranch
      tryCatch (deleteLocalBranch branchName) (fun _ => pure ())
      throw error)

/-- Model of `PatchExplorer.applySolution(patchName)`, lines 76-79. -/
def applySolution (pe : PatchExplorer) (patchName : String) : Git Unit :=
  applyPatch (pe.patchPath patchName)

/-- The loop `for (const name of patchNames)` of `combineSolutions`, lines 132-134. -/
def applyAll (pe : PatchExplorer) : List String → Git Unit
  | [] => pure ()
  | name :: rest => do
    pe.applySolution name
    applyAll pe rest

/-- Model of `PatchExplorer.combineSolutions(patchNames, outputName)`, lines 124-157. -/
def combineSolutions (pe : PatchExplorer) (patchNames : List String) (outputName : String) :
    Git String :=
  let tempBranch := "combine/" ++ outputName
  tryCatch (do
      checkoutLocalBranch tempBranch
      pe.applyAll patchNames
      add
      let _ ← commit ("Combined solution: " ++ outputName)
      let outputPath := pe.patchPath outputName
      let patch ← formatPatch
      writeFile outputPath patch
      checkout pe.currentBranch
      deleteLocalBranch tempBranch
      return outputPath)
    (fun error => do
      checkout pe.currentBranch
      tryCatch (deleteLocalBranch tempBranch) (fun _ => pure ())
      throw error)

/-- Model of `PatchExplorer.listSolutions()`, lines 95-100: the names in the patch
directory that end in `.patch`, each with its first `.patch` replaced by the empty
string. -/
def listSolutions (pe : PatchExplorer) : Git (List String) := do
  let files ← readdir pe.patchDir
  return (files.filter (fun f => endsWith f.data ".patch".data)).map
    (fun f => String.mk (replaceFirst ".patch".data [] f.data))

/-- The stored patch artifacts: the files of the patch directory, with their contents. -/
def stored (pe : PatchExplorer) (s : Repo) : List (String × String) :=
  s.files.filter (fun f => (entryOf pe.patchDir f.1).isSome)

end PatchExplorer

/-! ## Community configurations (src/index.js, src/community.js) -/

/-- The file name `Community.saveConfig` writes, src/community.js lines 80-81: the name
of the community, a hyphen, the timestamp (an ISO time with `:` and `.` replaced by
hyphens) and `.yml`. -/
def configFileName (name timestamp : String) : String :=
  name ++ "-" ++ timestamp ++ ".yml"

/-- Model of `findLatestConfig(communityName)`, src/index.js lines 14-33, for the working
directory `cwd` and the outcome of `fs.readdir` on its `communities` directory; `none` is
`null`. Normalisation of the joined path is not represented. -/
def findLatestConfig (cwd : String) (listing : Except JSError (List String))
    (communityName : String) : Option String :=
  match listing with
  | Except.error _ => none
  | Except.ok files =>
    let configFiles := files.filter
      (fun f => startsWith f.data communityName.data && endsWith f.data ".yml".data)
    match (sortNames configFiles).reverse with
    | [] => none
    | latest :: _ => some (cwd ++ "/communities/" ++ latest)

/-- The thrown error, if any, was raised by `git.checkout`. -/
def thrownByCheckout {α : Type} (r : Except JSError α) : Bool :=
  match r with
  | Except.error e => e.origin == "checkout"
  | Except.ok _ => false

/-! ## Concrete states used by the witnesses and counterexamples -/

/-- The root snapshot of the example repositories. -/
def exampleCommit : Commit :=
  ⟨"c0", "0", "Initial commit"⟩

/-- A repository with the lineages `main` and `feature`, `main` active, no fault planned. -/
def exampleRepo : Repo :=
  ⟨"main", [("main", [exampleCommit]), ("feature", [exampleCommit])], [], [], 1⟩

/-- The explorer `init()` builds on `exampleRepo`: home lineage `main`. -/
def exampleExplorer : PatchExplorer :=
  ⟨".patches", "main"⟩

/-- A modifier that throws. -/
def failingModifier : Git Unit :=
  throw ⟨"modifier", "cannot write"⟩

/-- The state `exampleRepo` after `GitDB.switchSolutionSpace('feature')`: the explorer's
home lineage is `main`, the active lineage is `feature`. -/
def featureRepo : Repo :=
  (GitDB.switchSolutionSpace "feature" exampleRepo).2

/-- An attempt whose metadata holds the given evaluation. -/
def exampleAttempt (hash : String) (evaluation : JSValue) : GitDB.Attempt :=
  ⟨hash, "0", JSValue.string "attempt", JSValue.object [("evaluation", evaluation)]⟩

/-- A history, newest first: evaluations 0.3, 0.9, 0.9 and a seeding attempt without one. -/
def exampleHistory : List GitDB.Attempt :=
  [exampleAttempt "c3" (JSValue.number (JSNumber.fin (3 / 10))),
   exampleAttempt "c2" (JSValue.number (JSNumber.fin (9 / 10))),
   exampleAttempt "c1" (JSValue.number (JSNumber.fin (9 / 10))),
   ⟨"c0", "0", JSValue.string "T - Exploration Path 1", JSValue.object []⟩]

/-- The default evaluator of the constructor, a function that returns 1. -/
def defaultEvaluator : SolutionExplorer.Evaluator :=
  fun _ => Except.ok (JSValue.number (JSNumber.fin 1))

/-- A store with two exploration spaces, each holding its seeding snapshot; `main` is
active and no fault is planned. -/
def pathsRepo : Repo :=
  ⟨"main",
    [("main", [exampleCommit]),
     ("exploration-path-1", [⟨"c1", "1", "T - Exploration Path 1"⟩, exampleCommit]),
     ("exploration-path-2",
        [⟨"c2", "2", "T - Exploration Path 2"⟩, ⟨"c1", "1", "T - Exploration Path 1"⟩,
         exampleCommit])],
    [], [], 3⟩

/-- A convergence strategy that returns the text `a+b`. -/
def exampleStrategy : SolutionExplorer.ConvergenceStrategy :=
  fun _ => Except.ok (JSValue.string "a+b")

/-- The result of `createConvergedSolution` on `pathsRepo` with `exampleStrategy`. -/
def exampleConverged : SolutionExplorer.Converged :=
  ⟨JSValue.string "a+b", "c4",
    [⟨"exploration-path-1", JSValue.undefined, JSValue.number (JSNumber.fin 0),
        JSValue.string "T - Exploration Path 1", "c1"⟩,
     ⟨"exploration-path-2", JSValue.undefined, JSValue.number (JSNumber.fin 0),
        JSValue.string "T - Exploration Path 2", "c2"⟩]⟩

/-- The store `exampleRepo` with a plan that lets `skip` calls through and makes the next
one fail, the working state being in conflict. -/
def conflictRepo (skip : Nat) : Repo :=
  { exampleRepo with
    faults := List.replicate skip none ++ [some "local changes would be overwritten"] }

/-- A runtime whose `JSON.parse` reads the text `5` as the number 5, as JavaScript does;
no other text is used with it. -/
def numberRuntime : Runtime :=
  ⟨fun _ => JSNumber.nan, fun _ _ => false, fun a _ => a, fun _ => "",
    fun text => if text = "5" then some (JSValue.number (JSNumber.fin 5)) else none⟩

/-- A store whose active lineage holds one snapshot, made outside the system, with the
message `5`. -/
def numberRepo : Repo :=
  ⟨"main", [("main", [⟨"c0", "0", "5"⟩])], [], [], 1⟩

/-- A runtime for the witnesses: `JSON.stringify` answers with one fixed text, which
`JSON.parse` reads back as the value `v`; no other text parses. -/
def exampleRuntime (v : JSValue) : Runtime :=
  ⟨fun _ => JSNumber.nan, fun _ _ => false, fun a _ => a, fun _ => "saved",
    fun text => if text = "saved" then some v else none⟩

/-- The state `pathsRepo` after a first call of `createConvergedSolution`: the convergence
space exists. -/
def convergedRepo : Repo :=
  (SolutionExplorer.createConvergedSolution (exampleRuntime JSValue.null) defaultEvaluator
    "2024-01-01T00:00:00.000Z" "first convergence" exampleStrategy pathsRepo).2

/-- The message object of the attempt `attempt` with metadata holding the solution `b`. -/
def plainMessage : JSValue :=
  JSValue.object
    [("description", JSValue.string "attempt"),
     ("metadata", JSValue.object [("solution", JSValue.string "b")])]

/-- The message object of an attempt saved with the default evaluator, solution `b` and
no caller metadata. -/
def exampleMessage : JSValue :=
  SolutionExplorer.savedMessage (exampleRuntime JSValue.null) defaultEvaluator
    "2024-01-01T00:00:00.000Z" "attempt" (JSValue.string "b") []

/-- The store `exampleRepo` with a plan in which the third backend call fails, the
lineage being locked. -/
def lockedRepo : Repo :=
  { exampleRepo with faults := [none, none, some "branch is locked"] }

/-- The store `exampleRepo` holding the patch file of the solution `a`. -/
def patchedRepo : Repo :=
  { exampleRepo with files := [(".patches/a.patch", "From c0")] }

/-- A store in which the lineages `solution/fix` and `combine/all` exist before any call
of the explorer, each holding a snapshot of its own. -/
def occupiedRepo : Repo :=
  ⟨"main",
    [("main", [exampleCommit]),
     ("solution/fix", [⟨"c1", "1", "earlier work"⟩, exampleCommit]),
     ("combine/all", [⟨"c2", "2", "earlier combination"⟩, exampleCommit])],
    [], [], 3⟩

/-- A runtime whose operator `+` adds two numbers, as JavaScript does; it is used with
numbers only. -/
def arithmeticRuntime : Runtime :=
  ⟨fun _ => JSNumber.nan, fun _ _ => false,
    fun a b =>
      match a, b with
      | JSValue.number x, JSValue.number y => JSValue.number (JSNumber.add x y)
      | _, _ => JSValue.undefined,
    fun _ => "", fun _ => none⟩

/-- A store with the lineages `Draft` and `draft`, made outside the system, each with a
snapshot of its own. -/
def mixedCaseRepo : Repo :=
  ⟨"main",
    [("main", [exampleCommit]),
     ("Draft", [⟨"c1", "1", "outline"⟩, exampleCommit]),
     ("draft", [⟨"c2", "2", "notes"⟩, exampleCommit])],
    [], [], 3⟩

/-! ## Sanitization of space names -/

theorem replaceRuns_cons_not (p : Char → Bool) (c : Char) (l : List Char) (hp : p c = false) :
    replaceRuns p (c :: l) = c :: replaceRuns p l := by
  cases l with
  | nil => simp [replaceRuns, hp]
  | cons d cs => simp [replaceRuns, hp]

theorem replaceRuns_cons_run (p : Char → Bool) (c : Char) (l : List Char) (hp : p c = true) :
    replaceRuns p (c :: l) = '-' :: replaceRuns p (l.dropWhile p) := by
  induction l generalizing c with
  | nil => simp [replaceRuns, hp]
  | cons d cs ih =>
    by_cases hd : p d = true
    · simp only [replaceRuns, hp, hd, if_true, List.dropWhile_cons]
      exact ih d hd
    · simp [replaceRuns, hp, hd, List.dropWhile_cons]

theorem replaceRuns_eq_collapse (p : Char → Bool) (l : List Char) :
    replaceRuns p l = collapseSeparators p l := by
  induction' h : l.length using Nat.strong_induction_on with n ih generalizing l
  cases l with
  | nil => simp [replaceRuns, collapseSeparators]
  | cons c cs =>
    by_cases hp : p c = true
    · rw [replaceRuns_cons_run p c cs hp, collapseSeparators.eq_2, if_pos hp]
      congr 1
      apply ih _ _ _ rfl
      rw [← h]
      exact Nat.lt_succ_of_le ((List.dropWhile_sublist p).length_le)
    · have hp' : p c = false := by simpa using hp
      rw [replaceRuns_cons_not p c cs hp', collapseSeparators.eq_2, if_neg hp]
      congr 1
      apply ih _ _ _ rfl
      rw [← h]; exact Nat.lt_succ_self _

theorem replaceRuns_eq_self (p : Char → Bool) (l : List Char) (h : ∀ c ∈ l, p c = false) :
    replaceRuns p l = l := by
  induction l with
  | nil => rfl
  | cons c cs ih =>
    rw [replaceRuns_cons_not p c cs (h c (List.mem_cons_self _ _)),
      ih (fun d hd => h d (List.mem_cons_of_mem _ hd))]

theorem mem_replaceRuns (p : Char → Bool) (l : List Char) (c : Char)
    (h : c ∈ replaceRuns p l) : c = '-' ∨ (c ∈ l ∧ p c = false) := by
  induction' hn : l.length using Nat.strong_induction_on with n ih generalizing l
  cases l with
  | nil => simp [replaceRuns] at h
  | cons d cs =>
    by_cases hp : p d = true
    · rw [replaceRuns_cons_run p d cs hp] at h
      rcases List.mem_cons.mp h with h | h
      · exact Or.inl h
      · have hlt : (cs.dropWhile p).length < n := by
          rw [← hn]
          exact Nat.lt_succ_of_le ((List.dropWhile_sublist p).length_le)
        rcases ih _ hlt _ h rfl with h | ⟨h1, h2⟩
        · exact Or.inl h
        · exact Or.inr ⟨List.mem_cons_of_mem _ ((List.dropWhile_sublist p).subset h1), h2⟩
    · have hp' : p d = false := by simpa using hp
      rw [replaceRuns_cons_not p d cs hp'] at h
      rcases List.mem_cons.mp h with h | h
      · exact Or.inr ⟨by rw [h]; exact List.mem_cons_self _ _, by rw [h]; exact hp'⟩
      · have hlt : cs.length < n := by rw [← hn]; exact Nat.lt_succ_self _
        rcases ih _ hlt _ h rfl with h | ⟨h1, h2⟩
        · exact Or.inl h
        · exact Or.inr ⟨List.mem_cons_of_mem _ h1, h2⟩

theorem replaceRuns_ne_nil (p : Char → Bool) (c : Char) (l : List Char) :
    replaceRuns p (c :: l) ≠ [] := by
  by_cases hp : p c = true
  · rw [replaceRuns_cons_run p c l hp]; simp
  · rw [replaceRuns_cons_not p c l (by simpa using hp)]; simp

theorem replaceRuns_append_not (p : Char → Bool) (l : List Char) (c : Char) (hp : p c = false) :
    replaceRuns p (l ++ [c]) = replaceRuns p l ++ [c] := by
  induction l with
  | nil => simp [replaceRuns, hp]
  | cons x xs ih =>
    cases xs with
    | nil => by_cases hx : p x = true <;> simp [replaceRuns, hp, hx]
    | cons y ys =>
      have ih' : replaceRuns p (y :: (ys ++ [c])) = replaceRuns p (y :: ys) ++ [c] := by
        simpa using ih
      by_cases hx : p x = true <;> by_cases hy : p y = true <;>
        simp [replaceRuns, hx, hy, ih']

theorem noAdjacentHyphens_replaceRuns (l : List Char) :
    NoAdjacentHyphens (replaceRuns isHyphen l) := by
  unfold NoAdjacentHyphens
  induction l with
  | nil => simp [replaceRuns]
  | cons c cs ih =>
    cases cs with
    | nil => by_cases hc : isHyphen c = true <;> simp [replaceRuns, hc]
    | cons d ds =>
      by_cases hc : isHyphen c = true
      · by_cases hd : isHyphen d = true
        · simpa [replaceRuns, hc, hd] using ih
        · have hd' : isHyphen d = false := by simpa using hd
          have hne : d ≠ '-' := by simpa [isHyphen] using hd'
          rw [replaceRuns_cons_not isHyphen d ds hd'] at ih
          simp only [replaceRuns, hc, hd, if_true, if_false, Bool.false_eq_true]
          rw [replaceRuns_cons_not isHyphen d ds hd']
          exact List.Chain'.cons (fun h => hne h.2) ih
      · have hc' : isHyphen c = false := by simpa using hc
        have hne : c ≠ '-' := by simpa [isHyphen] using hc'
        rw [replaceRuns_cons_not isHyphen c _ hc']
        cases hr : replaceRuns isHyphen (d :: ds) with
        | nil => simp
        | cons e es =>
          rw [hr] at ih
          exact List.Chain'.cons (fun h => hne h.1) ih

theorem replaceRuns_isHyphen_eq_self (l : List Char) (h : NoAdjacentHyphens l) :
    replaceRuns isHyphen l = l := by
  unfold NoAdjacentHyphens at h
  induction l with
  | nil => rfl
  | cons c cs ih =>
    cases cs with
    | nil =>
      by_cases hc : isHyphen c = true
      · have : c = '-' := by simpa [isHyphen] using hc
        simp [replaceRuns, hc, this]
      · simp [replaceRuns, hc]
    | cons d ds =>
      have h2 := List.chain'_cons.mp h
      have ih' := ih h2.2
      by_cases hc : isHyphen c = true
      · have hce : c = '-' := by simpa [isHyphen] using hc
        have hd : isHyphen d = false := by
          by_contra hd
          have hde : d = '-' := by simpa [isHyphen] using hd
          exact h2.1 ⟨hce, hde⟩
        simp only [replaceRuns, hc, hd, if_true, if_false, Bool.false_eq_true]
        rw [ih', hce]
      · rw [replaceRuns_cons_not isHyphen c _ (by simpa using hc), ih']

theorem replaceRuns_compose (l : List Char) :
    replaceRuns isHyphen (replaceRuns isSpaceChar l) = replaceRuns isSeparator l := by
  induction l with
  | nil => rfl
  | cons c cs ih =>
    cases cs with
    | nil =>
      by_cases hs : isSpaceChar c = true
      · simp [replaceRuns, isSeparator, hs, isHyphen]
      · by_cases hh : isHyphen c = true
        · simp [replaceRuns, isSeparator, hs, hh]
        · simp [replaceRuns, isSeparator, hs, hh]
    | cons d ds =>
      have hdash : isHyphen '-' = true := by decide
      by_cases hsd : isSpaceChar d = true
      · -- the tail starts a white-space run: its image starts with a hyphen
        have hS : replaceRuns isSpaceChar (d :: ds) =
            '-' :: replaceRuns isSpaceChar (ds.dropWhile isSpaceChar) :=
          replaceRuns_cons_run _ _ _ hsd
        have hqd : isSeparator d = true := by simp [isSeparator, hsd]
        by_cases hs : isSpaceChar c = true
        · have hq : isSeparator c = true := by simp [isSeparator, hs]
          simpa [replaceRuns, hs, hsd, hq, hqd] using ih
        · have hs' : isSpaceChar c = false := by simpa using hs
          rw [replaceRuns_cons_not isSpaceChar c _ hs']
          by_cases hh : isHyphen c = true
          · have hq : isSeparator c = true := by simp [isSeparator, hh]
            rw [hS] at ih ⊢
            simpa [replaceRuns, hh, hdash, hq, hqd] using ih
          · have hq : isSeparator c = false := by simp [isSeparator, hs, hh]
            rw [replaceRuns_cons_not isHyphen c _ (by simpa using hh),
              replaceRuns_cons_not isSeparator c _ hq, ih]
      · have hsd' : isSpaceChar d = false := by simpa using hsd
        have hS : replaceRuns isSpaceChar (d :: ds) = d :: replaceRuns isSpaceChar ds :=
          replaceRuns_cons_not _ _ _ hsd'
        by_cases hhd : isHyphen d = true
        · have hqd : isSeparator d = true := by simp [isSeparator, hhd]
          by_cases hs : isSpaceChar c = true
          · have hq : isSeparator c = true := by simp [isSeparator, hs]
            rw [hS] at ih
            simpa [replaceRuns, hs, hsd, hq, hqd, hS, hdash, hhd] using ih
          · have hs' : isSpaceChar c = false := by simpa using hs
            rw [replaceRuns_cons_not isSpaceChar c _ hs']
            by_cases hh : isHyphen c = true
            · have hq : isSeparator c = true := by simp [isSeparator, hh]
              rw [hS] at ih ⊢
              simpa [replaceRuns, hh, hhd, hq, hqd] using ih
            · have hq : isSeparator c = false := by simp [isSeparator, hs, hh]
              rw [replaceRuns_cons_not isHyphen c _ (by simpa using hh),
                replaceRuns_cons_not isSeparator c _ hq, ih]
        · have hqd : isSeparator d = false := by simp [isSeparator, hsd, hhd]
          by_cases hs : isSpaceChar c = true
          · have hq : isSeparator c = true := by simp [isSeparator, hs]
            rw [hS] at ih
            simpa [replaceRuns, hs, hsd, hq, hqd, hS, hdash, hhd] using ih
          · have hs' : isSpaceChar c = false := by simpa using hs
            rw [replaceRuns_cons_not isSpaceChar c _ hs']
            by_cases hh : isHyphen c = true
            · have hq : isSeparator c = true := by simp [isSeparator, hh]
              rw [hS] at ih ⊢
              simpa [replaceRuns, hh, hhd, hq, hqd] using ih
            · have hq : isSeparator c = false := by simp [isSeparator, hs, hh]
              rw [replaceRuns_cons_not isHyphen c _ (by simpa using hh),
                replaceRuns_cons_not isSeparator c _ hq, ih]

theorem trim_eq_self (l : List Char) (h : ∀ c ∈ l, isSpaceChar c = false) : trim l = l := by
  have h1 : ∀ l : List Char, (∀ c ∈ l, isSpaceChar c = false) → l.dropWhile isSpaceChar = l := by
    intro l hl
    cases l with
    | nil => rfl
    | cons c cs => simp [List.dropWhile_cons, hl c (List.mem_cons_self _ _)]
  unfold trim
  rw [h1 l h, h1 l.reverse (fun c hc => h c (List.mem_reverse.mp hc)), List.reverse_reverse]

theorem toNat_ofNat_small (n : Nat) (h : n < 55296) : (Char.ofNat n).toNat = n := by
  have hv : n.isValidChar := Or.inl h
  simp only [Char.ofNat, hv, dite_true, Char.ofNatAux, Char.toNat]
  rfl

theorem isLower_toNat (c : Char) :
    c.isLower = (decide (97 ≤ c.toNat) && decide (c.toNat ≤ 122)) := by
  simp only [Char.isLower, Char.toNat, ge_iff_le, UInt32.le_def, BitVec.le_def]
  rfl

theorem isDigit_toNat (c : Char) :
    c.isDigit = (decide (48 ≤ c.toNat) && decide (c.toNat ≤ 57)) := by
  simp only [Char.isDigit, Char.toNat, ge_iff_le, UInt32.le_def, BitVec.le_def]
  rfl

theorem isUpper_toNat (c : Char) :
    c.isUpper = (decide (65 ≤ c.toNat) && decide (c.toNat ≤ 90)) := by
  simp only [Char.isUpper, Char.toNat, ge_iff_le, UInt32.le_def, BitVec.le_def]
  rfl

theorem char_eq_iff_toNat (c d : Char) : c = d ↔ c.toNat = d.toNat := by
  constructor
  · intro h; rw [h]
  · intro h
    have := congrArg Char.ofNat h
    simpa [Char.ofNat_toNat] using this

theorem char_beq_toNat (c d : Char) : (c == d) = decide (c.toNat = d.toNat) := by
  by_cases h : c = d
  · simp [h]
  · have h' : c.toNat ≠ d.toNat := fun e => h ((char_eq_iff_toNat c d).mpr e)
    simp [h, h']

theorem isWordChar_toNat (c : Char) :
    isWordChar c = true ↔
      (48 ≤ c.toNat ∧ c.toNat ≤ 57) ∨ (65 ≤ c.toNat ∧ c.toNat ≤ 90) ∨ c.toNat = 95 ∨
        (97 ≤ c.toNat ∧ c.toNat ≤ 122) := by
  have h95 : ('_' : Char).toNat = 95 := rfl
  simp only [isWordChar, Char.isAlphanum, Char.isAlpha, isLower_toNat, isDigit_toNat,
    isUpper_toNat, char_beq_toNat, h95, Bool.or_eq_true, Bool.and_eq_true, decide_eq_true_eq]
  omega

theorem isOutputChar_toNat (c : Char) :
    isOutputChar c = true ↔
      (48 ≤ c.toNat ∧ c.toNat ≤ 57) ∨ c.toNat = 45 ∨ c.toNat = 95 ∨
        (97 ≤ c.toNat ∧ c.toNat ≤ 122) := by
  have h95 : ('_' : Char).toNat = 95 := rfl
  have h45 : ('-' : Char).toNat = 45 := rfl
  simp only [isOutputChar, isLower_toNat, isDigit_toNat,
    char_beq_toNat, h95, h45, Bool.or_eq_true, Bool.and_eq_true, decide_eq_true_eq]
  omega

theorem isSpaceChar_toNat (c : Char) :
    isSpaceChar c = true ↔
      (9 ≤ c.toNat ∧ c.toNat ≤ 13) ∨ c.toNat = 0x20 ∨ c.toNat = 0xA0 ∨ c.toNat = 0x1680 ∨
      (0x2000 ≤ c.toNat ∧ c.toNat ≤ 0x200A) ∨ c.toNat = 0x2028 ∨ c.toNat = 0x2029 ∨
      c.toNat = 0x202F ∨ c.toNat = 0x205F ∨ c.toNat = 0x3000 ∨ c.toNat = 0xFEFF := by
  simp only [isSpaceChar, Bool.or_eq_true, Bool.and_eq_true, decide_eq_true_eq, beq_iff_eq]
  omega

theorem isHyphen_toNat (c : Char) : isHyphen c = true ↔ c.toNat = 45 := by
  have h45 : ('-' : Char).toNat = 45 := rfl
  simp only [isHyphen, char_beq_toNat, h45, decide_eq_true_eq]

theorem toLower_toNat (c : Char) :
    c.toLower.toNat = if 65 ≤ c.toNat ∧ c.toNat ≤ 90 then c.toNat + 32 else c.toNat := by
  unfold Char.toLower
  by_cases h : c.toNat ≥ 65 ∧ c.toNat ≤ 90
  · simp only [h, and_self, if_true]
    rw [toNat_ofNat_small _ (by omega)]
  · simp only [h, if_false]

/-- What survives lower-casing and the first `replace` is an output character or white space. -/
theorem kept_lowerChar (c d : Char) (hd : d ∈ lowerChar c)
    (hk : (isWordChar d || isSpaceChar d || isHyphen d) = true) :
    isOutputChar d = true ∨ isSpaceChar d = true := by
  have hk' : isWordChar d = true ∨ isSpaceChar d = true ∨ isHyphen d = true := by
    simpa [Bool.or_eq_true, or_assoc] using hk
  unfold lowerChar at hd
  by_cases h1 : c.toNat = 0x130
  · simp only [h1, beq_self_eq_true, if_true, List.mem_cons, List.mem_singleton,
      List.not_mem_nil, or_false] at hd
    rcases hd with hd | hd
    · subst hd; left; decide
    · subst hd; exfalso; revert hk; decide
  · by_cases h2 : c.toNat = 0x212A
    · rw [if_neg (by simpa using h1), if_pos (by simpa using h2), List.mem_singleton] at hd
      subst hd; left; decide
    · simp only [beq_iff_eq, h1, h2, if_false, List.mem_singleton] at hd
      subst hd
      have ht := toLower_toNat c
      rw [isOutputChar_toNat, isSpaceChar_toNat]
      rw [isWordChar_toNat, isSpaceChar_toNat, isHyphen_toNat] at hk'
      generalize c.toLower.toNat = m at *
      generalize c.toNat = n at *
      split_ifs at ht <;> omega

/-- An output character is left alone by lower-casing and by the first `replace`, and is
not white space. -/
theorem isOutputChar_fixed (c : Char) (h : isOutputChar c = true) :
    lowerChar c = [c] ∧ (isWordChar c || isSpaceChar c || isHyphen c) = true ∧
      isSpaceChar c = false := by
  rw [isOutputChar_toNat] at h
  refine ⟨?_, ?_, ?_⟩
  · unfold lowerChar
    have h1 : ¬ c.toNat = 0x130 := by omega
    have h2 : ¬ c.toNat = 0x212A := by omega
    simp only [beq_iff_eq, h1, h2, if_false]
    congr 1
    rw [char_eq_iff_toNat, toLower_toNat]
    split_ifs <;> omega
  · have : isWordChar c = true ∨ isSpaceChar c = true ∨ isHyphen c = true := by
      rw [isWordChar_toNat, isSpaceChar_toNat, isHyphen_toNat]; omega
    simpa [Bool.or_eq_true, or_assoc] using this
  · have : ¬ isSpaceChar c = true := by
      rw [isSpaceChar_toNat]; omega
    simpa using this

theorem no_space_after_replace (k : List Char) :
    ∀ c ∈ replaceRuns isHyphen (replaceRuns isSpaceChar k), isSpaceChar c = false := by
  intro c hc
  rcases mem_replaceRuns _ _ _ hc with h | ⟨h, _⟩
  · subst h; decide
  · rcases mem_replaceRuns _ _ _ h with h | ⟨_, h⟩
    · subst h; decide
    · exact h

theorem sanitizeChars_eq (l : List Char) :
    sanitizeChars l =
      replaceRuns isHyphen (replaceRuns isSpaceChar (removeSpecial (toLowerCase l))) := by
  unfold sanitizeChars
  exact trim_eq_self _ (no_space_after_replace _)

theorem sanitizeChars_eq_separator (l : List Char) :
    sanitizeChars l = replaceRuns isSeparator (removeSpecial (toLowerCase l)) := by
  rw [sanitizeChars_eq, replaceRuns_compose]

theorem sanitizeChars_output (l : List Char) :
    ∀ c ∈ sanitizeChars l, isOutputChar c = true := by
  intro c hc
  rw [sanitizeChars_eq] at hc
  rcases mem_replaceRuns _ _ _ hc with h | ⟨h, _⟩
  · subst h; decide
  · rcases mem_replaceRuns _ _ _ h with h | ⟨hk, hs⟩
    · subst h; decide
    · unfold removeSpecial at hk
      rw [List.mem_filter] at hk
      obtain ⟨hmem, hkept⟩ := hk
      unfold toLowerCase at hmem
      rw [List.mem_flatMap] at hmem
      obtain ⟨a, _, ha⟩ := hmem
      rcases kept_lowerChar a c ha hkept with h | h
      · exact h
      · rw [hs] at h; exact absurd h (by decide)

theorem sanitizeChars_noAdjacent (l : List Char) : NoAdjacentHyphens (sanitizeChars l) := by
  rw [sanitizeChars_eq]
  exact noAdjacentHyphens_replaceRuns _

theorem sanitizeChars_fixed (t : List Char) (hout : ∀ c ∈ t, isOutputChar c = true)
    (hadj : NoAdjacentHyphens t) : sanitizeChars t = t := by
  have hlow : toLowerCase t = t := by
    unfold toLowerCase
    induction t with
    | nil => rfl
    | cons c cs ih =>
      rw [List.flatMap_cons, (isOutputChar_fixed c (hout c (List.mem_cons_self _ _))).1,
        ih (fun d hd => hout d (List.mem_cons_of_mem _ hd)) (List.Chain'.tail hadj)]
      rfl
  have hrem : removeSpecial t = t := by
    unfold removeSpecial
    rw [List.filter_eq_self]
    intro c hc
    exact (isOutputChar_fixed c (hout c hc)).2.1
  have hsp : replaceRuns isSpaceChar t = t :=
    replaceRuns_eq_self _ _ (fun c hc => (isOutputChar_fixed c (hout c hc)).2.2)
  rw [sanitizeChars_eq, hlow, hrem, hsp, replaceRuns_isHyphen_eq_self t hadj]

theorem sanitizeChars_idempotent (l : List Char) :
    sanitizeChars (sanitizeChars l) = sanitizeChars l :=
  sanitizeChars_fixed _ (sanitizeChars_output l) (sanitizeChars_noAdjacent l)

/-- C7. Sanitization is idempotent: for every string `s`,
`sanitizeBranchName(sanitizeBranchName(s)) = sanitizeBranchName(s)`. -/
theorem sanitizeBranchName_idempotent (s : String) :
    sanitizeBranchName (sanitizeBranchName s) = sanitizeBranchName s := by
  unfold sanitizeBranchName
  rw [sanitizeChars_idempotent]

/-- C8, as stated, fails: `sanitizeBranchName("a_b")` is `a_b`, and the underscore is
neither a lower-case letter, a digit nor a hyphen. -/
theorem sanitizeBranchName_keeps_underscore :
    sanitizeBranchName "a_b" = "a_b" ∧
      (sanitizeBranchName "a_b").data.all (fun c => c.isLower || c.isDigit || c == '-')
        = false := by
  decide

/-- C8, amended. For every string `s`, every character of `sanitizeBranchName(s)` is a
lower-case letter `a`..`z`, a digit `0`..`9`, an underscore or a hyphen. -/
theorem sanitizeBranchName_chars (s : String) :
    (sanitizeBranchName s).data.all isOutputChar = true := by
  rw [List.all_eq_true]
  exact sanitizeChars_output s.data

/-- C9, a defect of the code. The final `trim()` runs after white space has become
hyphens and removes nothing: `sanitizeBranchName(" Hello World ")` is `-hello-world-`,
which begins and ends with a hyphen, and `sanitizeBranchName(" a")` is `-a`; the text
handed to `trim()` is already `-hello-world-`. -/
theorem sanitizeBranchName_trim_after_hyphens :
    sanitizeBranchName " Hello World " = "-hello-world-" ∧
      (sanitizeBranchName " Hello World ").data.head? = some '-' ∧
      (sanitizeBranchName " Hello World ").data.getLast? = some '-' ∧
      sanitizeBranchName " a" = "-a" ∧
      replaceRuns isHyphen (replaceRuns isSpaceChar
        (removeSpecial (toLowerCase " Hello World ".data))) = "-hello-world-".data := by
  decide

/-- Names whose ends need no trimming: for every string `s` whose lower-cased, stripped
form has neither white space nor a hyphen as its first or last character,
`sanitizeBranchName(s)` neither begins nor ends with a hyphen. -/
theorem sanitizeBranchName_ends (s : String)
    (hfirst : ∀ c, (strippedLower s).head? = some c → isSeparator c = false)
    (hlast : ∀ c, (strippedLower s).getLast? = some c → isSeparator c = false) :
    (sanitizeBranchName s).data.head? ≠ some '-' ∧
      (sanitizeBranchName s).data.getLast? ≠ some '-' := by
  have hsep : isSeparator '-' = true := by decide
  have e : (sanitizeBranchName s).data = replaceRuns isSeparator (strippedLower s) :=
    sanitizeChars_eq_separator s.data
  rw [e]
  constructor
  · cases hk : strippedLower s with
    | nil => simp [replaceRuns]
    | cons c cs =>
      have hc := hfirst c (by rw [hk]; rfl)
      rw [replaceRuns_cons_not _ _ _ hc]
      intro h
      have : c = '-' := by simpa using h
      rw [this, hsep] at hc
      exact absurd hc (by decide)
  · rcases List.eq_nil_or_concat (strippedLower s) with hk | ⟨cs, c, hk⟩
    · rw [hk]; simp [replaceRuns]
    · have hc := hlast c (by rw [hk]; simp)
      rw [hk, List.concat_eq_append, replaceRuns_append_not _ _ _ hc]
      intro h
      have : c = '-' := by simpa using h
      rw [this, hsep] at hc
      exact absurd hc (by decide)

/-- The name `My Fix!`, sanitized to `my-fix`, has no hyphen at its ends. -/
theorem sanitizeBranchName_ends_witness :
    sanitizeBranchName "My Fix!" = "my-fix" ∧
      (sanitizeBranchName "My Fix!").data.head? ≠ some '-' ∧
      (sanitizeBranchName "My Fix!").data.getLast? ≠ some '-' :=
  ⟨by decide, sanitizeBranchName_ends "My Fix!" (by decide) (by decide)⟩

/-- C10. For every string `s`, `sanitizeBranchName(s)` contains no white space and no two
adjacent hyphens, and it is the lower-cased, stripped input in which every maximal run of
white space and hyphens has been replaced by exactly one hyphen. -/
theorem sanitizeBranchName_separators (s : String) :
    (sanitizeBranchName s).data.all (fun c => !isSpaceChar c) = true ∧
      NoAdjacentHyphens (sanitizeBranchName s).data ∧
      (sanitizeBranchName s).data = collapseSeparators isSeparator (strippedLower s) := by
  refine ⟨?_, sanitizeChars_noAdjacent s.data, ?_⟩
  · rw [List.all_eq_true]
    intro c hc
    have hc' : c ∈ sanitizeChars s.data := hc
    rw [sanitizeChars_eq] at hc'
    simp [no_space_after_replace _ c hc']
  · rw [← replaceRuns_eq_collapse]
    exact sanitizeChars_eq_separator s.data

/-! ## The awaited calls, step by step -/

theorem Git.pure_run {α : Type} (a : α) (s : Repo) :
    (pure a : Git α) s = (Except.ok a, s) := rfl

theorem Git.bind_run {α β : Type} (x : Git α) (f : α → Git β) (s : Repo) :
    (x >>= f) s =
      match x s with
      | (Except.ok a, s') => f a s'
      | (Except.error e, s') => (Except.error e, s') := rfl

theorem Git.throw_run {α : Type} (e : JSError) (s : Repo) :
    (throw e : Git α) s = (Except.error e, s) := rfl

theorem Git.tryCatch_run {α : Type} (x : Git α) (h : JSError → Git α) (s : Repo) :
    (tryCatch x h) s =
      match x s with
      | (Except.ok a, s') => (Except.ok a, s')
      | (Except.error e, s') => h e s' := rfl

/-- A sequence returns only if its first call returned and the rest returned from there. -/
theorem Git.bind_ok {α β : Type} {x : Git α} {f : α → Git β} {s s' : Repo} {b : β}
    (h : (x >>= f) s = (Except.ok b, s')) :
    ∃ a s1, x s = (Except.ok a, s1) ∧ f a s1 = (Except.ok b, s') := by
  rw [Git.bind_run] at h
  rcases hx : x s with ⟨_ | a, s1⟩
  · rw [hx] at h; simp at h
  · rw [hx] at h; exact ⟨a, s1, rfl, h⟩

theorem environment_head (origin : String) (s : Repo) :
    (environment origin s).2.head = s.head := by
  unfold environment
  rcases s with ⟨h, bs, fl, fs, c⟩
  rcases fs with _ | ⟨_ | m, rest⟩ <;> rfl

theorem environment_error (origin : String) (s s' : Repo) (e : JSError)
    (h : environment origin s = (Except.error e, s')) : e.origin = origin := by
  unfold environment at h
  rcases s with ⟨hd, bs, fl, fs, c⟩
  rcases fs with _ | ⟨_ | m, rest⟩ <;> simp at h
  rw [← h.1]

theorem checkout_ok (name : String) (s s' : Repo) (u : Unit)
    (h : checkout name s = (Except.ok u, s')) : s'.head = name := by
  unfold checkout at h
  obtain ⟨_, s1, _, h2⟩ := Git.bind_ok h
  by_cases hb : s1.hasBranch name = true
  · simp only [hb, if_true] at h2
    have := (Prod.mk.inj h2).2
    rw [← this]
  · simp [hb] at h2

theorem checkout_error (name : String) (s s' : Repo) (e : JSError)
    (h : checkout name s = (Except.error e, s')) : e.origin = "checkout" := by
  unfold checkout at h
  rw [Git.bind_run] at h
  rcases hx : environment "checkout" s with ⟨e1 | a, s1⟩
  · rw [hx] at h
    simp only [Prod.mk.injEq, Except.error.injEq] at h
    rw [← h.1]
    exact environment_error _ _ _ _ hx
  · rw [hx] at h
    by_cases hb : s1.hasBranch name = true
    · simp [hb] at h
    · simp only [hb, if_false, Prod.mk.injEq, Except.error.injEq, Bool.false_eq_true] at h
      rw [← h.1]

theorem deleteLocalBranch_head (name : String) (s : Repo) :
    (deleteLocalBranch name s).2.head = s.head := by
  unfold deleteLocalBranch
  rw [Git.bind_run]
  have he := environment_head "deleteLocalBranch" s
  rcases hx : environment "deleteLocalBranch" s with ⟨e1 | a, s1⟩
  · rw [hx] at he; exact he
  · rw [hx] at he
    simp only
    split_ifs <;> exact he


/-- The clean-up of `createSolution` and `combineSolutions` (their `catch` clause): unless
the restoring checkout throws, the home lineage is active afterwards. -/
theorem cleanup_head {α : Type} (cb b : String) (error : JSError) (s : Repo) :
    let r := ((do
      checkout cb
      tryCatch (deleteLocalBranch b) (fun _ => pure ())
      throw error) : Git α) s
    thrownByCheckout r.1 = false → r.2.head = cb := by
  intro r hr
  simp only [r, Git.bind_run] at hr ⊢
  rcases hc : checkout cb s with ⟨e | u, s1⟩
  · exfalso
    simp only [hc, thrownByCheckout, checkout_error _ _ _ _ hc, beq_self_eq_true] at hr
    exact absurd hr (by decide)
  · have h1 := checkout_ok _ _ _ _ hc
    have h2 := deleteLocalBranch_head b s1
    simp only [Git.tryCatch_run, Git.throw_run, Git.pure_run]
    rcases hd : deleteLocalBranch b s1 with ⟨e | u, s2⟩
    · rw [hd] at h2; simp only; rw [h2, h1]
    · rw [hd] at h2; simp only; rw [h2, h1]

/-- The last steps of the `try` block: when they return, the home lineage is active. -/
theorem restore_tail_head {α : Type} (cb b : String) (a : α) (s s' : Repo) (x : α)
    (h : ((do
      checkout cb
      deleteLocalBranch b
      return a) : Git α) s = (Except.ok x, s')) : s'.head = cb := by
  obtain ⟨u, s1, h1, h⟩ := Git.bind_ok h
  obtain ⟨_, s2, h2, h⟩ := Git.bind_ok h
  have e1 := checkout_ok _ _ _ _ h1
  have e2 := deleteLocalBranch_head b s1
  rw [h2] at e2
  have e3 : s' = s2 := ((Prod.mk.inj h).2).symm
  rw [e3, e2, e1]

/-- A `try` block whose returns leave the home lineage active, with a `catch` clause that
leaves it active unless the restoring checkout throws. -/
theorem guarded_head {α : Type} (cb : String) (body : Git α) (handler : JSError → Git α)
    (s : Repo)
    (hbody : ∀ a s', body s = (Except.ok a, s') → s'.head = cb)
    (hhandler : ∀ e s1, thrownByCheckout (handler e s1).1 = false → (handler e s1).2.head = cb)
    (hr : thrownByCheckout ((tryCatch body handler) s).1 = false) :
    ((tryCatch body handler) s).2.head = cb := by
  rw [Git.tryCatch_run] at hr ⊢
  rcases hb : body s with ⟨e | a, s1⟩
  · rw [hb] at hr
    simp only [hb]
    exact hhandler e s1 hr
  · simp only [hb]
    exact hbody a s1 hb

theorem createSolution_head (pe : PatchExplorer) (name : String) (modifier : Git Unit)
    (s : Repo) (hr : thrownByCheckout (pe.createSolution name modifier s).1 = false) :
    (pe.createSolution name modifier s).2.head = pe.currentBranch := by
  unfold PatchExplorer.createSolution at hr ⊢
  refine guarded_head pe.currentBranch _ _ s ?_ ?_ hr
  · intro a s' hb
    obtain ⟨_, _, _, hb⟩ := Git.bind_ok hb
    obtain ⟨_, _, _, hb⟩ := Git.bind_ok hb
    obtain ⟨_, _, _, hb⟩ := Git.bind_ok hb
    obtain ⟨_, _, _, hb⟩ := Git.bind_ok hb
    obtain ⟨_, _, _, hb⟩ := Git.bind_ok hb
    obtain ⟨_, _, _, hb⟩ := Git.bind_ok hb
    exact restore_tail_head _ _ _ _ _ _ hb
  · intro e s1 h
    exact cleanup_head pe.currentBranch _ e s1 h

theorem combineSolutions_head (pe : PatchExplorer) (names : List String) (outputName : String)
    (s : Repo) (hr : thrownByCheckout (pe.combineSolutions names outputName s).1 = false) :
    (pe.combineSolutions names outputName s).2.head = pe.currentBranch := by
  unfold PatchExplorer.combineSolutions at hr ⊢
  refine guarded_head pe.currentBranch _ _ s ?_ ?_ hr
  · intro a s' hb
    obtain ⟨_, _, _, hb⟩ := Git.bind_ok hb
    obtain ⟨_, _, _, hb⟩ := Git.bind_ok hb
    obtain ⟨_, _, _, hb⟩ := Git.bind_ok hb
    obtain ⟨_, _, _, hb⟩ := Git.bind_ok hb
    obtain ⟨_, _, _, hb⟩ := Git.bind_ok hb
    obtain ⟨_, _, _, hb⟩ := Git.bind_ok hb
    exact restore_tail_head _ _ _ _ _ _ hb
  · intro e s1 h
    exact cleanup_head pe.currentBranch _ e s1 h

/-- C1, as stated, fails: an explorer initialised on `main`, called while `feature` is
the active lineage, returns normally and leaves `main` active. -/
theorem createSolution_leaves_home_active :
    (PatchExplorer.init ".patches" exampleRepo).1 = Except.ok exampleExplorer ∧
      featureRepo.head = "feature" ∧
      (exampleExplorer.createSolution "fix" (pure ()) featureRepo).1 =
        Except.ok ".patches/fix.patch" ∧
      (exampleExplorer.createSolution "fix" (pure ()) featureRepo).2.head = "main" :=
  ⟨rfl, rfl, rfl, rfl⟩

/-- C1, amended. For every store state whose active space is the home space recorded by
`init()`, and every call `createSolution(name, modifier)` or
`combineSolutions(names, outputName)` that returns normally or throws an error other than
that of the checkout restoring the home space (so: the error of the lineage creation, the
modifier, a patch application, the snapshot step, the patch extraction or the deletion),
the active space after the call equals the active space immediately before the call. -/
theorem active_space_restored (pe : PatchExplorer) (s : Repo)
    (hhome : s.head = pe.currentBranch) :
    (∀ (name : String) (modifier : Git Unit),
        thrownByCheckout (pe.createSolution name modifier s).1 = false →
        (pe.createSolution name modifier s).2.head = s.head) ∧
      (∀ (patchNames : List String) (outputName : String),
        thrownByCheckout (pe.combineSolutions patchNames outputName s).1 = false →
        (pe.combineSolutions patchNames outputName s).2.head = s.head) := by
  rw [hhome]
  exact ⟨fun name modifier h => createSolution_head pe name modifier s h,
    fun names outputName h => combineSolutions_head pe names outputName s h⟩

/-- Witness of C1, amended: on `exampleRepo` a modifier that throws, and a combination
naming a patch that does not exist; both calls throw and leave `main` active. -/
theorem active_space_restored_witness :
    (exampleExplorer.createSolution "fix" failingModifier exampleRepo).1 =
        Except.error ⟨"modifier", "cannot write"⟩ ∧
      (exampleExplorer.createSolution "fix" failingModifier exampleRepo).2.head =
        exampleRepo.head ∧
      (exampleExplorer.combineSolutions ["missing"] "all" exampleRepo).2.head =
        exampleRepo.head :=
  ⟨rfl, (active_space_restored exampleExplorer exampleRepo rfl).1 "fix" failingModifier rfl,
    (active_space_restored exampleExplorer exampleRepo rfl).2 ["missing"] "all" rfl⟩

/-! ## Order of JavaScript numbers -/

theorem jsLt_irrefl (a : JSNumber) : JSNumber.lt a a = false := by
  cases a <;> simp [JSNumber.lt]

theorem jsLt_trans {a b c : JSNumber} (h1 : JSNumber.lt a b = true)
    (h2 : JSNumber.lt b c = true) : JSNumber.lt a c = true := by
  cases a <;> cases b <;> cases c <;> simp_all [JSNumber.lt]
  exact lt_trans h1 h2

/-- On numbers other than NaN the order is total: what is not above `b`, with `b` below
`c`, is below `c`. -/
theorem jsLt_of_not_lt_of_lt {a b c : JSNumber} (ha : a ≠ JSNumber.nan)
    (hb : b ≠ JSNumber.nan) (h1 : JSNumber.lt b a = false) (h2 : JSNumber.lt b c = true) :
    JSNumber.lt a c = true := by
  cases a <;> cases b <;> cases c <;> simp_all [JSNumber.lt]
  exact lt_of_le_of_lt h1 h2

/-! ## Selection of the best attempt -/

open SolutionExplorer GitDB

/-- With a numeric or missing evaluation, the score the code compares is the evaluation of
the specification, and it is not NaN. -/
theorem scoreOf_numeric (a : Attempt) (h : hasNumericEvaluation a = true) :
    scoreOf a = JSValue.number (evaluationOrZero a) ∧ evaluationOrZero a ≠ JSNumber.nan := by
  unfold hasNumericEvaluation at h
  unfold scoreOf evaluationOrZero
  cases hv : a.metadata.getOpt "evaluation" with
  | undefined => simp [JSValue.orElse, JSValue.truthy]
  | null => simp [JSValue.orElse, JSValue.truthy]
  | bool b => rw [hv] at h; simp at h
  | string s => rw [hv] at h; simp at h
  | array xs => rw [hv] at h; simp at h
  | object fs => rw [hv] at h; simp at h
  | number n =>
    rw [hv] at h
    cases n with
    | nan => simp at h
    | negInf => simp [JSValue.orElse, JSValue.truthy]
    | posInf => simp [JSValue.orElse, JSValue.truthy]
    | fin q =>
      by_cases hq : q = 0
      · simp [JSValue.orElse, JSValue.truthy, hq]
      · simp [JSValue.orElse, JSValue.truthy, hq]

/-- On attempts with numeric or missing evaluations the callback of `reduce` keeps the
current attempt exactly when its evaluation is strictly above the best one so far. -/
theorem pickBetter_numeric (R : Runtime) (best current : Attempt)
    (hb : hasNumericEvaluation best = true) (hc : hasNumericEvaluation current = true) :
    pickBetter R best current =
      if JSNumber.lt (evaluationOrZero best) (evaluationOrZero current) then current
      else best := by
  unfold pickBetter jsGreater
  rw [(scoreOf_numeric best hb).1, (scoreOf_numeric current hc).1]
  simp [JSValue.primToNumber]

theorem foldl_pickBetter_firstMaximal (R : Runtime) (rest seen : List Attempt)
    (best : Attempt) (hseen : ∀ a ∈ seen, hasNumericEvaluation a = true)
    (hrest : ∀ a ∈ rest, hasNumericEvaluation a = true)
    (hinv : FirstMaximal seen best) :
    FirstMaximal (seen ++ rest) (rest.foldl (pickBetter R) best) := by
  induction rest generalizing seen best with
  | nil => simpa using hinv
  | cons x xs ih =>
    obtain ⟨before, after, hsplit, hbefore, hafter⟩ := hinv
    have hbest : hasNumericEvaluation best = true :=
      hseen best (by rw [hsplit]; simp)
    have hx : hasNumericEvaluation x = true := hrest x (List.mem_cons_self _ _)
    have hseen' : ∀ a ∈ seen ++ [x], hasNumericEvaluation a = true := by
      intro a ha
      rcases List.mem_append.mp ha with h | h
      · exact hseen a h
      · rw [List.mem_singleton.mp h]; exact hx
    have hrest' : ∀ a ∈ xs, hasNumericEvaluation a = true :=
      fun a ha => hrest a (List.mem_cons_of_mem _ ha)
    have hstep : FirstMaximal (seen ++ [x]) (pickBetter R best x) := by
      rw [pickBetter_numeric R best x hbest hx]
      by_cases hlt : JSNumber.lt (evaluationOrZero best) (evaluationOrZero x) = true
      · rw [if_pos hlt]
        refine ⟨seen, [], rfl, ?_, by simp⟩
        intro a ha
        rw [hsplit] at ha
        rcases List.mem_append.mp ha with h | h
        · exact jsLt_trans (hbefore a h) hlt
        · rcases List.mem_cons.mp h with h | h
          · rw [h]; exact hlt
          · have ha' : hasNumericEvaluation a = true :=
              hseen a (by rw [hsplit]; simp [h])
            exact jsLt_of_not_lt_of_lt (scoreOf_numeric a ha').2
              (scoreOf_numeric best hbest).2 (hafter a h) hlt
      · rw [if_neg hlt]
        refine ⟨before, after ++ [x], by rw [hsplit]; simp, hbefore, ?_⟩
        intro a ha
        rcases List.mem_append.mp ha with h | h
        · exact hafter a h
        · rw [List.mem_singleton.mp h]; simpa using hlt
    have := ih (seen ++ [x]) (pickBetter R best x) hseen' hrest' hstep
    simpa using this

theorem selectBest_spec (R : Runtime) (history : List Attempt)
    (hne : history ≠ []) (hnum : ∀ a ∈ history, hasNumericEvaluation a = true) :
    ∃ best, selectBest R history = some best ∧ FirstMaximal history best := by
  cases history with
  | nil => exact absurd rfl hne
  | cons first rest =>
    refine ⟨_, rfl, ?_⟩
    have hfirst := hnum first (List.mem_cons_self _ _)
    have hself : pickBetter R first first = first := by
      rw [pickBetter_numeric R first first hfirst hfirst, jsLt_irrefl]; simp
    rw [List.foldl_cons, hself]
    have := foldl_pickBetter_firstMaximal R rest [first] first
      (fun a ha => by rw [List.mem_singleton.mp ha]; exact hfirst)
      (fun a ha => hnum a (List.mem_cons_of_mem _ ha))
      ⟨[], [], rfl, by simp, by simp⟩
    simpa using this


/-! ## Evaluation -/

theorem evaluateSolution_number (R : Runtime) (evaluator : Evaluator) (solution : JSValue)
    (v : JSNumber) (h : evaluator solution = Except.ok (JSValue.number v)) :
    evaluateSolution R evaluator solution =
      JSNumber.max (JSNumber.fin 0) (JSNumber.min (JSNumber.fin 1) v) := by
  unfold evaluateSolution
  rw [h]
  rfl

theorem lookup_setField_same (key : String) (v : JSValue) (fields : List (String × JSValue)) :
    JSValue.lookup key (JSValue.setField key v fields) = v := by
  induction fields with
  | nil => simp [JSValue.setField, JSValue.lookup]
  | cons f fs ih =>
    obtain ⟨k, w⟩ := f
    by_cases hk : k = key
    · simp [JSValue.setField, JSValue.lookup, hk]
    · simp [JSValue.setField, JSValue.lookup, hk, ih]

theorem lookup_setField_other (key other : String) (v : JSValue)
    (fields : List (String × JSValue)) (hne : other ≠ key) :
    JSValue.lookup key (JSValue.setField other v fields) = JSValue.lookup key fields := by
  induction fields with
  | nil => simp [JSValue.setField, JSValue.lookup, hne]
  | cons f fs ih =>
    obtain ⟨k, w⟩ := f
    by_cases hk : k = other
    · subst hk; simp [JSValue.setField, JSValue.lookup, hne]
    · by_cases hk2 : k = key
      · subst hk2; simp [JSValue.setField, JSValue.lookup, hk]
      · simp [JSValue.setField, JSValue.lookup, hk, hk2, ih]

theorem enrichedMetadata_evaluation (R : Runtime) (evaluation : JSNumber) (now : String)
    (metadata : List (String × JSValue)) :
    JSValue.lookup "evaluation" (enrichedMetadata R evaluation now metadata) =
      JSValue.number evaluation := by
  unfold enrichedMetadata
  rw [lookup_setField_other _ _ _ _ (by decide), lookup_setField_other _ _ _ _ (by decide),
    lookup_setField_same]

theorem find_commit (branches : List (String × List Commit)) (head : String) (c : Commit)
    (hb : branches.any (fun b => b.1 == head) = true) :
    ∃ b, (branches.map (fun b : String × List Commit =>
        if b.1 == head then (b.1, c :: b.2) else b)).find?
          (fun b : String × List Commit => b.1 == head) = some b ∧ b.2.head? = some c := by
  induction branches with
  | nil => simp at hb
  | cons b bs ih =>
    by_cases hh : (b.1 == head) = true
    · refine ⟨(b.1, c :: b.2), ?_, rfl⟩
      simp [List.find?, hh]
    · have hh' : (b.1 == head) = false := by simpa using hh
      have hb' : bs.any (fun b => b.1 == head) = true := by
        simpa [List.any_cons, hh'] using hb
      obtain ⟨b', h1, h2⟩ := ih hb'
      refine ⟨b', ?_, h2⟩
      simpa [List.map_cons, List.find?, hh'] using h1

/-- On a store where no call fails and the active lineage exists, `GitDB.saveAttempt`
returns, and the newest snapshot of the active lineage carries the serialised attempt. -/
theorem saveAttempt_records (R : Runtime) (description : String) (metadata : JSValue)
    (s : Repo) (hf : s.faults = []) (hb : s.hasBranch s.head = true)
    (hm : metadata ≠ JSValue.undefined) :
    ∃ hash s', GitDB.saveAttempt R description metadata s = (Except.ok hash, s') ∧
      ((s'.logOf s'.head).head?).map Commit.message = some (R.stringify (JSValue.object
        [("description", JSValue.string description), ("metadata", metadata)])) := by
  obtain ⟨hd, bs, fl, fs, ck⟩ := s
  simp only at hf hb
  subst hf
  have hmeta : (match metadata with
      | JSValue.undefined => JSValue.object []
      | given => given) = metadata := by
    cases metadata <;> simp at hm ⊢
  refine ⟨_, _, rfl, ?_⟩
  simp only [hmeta]
  obtain ⟨b, h1, h2⟩ := find_commit bs hd ⟨"c" ++ toString ck, toString ck,
    R.stringify (JSValue.object
      [("description", JSValue.string description), ("metadata", metadata)])⟩ hb
  simp only [Repo.logOf]
  rw [h1]
  simp only [h2, Option.map_some']


/-- When no attempt scores above 0 (the score of every attempt is the number 0), the
`reduce` keeps its initial value. -/
theorem foldl_pickBetter_zero (R : Runtime) (rest : List Attempt) (best : Attempt)
    (hbest : scoreOf best = JSValue.number (JSNumber.fin 0))
    (hrest : ∀ a ∈ rest, scoreOf a = JSValue.number (JSNumber.fin 0)) :
    rest.foldl (pickBetter R) best = best := by
  induction rest with
  | nil => rfl
  | cons x xs ih =>
    have hx := hrest x (List.mem_cons_self _ _)
    have hstep : pickBetter R best x = best := by
      unfold pickBetter jsGreater
      rw [hx, hbest]
      simp [JSValue.primToNumber, JSNumber.lt]
    rw [List.foldl_cons, hstep]
    exact ih (fun a ha => hrest a (List.mem_cons_of_mem _ ha))

/-- A snapshot whose message is not JSON decodes to an attempt without evaluation. -/
theorem scoreOf_fallback (R : Runtime) (c : Commit) (h : R.parse c.message = none) :
    scoreOf (decodeCommit R c) = JSValue.number (JSNumber.fin 0) := by
  unfold decodeCommit
  simp only [h]
  rfl

/-- C2, a defect of the code. Let the evaluator give the solution a score `v` with
`0 < v <= 1`, and let `SolutionExplorer.saveAttempt` record the attempt in a space, the
only lineage of the store, whose other snapshots carry plain-text messages; no call fails
and `JSON.parse` reads the saved message back. `saveAttempt` stores the evaluation under
`metadata.metadata.evaluation` while `getBestSolutions` reads `metadata.evaluation`: the
entry `getBestSolutions` returns for the space carries the saved solution and the score 0,
not `v`. -/
theorem saved_evaluation_not_read (R : Runtime) (evaluator : Evaluator)
    (now description : String) (solution : JSValue) (metadata : List (String × JSValue))
    (space : String) (older : List Commit) (files : List (String × String)) (clock : Nat)
    (v : JSNumber) (hv : evaluator solution = Except.ok (JSValue.number v))
    (hpos : JSNumber.lt (JSNumber.fin 0) v = true)
    (hle : JSNumber.le v (JSNumber.fin 1) = true)
    (hsan : sanitizeBranchName space = space)
    (hmain : space ≠ "main") (hmaster : space ≠ "master")
    (holder : ∀ c ∈ older, R.parse c.message = none)
    (hparse : R.parse (R.stringify (savedMessage R evaluator now description solution metadata))
      = some (savedMessage R evaluator now description solution metadata)) :
    evaluateSolution R evaluator solution = v ∧
      JSValue.number (JSNumber.fin 0) ≠ JSValue.number v ∧
      (getBestSolutions R (SolutionExplorer.saveAttempt R evaluator now description solution
          metadata ⟨space, [(space, older)], files, [], clock⟩).2).1 =
        Except.ok [⟨space, solution, JSValue.number (JSNumber.fin 0),
          JSValue.string description, "c" ++ toString clock⟩] := by
  refine ⟨?_, ?_, ?_⟩
  · rw [evaluateSolution_number R evaluator solution v hv]
    cases v with
    | nan => simp [JSNumber.lt] at hpos
    | negInf => simp [JSNumber.lt] at hpos
    | posInf => simp [JSNumber.le, JSNumber.lt] at hle
    | fin q =>
      have h0 : 0 < q := by simpa [JSNumber.lt] using hpos
      have h1 : q ≤ 1 := by simpa [JSNumber.le, JSNumber.lt] using hle
      by_cases hq : q < 1
      · simp [JSNumber.min, JSNumber.max, JSNumber.lt, hq, h0]
      · have : q = 1 := le_antisymm h1 (not_lt.mp hq)
        simp [JSNumber.min, JSNumber.max, JSNumber.lt, this]
  · intro h
    have hv0 : v = JSNumber.fin 0 := by
      have := JSValue.number.inj h
      exact this.symm
    rw [hv0, jsLt_irrefl] at hpos
    exact absurd hpos (by decide)
  · have hsave : (SolutionExplorer.saveAttempt R evaluator now description solution
          metadata ⟨space, [(space, older)], files, [], clock⟩).2 =
        ⟨space, [(space, ⟨"c" ++ toString clock, toString clock,
          R.stringify (savedMessage R evaluator now description solution metadata)⟩ :: older)],
          files, [], clock + 1⟩ := by
      simp [SolutionExplorer.saveAttempt, GitDB.saveAttempt, GitDB.wrap, Git.tryCatch_run,
        Git.bind_run, add, commit, environment, attemptPayload, savedMessage, Git.pure_run]
    rw [hsave]
    have hm1 : (space != "main") = true := by simpa using hmain
    have hm2 : (space != "master") = true := by simpa using hmaster
    have hdec : decodeCommit R ⟨"c" ++ toString clock, toString clock,
        R.stringify (savedMessage R evaluator now description solution metadata)⟩ =
        ⟨"c" ++ toString clock, toString clock, JSValue.string description,
          attemptPayload R (evaluateSolution R evaluator solution) now solution metadata⟩ := by
      unfold decodeCommit
      simp only [hparse]
      rfl
    have hsel : selectBest R
        (decodeCommit R ⟨"c" ++ toString clock, toString clock,
          R.stringify (savedMessage R evaluator now description solution metadata)⟩ ::
          List.map (decodeCommit R) older) =
        some ⟨"c" ++ toString clock, toString clock, JSValue.string description,
          attemptPayload R (evaluateSolution R evaluator solution) now solution metadata⟩ := by
      rw [hdec]
      unfold selectBest
      simp only
      congr 1
      apply foldl_pickBetter_zero R _ _ (by rfl)
      intro a ha
      rcases List.mem_cons.mp ha with h | h
      · rw [h]; rfl
      · obtain ⟨c, hc, rfl⟩ := List.mem_map.mp h
        exact scoreOf_fallback R c (holder c hc)
    have hentry : bestEntry space
        ⟨"c" ++ toString clock, toString clock, JSValue.string description,
          attemptPayload R (evaluateSolution R evaluator solution) now solution metadata⟩ =
        ⟨space, solution, JSValue.number (JSNumber.fin 0), JSValue.string description,
          "c" ++ toString clock⟩ := rfl
    simp only [getBestSolutions, GitDB.listSolutionSpaces, GitDB.wrap, Git.tryCatch_run,
      Git.bind_run, branchAll, environment, Git.pure_run, bestOfSpaces,
      GitDB.switchSolutionSpace, hsan, checkout, Repo.hasBranch, GitDB.getAttemptHistory,
      logAll, Repo.logOf, List.map, List.filter, hm1, hm2, Bool.and_self, List.any,
      beq_self_eq_true, Bool.or_false, if_true, List.find?, hsel, hentry]

/-- Witness of C2: the default evaluator (score 1), solution `b`, recorded in the space
`exploration-path-2` after its seeding snapshot. -/
theorem saved_evaluation_not_read_witness :
    evaluateSolution (exampleRuntime exampleMessage) defaultEvaluator (JSValue.string "b") =
        JSNumber.fin 1 ∧
      JSValue.number (JSNumber.fin 0) ≠ JSValue.number (JSNumber.fin 1) ∧
      (getBestSolutions (exampleRuntime exampleMessage)
        (SolutionExplorer.saveAttempt (exampleRuntime exampleMessage) defaultEvaluator
          "2024-01-01T00:00:00.000Z" "attempt" (JSValue.string "b") []
          ⟨"exploration-path-2",
            [("exploration-path-2", [⟨"c0", "0", "T - Exploration Path 2"⟩])], [], [], 1⟩).2).1 =
        Except.ok [⟨"exploration-path-2", JSValue.string "b", JSValue.number (JSNumber.fin 0),
          JSValue.string "attempt", "c" ++ toString 1⟩] :=
  saved_evaluation_not_read (exampleRuntime exampleMessage) defaultEvaluator
    "2024-01-01T00:00:00.000Z" "attempt" (JSValue.string "b") [] "exploration-path-2"
    [⟨"c0", "0", "T - Exploration Path 2"⟩] [] 1 (JSNumber.fin 1) rfl
    (by simp [JSNumber.lt]) (by simp [JSNumber.le, JSNumber.lt]) (by decide) (by decide)
    (by decide) (by simp [exampleRuntime]) rfl

/-- C3. For every non-empty attempt history of a space (newest first) whose evaluations
are numbers or missing, the attempt `getBestSolutions` selects is the first entry in
history order among those whose evaluation (a missing one counting as 0) is maximal: every
earlier entry is strictly below it, no entry is above it, and the entry pushed for the
space carries its hash, its description and its evaluation as score. -/
theorem selectBest_first_maximal (R : Runtime) (space : String) (history : List Attempt)
    (hne : history ≠ []) (hnum : ∀ a ∈ history, hasNumericEvaluation a = true) :
    ∃ best, selectBest R history = some best ∧ FirstMaximal history best ∧
      (∀ a ∈ history, JSNumber.lt (evaluationOrZero best) (evaluationOrZero a) = false) ∧
      (bestEntry space best).hash = best.hash ∧
      (bestEntry space best).description = best.description ∧
      (bestEntry space best).score = JSValue.number (evaluationOrZero best) := by
  obtain ⟨best, hsel, hmax⟩ := selectBest_spec R history hne hnum
  have hmem : best ∈ history := by
    obtain ⟨before, after, hsplit, _, _⟩ := hmax
    rw [hsplit]; simp
  refine ⟨best, hsel, hmax, ?_, rfl, rfl, (scoreOf_numeric best (hnum best hmem)).1⟩
  intro a ha
  obtain ⟨before, after, hsplit, hbefore, hafter⟩ := hmax
  rw [hsplit] at ha
  rcases List.mem_append.mp ha with h | h
  · by_contra hlt
    have hlt' : JSNumber.lt (evaluationOrZero best) (evaluationOrZero a) = true := by
      simpa using hlt
    have := jsLt_trans hlt' (hbefore a h)
    rw [jsLt_irrefl] at this
    exact absurd this (by decide)
  · rcases List.mem_cons.mp h with h | h
    · rw [h]; exact jsLt_irrefl _
    · exact hafter a h

/-- Witness of C3: evaluations 0.3, 0.9, 0.9 and a seeding attempt, newest first. -/
theorem selectBest_first_maximal_witness :
    ∃ best, selectBest (exampleRuntime JSValue.null) exampleHistory = some best ∧
      FirstMaximal exampleHistory best ∧
      (∀ a ∈ exampleHistory,
        JSNumber.lt (evaluationOrZero best) (evaluationOrZero a) = false) ∧
      (bestEntry "exploration-path-1" best).hash = best.hash ∧
      (bestEntry "exploration-path-1" best).description = best.description ∧
      (bestEntry "exploration-path-1" best).score = JSValue.number (evaluationOrZero best) :=
  selectBest_first_maximal (exampleRuntime JSValue.null) "exploration-path-1" exampleHistory
    (List.cons_ne_nil _ _) (by decide)

/-- C4, a defect of the code. When the evaluator returns NaN, or `undefined`,
`evaluateSolution` returns NaN, which satisfies neither `0 <= evaluation` nor
`evaluation <= 1`. -/
theorem evaluateSolution_nan (R : Runtime) (solution : JSValue) :
    evaluateSolution R (fun _ => Except.ok (JSValue.number JSNumber.nan)) solution =
        JSNumber.nan ∧
      evaluateSolution R (fun _ => Except.ok JSValue.undefined) solution = JSNumber.nan ∧
      JSNumber.le (JSNumber.fin 0) JSNumber.nan = false ∧
      JSNumber.le JSNumber.nan (JSNumber.fin 1) = false :=
  ⟨rfl, rfl, rfl, rfl⟩

/-- C5. If the evaluator throws on a solution, `evaluateSolution` returns 0, and
`SolutionExplorer.saveAttempt` is the store's `saveAttempt` on the payload whose
evaluation is 0: the evaluator's error plays no part in the outcome, and on a store where
no call fails the attempt is recorded as the newest snapshot. -/
theorem saveAttempt_evaluator_throws (R : Runtime) (evaluator : Evaluator)
    (now description : String) (solution : JSValue) (metadata : List (String × JSValue))
    (e : JSError) (h : evaluator solution = Except.error e) :
    evaluateSolution R evaluator solution = JSNumber.fin 0 ∧
      SolutionExplorer.saveAttempt R evaluator now description solution metadata =
        GitDB.saveAttempt R description
          (attemptPayload R (JSNumber.fin 0) now solution metadata) ∧
      ((attemptPayload R (JSNumber.fin 0) now solution metadata).get "metadata").get
          "evaluation" = JSValue.number (JSNumber.fin 0) ∧
      (∀ s : Repo, s.faults = [] → s.hasBranch s.head = true →
        ∃ hash s', SolutionExplorer.saveAttempt R evaluator now description solution metadata s
          = (Except.ok hash, s') ∧
          ((s'.logOf s'.head).head?).map Commit.message = some (R.stringify (JSValue.object
            [("description", JSValue.string description),
             ("metadata", attemptPayload R (JSNumber.fin 0) now solution metadata)]))) := by
  have h0 : evaluateSolution R evaluator solution = JSNumber.fin 0 := by
    unfold evaluateSolution; rw [h]
  refine ⟨h0, ?_, ?_, ?_⟩
  · unfold SolutionExplorer.saveAttempt
    simp only [h0]
  · simp only [attemptPayload, JSValue.get, JSValue.lookup]
    simp [enrichedMetadata_evaluation]
  · intro s hf hb
    unfold SolutionExplorer.saveAttempt
    simp only [h0]
    exact saveAttempt_records R description _ s hf hb (by simp [attemptPayload])


/-- Witness of C5: an evaluator that throws, on `exampleRepo`; the evaluation is 0 and
the attempt is recorded. -/
theorem saveAttempt_evaluator_throws_witness :
    evaluateSolution (exampleRuntime JSValue.null)
        (fun _ => Except.error ⟨"evaluator", "bad input"⟩) (JSValue.string "b") =
        JSNumber.fin 0 ∧
      ∃ hash s', SolutionExplorer.saveAttempt (exampleRuntime JSValue.null)
        (fun _ => Except.error ⟨"evaluator", "bad input"⟩) "2024-01-01T00:00:00.000Z"
        "attempt" (JSValue.string "b") [] exampleRepo = (Except.ok hash, s') ∧
        ((s'.logOf s'.head).head?).map Commit.message =
          some ((exampleRuntime JSValue.null).stringify (JSValue.object
            [("description", JSValue.string "attempt"),
             ("metadata", attemptPayload (exampleRuntime JSValue.null) (JSNumber.fin 0)
                "2024-01-01T00:00:00.000Z" (JSValue.string "b") [])])) :=
  ⟨(saveAttempt_evaluator_throws (exampleRuntime JSValue.null)
      (fun _ => Except.error ⟨"evaluator", "bad input"⟩) "2024-01-01T00:00:00.000Z" "attempt"
      (JSValue.string "b") [] ⟨"evaluator", "bad input"⟩ rfl).1,
    (saveAttempt_evaluator_throws (exampleRuntime JSValue.null)
      (fun _ => Except.error ⟨"evaluator", "bad input"⟩) "2024-01-01T00:00:00.000Z" "attempt"
      (JSValue.string "b") [] ⟨"evaluator", "bad input"⟩ rfl).2.2.2 exampleRepo rfl rfl⟩

/-- C6. For every numeric evaluator result `v`, the evaluation computed by
`evaluateSolution` is `v` itself when `0 <= v <= 1`, 0 when `v < 0`, and 1 when `v > 1`. -/
theorem evaluateSolution_clamp (R : Runtime) (evaluator : Evaluator) (solution : JSValue)
    (v : JSNumber) (h : evaluator solution = Except.ok (JSValue.number v)) :
    (JSNumber.le (JSNumber.fin 0) v = true → JSNumber.le v (JSNumber.fin 1) = true →
        evaluateSolution R evaluator solution = v) ∧
      (JSNumber.lt v (JSNumber.fin 0) = true →
        evaluateSolution R evaluator solution = JSNumber.fin 0) ∧
      (JSNumber.lt (JSNumber.fin 1) v = true →
        evaluateSolution R evaluator solution = JSNumber.fin 1) := by
  rw [evaluateSolution_number R evaluator solution v h]
  cases v with
  | nan => simp [JSNumber.le, JSNumber.lt]
  | negInf => simp [JSNumber.le, JSNumber.lt, JSNumber.min, JSNumber.max]
  | posInf => simp [JSNumber.le, JSNumber.lt, JSNumber.min, JSNumber.max]
  | fin q =>
    simp only [JSNumber.le, JSNumber.lt, JSNumber.min, JSNumber.max, Bool.not_eq_true',
      decide_eq_false_iff_not, decide_eq_true_eq, not_lt]
    refine ⟨?_, ?_, ?_⟩
    · intro h0 h1
      by_cases hq1 : q < 1
      · simp only [hq1, if_true, JSNumber.lt, decide_eq_true_eq]
        by_cases hq0 : 0 < q
        · simp [hq0]
        · have : q = 0 := le_antisymm (not_lt.mp hq0) h0
          simp [this]
      · have : q = 1 := le_antisymm h1 (not_lt.mp hq1)
        simp [this, JSNumber.lt]
    · intro h0
      have hq1 : q < 1 := lt_trans h0 zero_lt_one
      have hq0 : ¬ 0 < q := not_lt.mpr (le_of_lt h0)
      simp [hq1, hq0, JSNumber.lt]
    · intro h1
      have hq1 : ¬ q < 1 := not_lt.mpr (le_of_lt h1)
      simp [hq1, JSNumber.lt]

/-- Witness of C6: the score 2 is clamped to 1. -/
theorem evaluateSolution_clamp_witness :
    evaluateSolution (exampleRuntime JSValue.null)
        (fun _ => Except.ok (JSValue.number (JSNumber.fin 2))) (JSValue.string "b") =
      JSNumber.fin 1 :=
  (evaluateSolution_clamp (exampleRuntime JSValue.null)
    (fun _ => Except.ok (JSValue.number (JSNumber.fin 2))) (JSValue.string "b")
    (JSNumber.fin 2) rfl).2.2 (by simp [JSNumber.lt])


/-! ## What a backend call does to the state -/

/-- The environment's part of a call changes nothing but the fault plan. -/
theorem environment_frame (origin : String) (s : Repo) :
    (environment origin s).2.head = s.head ∧ (environment origin s).2.branches = s.branches ∧
      (environment origin s).2.files = s.files ∧ (environment origin s).2.clock = s.clock := by
  unfold environment
  rcases s with ⟨h, bs, fl, fs, c⟩
  rcases fs with _ | ⟨_ | m, rest⟩ <;> exact ⟨rfl, rfl, rfl, rfl⟩

/-- With an exhausted fault plan the environment lets the call through. -/
theorem environment_nil (origin : String) (s : Repo) (hf : s.faults = []) :
    environment origin s = (Except.ok (), s) := by
  unfold environment
  rw [hf]

theorem keepsBranches_pure {α : Type} (a : α) : KeepsBranches (pure a : Git α) :=
  fun _ => rfl

theorem keepsBranches_throw {α : Type} (e : JSError) : KeepsBranches (throw e : Git α) :=
  fun _ => rfl

theorem keepsBranches_bind {α β : Type} (x : Git α) (f : α → Git β)
    (hx : KeepsBranches x) (hf : ∀ a, KeepsBranches (f a)) : KeepsBranches (x >>= f) := by
  intro s
  rw [Git.bind_run]
  have h1 := hx s
  rcases hxs : x s with ⟨e | a, s1⟩
  · rw [hxs] at h1; exact h1
  · rw [hxs] at h1
    simp only
    rw [hf a s1]; exact h1

theorem keepsBranches_tryCatch {α : Type} (x : Git α) (h : JSError → Git α)
    (hx : KeepsBranches x) (hh : ∀ e, KeepsBranches (h e)) : KeepsBranches (tryCatch x h) := by
  intro s
  rw [Git.tryCatch_run]
  have h1 := hx s
  rcases hxs : x s with ⟨e | a, s1⟩
  · rw [hxs] at h1
    simp only
    rw [hh e s1]; exact h1
  · rw [hxs] at h1; exact h1

theorem keepsBranches_wrap {α : Type} (method label : String) (x : Git α)
    (hx : KeepsBranches x) : KeepsBranches (GitDB.wrap method label x) :=
  keepsBranches_tryCatch _ _ hx (fun _ => keepsBranches_throw _)

theorem keepsBranches_environment (origin : String) : KeepsBranches (environment origin) :=
  fun s => (environment_frame origin s).2.1

theorem keepsBranches_checkout (name : String) : KeepsBranches (checkout name) := by
  unfold checkout
  refine keepsBranches_bind _ _ (keepsBranches_environment _) (fun _ s => ?_)
  by_cases hb : s.hasBranch name = true
  · simp only [hb, if_true]
  · simp only [hb, if_false, Bool.false_eq_true]

theorem keepsBranches_logAll : KeepsBranches logAll := by
  unfold logAll
  exact keepsBranches_bind _ _ (keepsBranches_environment _) (fun _ s => rfl)

theorem keepsBranches_branchAll : KeepsBranches branchAll := by
  unfold branchAll
  exact keepsBranches_bind _ _ (keepsBranches_environment _) (fun _ s => rfl)

theorem keepsBranches_revparseHead : KeepsBranches revparseHead := by
  unfold revparseHead
  exact keepsBranches_bind _ _ (keepsBranches_environment _) (fun _ s => rfl)

theorem keepsBranches_switchSolutionSpace (space : String) :
    KeepsBranches (GitDB.switchSolutionSpace space) :=
  keepsBranches_wrap _ _ _ (keepsBranches_checkout _)

theorem keepsBranches_getAttemptHistory (R : Runtime) :
    KeepsBranches (GitDB.getAttemptHistory R) :=
  keepsBranches_wrap _ _ _
    (keepsBranches_bind _ _ keepsBranches_logAll (fun _ => keepsBranches_pure _))

theorem keepsBranches_listSolutionSpaces : KeepsBranches GitDB.listSolutionSpaces :=
  keepsBranches_wrap _ _ _
    (keepsBranches_bind _ _ keepsBranches_branchAll (fun _ => keepsBranches_pure _))

theorem keepsBranches_bestOfSpaces (R : Runtime) (spaces : List String) :
    KeepsBranches (bestOfSpaces R spaces) := by
  induction spaces with
  | nil => exact keepsBranches_pure _
  | cons space rest ih =>
    unfold bestOfSpaces
    refine keepsBranches_bind _ _ (keepsBranches_switchSolutionSpace _) (fun _ => ?_)
    refine keepsBranches_bind _ _ (keepsBranches_getAttemptHistory R) (fun history => ?_)
    cases selectBest R history with
    | none => exact keepsBranches_throw _
    | some best =>
      exact keepsBranches_bind _ _ ih (fun _ => keepsBranches_pure _)

theorem keepsBranches_getBestSolutions (R : Runtime) : KeepsBranches (getBestSolutions R) :=
  keepsBranches_bind _ _ keepsBranches_listSolutionSpaces
    (fun spaces => keepsBranches_bestOfSpaces R spaces)


/-- A method of `GitDB` returns exactly when its body returns. -/
theorem wrap_ok {α : Type} (method label : String) (x : Git α) (s s' : Repo) (a : α)
    (h : GitDB.wrap method label x s = (Except.ok a, s')) : x s = (Except.ok a, s') := by
  unfold GitDB.wrap at h
  rw [Git.tryCatch_run] at h
  rcases hx : x s with ⟨e | b, s1⟩
  · rw [hx] at h; simp [Git.throw_run] at h
  · rw [hx] at h; exact h

/-- A method of `GitDB` that throws, throws an error of its own: the body threw. -/
theorem wrap_error {α : Type} (method label : String) (x : Git α) (s s' : Repo) (e : JSError)
    (h : GitDB.wrap method label x s = (Except.error e, s')) :
    ∃ e0, x s = (Except.error e0, s') ∧ e = ⟨method, label ++ ": " ++ e0.message⟩ := by
  unfold GitDB.wrap at h
  rw [Git.tryCatch_run] at h
  rcases hx : x s with ⟨e0 | b, s1⟩
  · rw [hx] at h
    simp only [Git.throw_run, Prod.mk.injEq, Except.error.injEq] at h
    exact ⟨e0, by rw [h.2], h.1.symm⟩
  · rw [hx] at h; simp at h

theorem environment_ok (origin : String) (s s' : Repo) (u : Unit)
    (h : environment origin s = (Except.ok u, s')) :
    s'.head = s.head ∧ s'.branches = s.branches ∧ s'.files = s.files ∧ s'.clock = s.clock := by
  have := environment_frame origin s
  rw [h] at this
  exact this

theorem hasBranch_congr (s t : Repo) (name : String) (h : t.branches = s.branches) :
    t.hasBranch name = s.hasBranch name := by
  unfold Repo.hasBranch; rw [h]

theorem logOf_congr (s t : Repo) (name : String) (h : t.branches = s.branches) :
    t.logOf name = s.logOf name := by
  unfold Repo.logOf; rw [h]

theorem checkout_ok_frame (name : String) (s s' : Repo) (u : Unit)
    (h : checkout name s = (Except.ok u, s')) :
    s'.head = name ∧ s'.branches = s.branches ∧ s.hasBranch name = true := by
  have hk := keepsBranches_checkout name s
  rw [h] at hk
  refine ⟨checkout_ok name s s' u h, hk, ?_⟩
  unfold checkout at h
  obtain ⟨_, s1, h1, h2⟩ := Git.bind_ok h
  have hb1 := (environment_ok _ _ _ _ h1).2.1
  by_cases hb : s1.hasBranch name = true
  · rw [← hasBranch_congr s s1 name hb1]; exact hb
  · simp [hb] at h2

theorem checkoutLocalBranch_ok (name : String) (s s' : Repo) (u : Unit)
    (h : checkoutLocalBranch name s = (Except.ok u, s')) :
    s'.head = name ∧ s.hasBranch name = false ∧
      s'.branches = s.branches ++ [(name, s.logOf s.head)] := by
  unfold checkoutLocalBranch at h
  obtain ⟨_, s1, h1, h2⟩ := Git.bind_ok h
  obtain ⟨hh, hb, _, _⟩ := environment_ok _ _ _ _ h1
  by_cases hbr : s1.hasBranch name = true
  · simp [hbr] at h2
  · have hbr' : s1.hasBranch name = false := by simpa using hbr
    simp only [hbr', Bool.false_eq_true, if_false, Prod.mk.injEq, true_and] at h2
    rw [← h2]
    refine ⟨rfl, ?_, ?_⟩
    · rw [← hasBranch_congr s s1 name hb]; exact hbr'
    · simp only [logOf_congr s s1 _ hb, hh, hb]

theorem deleteLocalBranch_ok (name : String) (s s' : Repo) (u : Unit)
    (h : deleteLocalBranch name s = (Except.ok u, s')) :
    s'.head = s.head ∧ s.hasBranch name = true ∧
      s'.branches = s.branches.filter (fun b => b.1 != name) := by
  unfold deleteLocalBranch at h
  obtain ⟨_, s1, h1, h2⟩ := Git.bind_ok h
  obtain ⟨hh, hb, _, _⟩ := environment_ok _ _ _ _ h1
  by_cases hc : (s1.hasBranch name && name != s1.head) = true
  · simp only [hc, if_true, Prod.mk.injEq, true_and] at h2
    rw [← h2]
    refine ⟨hh, ?_, by simp only [hb]⟩
    rw [← hasBranch_congr s s1 name hb]
    exact (Bool.and_eq_true _ _ ▸ hc).1
  · simp [hc] at h2

/-- Once a lineage is deleted, its name is no lineage. -/
theorem hasBranch_filter (branches : List (String × List Commit)) (name : String) :
    (branches.filter (fun b => b.1 != name)).any (fun b => b.1 == name) = false := by
  rw [List.any_eq_false]
  intro x hx
  have := (List.mem_filter.mp hx).2
  simpa using this

theorem commit_ok (message : String) (s s' : Repo) (hash : String)
    (h : commit message s = (Except.ok hash, s')) :
    hash = "c" ++ toString s.clock ∧ s'.head = s.head ∧
      s'.branches = s.branches.map (fun b =>
        if b.1 == s.head then (b.1, ⟨hash, toString s.clock, message⟩ :: b.2) else b) := by
  unfold commit at h
  obtain ⟨_, s1, h1, h2⟩ := Git.bind_ok h
  obtain ⟨hh, hb, _, hc⟩ := environment_ok _ _ _ _ h1
  simp only [Prod.mk.injEq, Except.ok.injEq] at h2
  obtain ⟨h3, h4⟩ := h2
  rw [← h4, ← h3]
  simp [hc, hh, hb]

/-- The log of the active lineage after a snapshot: the snapshot, then the former log. -/
theorem logOf_map_commit (branches : List (String × List Commit)) (head : String) (c : Commit)
    (hb : branches.any (fun b => b.1 == head) = true) :
    (match (branches.map (fun b : String × List Commit =>
        if b.1 == head then (b.1, c :: b.2) else b)).find?
          (fun b : String × List Commit => b.1 == head) with
      | some b => b.2
      | none => []) =
    c :: (match branches.find? (fun b : String × List Commit => b.1 == head) with
      | some b => b.2
      | none => []) := by
  induction branches with
  | nil => simp at hb
  | cons b bs ih =>
    by_cases hh : (b.1 == head) = true
    · simp [List.find?, hh]
    · have hh' : (b.1 == head) = false := by simpa using hh
      have hb' : bs.any (fun b => b.1 == head) = true := by
        simpa [List.any_cons, hh'] using hb
      simpa [List.map_cons, List.find?, hh'] using ih hb'

theorem hasBranch_map_commit (branches : List (String × List Commit)) (head name : String)
    (c : Commit) :
    (branches.map (fun b : String × List Commit =>
        if b.1 == head then (b.1, c :: b.2) else b)).any (fun b => b.1 == name) =
      branches.any (fun b => b.1 == name) := by
  rw [List.any_map]
  congr 1
  funext b
  simp only [Function.comp]
  split_ifs <;> rfl


theorem revparseHead_ok (s s' : Repo) (cb : String)
    (h : revparseHead s = (Except.ok cb, s')) :
    cb = s.head ∧ s'.head = s.head ∧ s'.branches = s.branches ∧ s'.clock = s.clock := by
  unfold revparseHead at h
  obtain ⟨_, s1, h1, h2⟩ := Git.bind_ok h
  obtain ⟨hh, hb, _, hc⟩ := environment_ok _ _ _ _ h1
  simp only [Prod.mk.injEq, Except.ok.injEq] at h2
  rw [← h2.2, ← h2.1]
  exact ⟨hh, hh, hb, hc⟩

theorem add_ok (s s' : Repo) (u : Unit) (h : add s = (Except.ok u, s')) :
    s'.head = s.head ∧ s'.branches = s.branches ∧ s'.clock = s.clock := by
  obtain ⟨hh, hb, _, hc⟩ := environment_ok _ _ _ _ h
  exact ⟨hh, hb, hc⟩

/-- What a successful `initSolutionSpace` has done: the lineage `sanitizeBranchName(name)`
did not exist, now exists and is active, and its newest snapshot carries the description;
the returned pair is that name and the lineage that was active before. -/
theorem initSolutionSpace_ok (spaceName description : String) (s s' : Repo)
    (branch original : String)
    (h : GitDB.initSolutionSpace spaceName description s = (Except.ok (branch, original), s')) :
    branch = sanitizeBranchName spaceName ∧ original = s.head ∧
      s'.head = sanitizeBranchName spaceName ∧
      s.hasBranch (sanitizeBranchName spaceName) = false ∧
      s'.hasBranch (sanitizeBranchName spaceName) = true ∧
      ((s'.logOf (sanitizeBranchName spaceName)).head?).map Commit.message =
        some description := by
  unfold GitDB.initSolutionSpace at h
  have hbody := wrap_ok _ _ _ _ _ _ h
  obtain ⟨cb, s1, h1, hbody⟩ := Git.bind_ok hbody
  obtain ⟨u2, s2, h2, hbody⟩ := Git.bind_ok hbody
  obtain ⟨u3, s3, h3, hbody⟩ := Git.bind_ok hbody
  obtain ⟨hash, s4, h4, hbody⟩ := Git.bind_ok hbody
  obtain ⟨hcb, hh1, hb1, _⟩ := revparseHead_ok _ _ _ h1
  obtain ⟨hh2, hn2, hb2⟩ := checkoutLocalBranch_ok _ _ _ _ h2
  obtain ⟨hh3, hb3, _⟩ := add_ok _ _ _ h3
  obtain ⟨_, hh4, hb4⟩ := commit_ok _ _ _ _ h4
  simp only [Git.pure_run, Prod.mk.injEq, Except.ok.injEq] at hbody
  obtain ⟨⟨hbr, hor⟩, hs⟩ := hbody
  subst hs
  have hany : s3.branches.any (fun b => b.1 == sanitizeBranchName spaceName) = true := by
    rw [hb3, hb2]; simp
  refine ⟨hbr.symm, by rw [← hor, hcb], by rw [hh4, hh3, hh2], ?_, ?_, ?_⟩
  · rw [← hasBranch_congr s s1 _ hb1]; exact hn2
  · unfold Repo.hasBranch
    rw [hb4, hasBranch_map_commit]
    exact hany
  · unfold Repo.logOf
    rw [hb4, hh3, hh2, logOf_map_commit _ _ _ hany]
    rfl

theorem switchSolutionSpace_ok (spaceName : String) (s s' : Repo) (u : Unit)
    (h : GitDB.switchSolutionSpace spaceName s = (Except.ok u, s')) :
    s'.head = sanitizeBranchName spaceName ∧ s'.branches = s.branches ∧
      s.hasBranch (sanitizeBranchName spaceName) = true := by
  unfold GitDB.switchSolutionSpace at h
  exact checkout_ok_frame _ _ _ _ (wrap_ok _ _ _ _ _ _ h)

theorem deleteSolutionSpace_ok (spaceName : String) (s s' : Repo) (u : Unit)
    (h : GitDB.deleteSolutionSpace spaceName s = (Except.ok u, s')) :
    s.hasBranch (sanitizeBranchName spaceName) = true ∧
      s'.branches = s.branches.filter (fun b => b.1 != sanitizeBranchName spaceName) ∧
      s'.hasBranch (sanitizeBranchName spaceName) = false := by
  unfold GitDB.deleteSolutionSpace at h
  obtain ⟨_, hb, hf⟩ := deleteLocalBranch_ok _ _ _ _ (wrap_ok _ _ _ _ _ _ h)
  refine ⟨hb, hf, ?_⟩
  unfold Repo.hasBranch
  rw [hf]
  exact hasBranch_filter _ _

theorem sanitizeBranchName_fixed (name : String) :
    sanitizeBranchName (sanitizeBranchName name) = sanitizeBranchName name := by
  unfold sanitizeBranchName
  rw [sanitizeChars_idempotent]

/-- On a store where no call fails, `initSolutionSpace` returns the sanitized name and
the formerly active lineage when the sanitized name is not yet a lineage. -/
theorem initSolutionSpace_run (spaceName description : String) (s : Repo)
    (hf : s.faults = []) (hb : s.hasBranch (sanitizeBranchName spaceName) = false) :
    ∃ s', GitDB.initSolutionSpace spaceName description s =
        (Except.ok (sanitizeBranchName spaceName, s.head), s') ∧
      s'.head = sanitizeBranchName spaceName ∧
      s'.hasBranch (sanitizeBranchName spaceName) = true := by
  obtain ⟨hd, bs, fl, fs, ck⟩ := s
  simp only at hf
  subst hf
  have hb' : (bs.any fun b => b.1 == sanitizeBranchName spaceName) = false := hb
  have hrun : GitDB.initSolutionSpace spaceName description ⟨hd, bs, fl, [], ck⟩ =
      (Except.ok (sanitizeBranchName spaceName, hd),
        ⟨sanitizeBranchName spaceName,
          (bs ++ [(sanitizeBranchName spaceName,
              (⟨hd, bs, fl, [], ck⟩ : Repo).logOf hd)]).map
            (fun b => if b.1 == sanitizeBranchName spaceName then
              (b.1, (⟨"c" ++ toString ck, toString ck, description⟩ : Commit) :: b.2)
              else b),
          fl, [], ck + 1⟩) := by
    unfold GitDB.initSolutionSpace GitDB.wrap revparseHead checkoutLocalBranch add commit
    simp only [Git.tryCatch_run, Git.bind_run, environment, Repo.hasBranch, hb',
      Bool.false_eq_true, if_false, Git.pure_run]
  refine ⟨_, hrun, rfl, ?_⟩
  simp only [Repo.hasBranch]
  rw [hasBranch_map_commit]
  simp only [List.any_append, List.any_cons, beq_self_eq_true, Bool.true_or, Bool.or_true]

theorem deleteSolutionSpace_run (space : String) (s : Repo) (hf : s.faults = [])
    (hb : s.hasBranch (sanitizeBranchName space) = true)
    (hne : s.head ≠ sanitizeBranchName space) :
    GitDB.deleteSolutionSpace space s =
      (Except.ok (), { s with
        branches := s.branches.filter (fun b => b.1 != sanitizeBranchName space) }) := by
  have hbne : (sanitizeBranchName space != s.head) = true := by simpa using (Ne.symm hne)
  unfold GitDB.deleteSolutionSpace GitDB.wrap deleteLocalBranch
  simp only [Git.tryCatch_run, Git.bind_run, environment_nil _ s hf, hb, hbne, Bool.and_self,
    if_true]

/-- C11. The same logical name always resolves to the same space. For every name,
whenever `initSolutionSpace(name)` returns it has created and activated the lineage
`sanitizeBranchName(name)` and returns that name, whenever `switchSolutionSpace(name)`
returns it has activated that lineage, and whenever `deleteSolutionSpace(name)` returns it
has removed that lineage and no other; passing the sanitized name (the branch name
`initSolutionSpace` returns) back to `switchSolutionSpace` or `deleteSolutionSpace` is the
same call as passing the name; and on a store where no backend call fails the three calls
do return: `initSolutionSpace` when the sanitized name is not yet a lineage,
`switchSolutionSpace` when it is one, `deleteSolutionSpace` when it is one and not the
active one. -/
theorem same_name_same_space (name : String) :
    (∀ (description : String) (s s' : Repo) (branch original : String),
        GitDB.initSolutionSpace name description s = (Except.ok (branch, original), s') →
        branch = sanitizeBranchName name ∧ s'.head = sanitizeBranchName name ∧
          s.hasBranch (sanitizeBranchName name) = false ∧
          s'.hasBranch (sanitizeBranchName name) = true) ∧
      (∀ (s s' : Repo) (u : Unit),
        GitDB.switchSolutionSpace name s = (Except.ok u, s') →
        s'.head = sanitizeBranchName name ∧ s.hasBranch (sanitizeBranchName name) = true) ∧
      (∀ (s s' : Repo) (u : Unit),
        GitDB.deleteSolutionSpace name s = (Except.ok u, s') →
        s.hasBranch (sanitizeBranchName name) = true ∧
          s'.branches = s.branches.filter (fun b => b.1 != sanitizeBranchName name)) ∧
      GitDB.switchSolutionSpace (sanitizeBranchName name) = GitDB.switchSolutionSpace name ∧
      GitDB.deleteSolutionSpace (sanitizeBranchName name) = GitDB.deleteSolutionSpace name ∧
      (∀ (description : String) (s : Repo), s.faults = [] →
        s.hasBranch (sanitizeBranchName name) = false →
        ∃ s', GitDB.initSolutionSpace name description s =
          (Except.ok (sanitizeBranchName name, s.head), s')) ∧
      (∀ (s : Repo), s.faults = [] → s.hasBranch (sanitizeBranchName name) = true →
        GitDB.switchSolutionSpace name s =
          (Except.ok (), { s with head := sanitizeBranchName name })) ∧
      (∀ (s : Repo), s.faults = [] → s.hasBranch (sanitizeBranchName name) = true →
        s.head ≠ sanitizeBranchName name →
        GitDB.deleteSolutionSpace name s =
          (Except.ok (), { s with
            branches := s.branches.filter (fun b => b.1 != sanitizeBranchName name) })) := by
  refine ⟨?_, ?_, ?_, ?_, ?_, ?_, ?_, ?_⟩
  · intro description s s' branch original h
    obtain ⟨h1, _, h3, h4, h5, _⟩ := initSolutionSpace_ok _ _ _ _ _ _ h
    exact ⟨h1, h3, h4, h5⟩
  · intro s s' u h
    obtain ⟨h1, _, h3⟩ := switchSolutionSpace_ok _ _ _ _ h
    exact ⟨h1, h3⟩
  · intro s s' u h
    obtain ⟨h1, h2, _⟩ := deleteSolutionSpace_ok _ _ _ _ h
    exact ⟨h1, h2⟩
  · unfold GitDB.switchSolutionSpace
    rw [sanitizeBranchName_fixed]
  · unfold GitDB.deleteSolutionSpace
    rw [sanitizeBranchName_fixed]
  · intro description s hf hb
    obtain ⟨s', h, _⟩ := initSolutionSpace_run name description s hf hb
    exact ⟨s', h⟩
  · intro s hf hb
    unfold GitDB.switchSolutionSpace GitDB.wrap checkout
    simp only [Git.tryCatch_run, Git.bind_run, environment_nil _ s hf, hb, if_true]
  · intro s hf hb hne
    exact deleteSolutionSpace_run name s hf hb hne

/-- The name `My Fix!` on the example store: `initSolutionSpace` returns and has created
the lineage `my-fix`; on the store it leaves, `switchSolutionSpace` activates `my-fix`;
after a switch back to `main`, `deleteSolutionSpace` removes it. -/
theorem same_name_same_space_witness :
    sanitizeBranchName "My Fix!" = "my-fix" ∧
      (GitDB.initSolutionSpace "My Fix!" "T" exampleRepo).1 = Except.ok ("my-fix", "main") ∧
      (GitDB.initSolutionSpace "My Fix!" "T" exampleRepo).2.hasBranch
        (sanitizeBranchName "My Fix!") = true ∧
      (∃ s', GitDB.initSolutionSpace "My Fix!" "T" exampleRepo =
        (Except.ok (sanitizeBranchName "My Fix!", exampleRepo.head), s')) ∧
      GitDB.switchSolutionSpace "My Fix!"
          (GitDB.initSolutionSpace "My Fix!" "T" exampleRepo).2 =
        (Except.ok (), { (GitDB.initSolutionSpace "My Fix!" "T" exampleRepo).2 with
          head := sanitizeBranchName "My Fix!" }) ∧
      GitDB.deleteSolutionSpace "My Fix!"
          (GitDB.switchSolutionSpace "main"
            (GitDB.initSolutionSpace "My Fix!" "T" exampleRepo).2).2 =
        (Except.ok (), { (GitDB.switchSolutionSpace "main"
            (GitDB.initSolutionSpace "My Fix!" "T" exampleRepo).2).2 with
          branches := (GitDB.switchSolutionSpace "main"
            (GitDB.initSolutionSpace "My Fix!" "T" exampleRepo).2).2.branches.filter
              (fun b => b.1 != sanitizeBranchName "My Fix!") }) :=
  ⟨by decide, rfl,
    ((same_name_same_space "My Fix!").1 "T" exampleRepo
      (GitDB.initSolutionSpace "My Fix!" "T" exampleRepo).2 "my-fix" "main" rfl).2.2.2,
    (same_name_same_space "My Fix!").2.2.2.2.2.1 "T" exampleRepo rfl (by decide),
    (same_name_same_space "My Fix!").2.2.2.2.2.2.1 _ rfl (by decide),
    (same_name_same_space "My Fix!").2.2.2.2.2.2.2 _ rfl (by decide) (by decide)⟩

/-- The loop of `getBestSolutions` pushes one entry per space, in order, labelled with
the space. -/
theorem bestOfSpaces_spaces (R : Runtime) (spaces : List String) (s s' : Repo)
    (best : List BestSolution) (h : bestOfSpaces R spaces s = (Except.ok best, s')) :
    best.map (fun b => b.space) = spaces := by
  induction spaces generalizing s s' best with
  | nil =>
    simp only [bestOfSpaces, Git.pure_run, Prod.mk.injEq, Except.ok.injEq] at h
    rw [← h.1]; rfl
  | cons space rest ih =>
    unfold bestOfSpaces at h
    obtain ⟨_, s1, _, h⟩ := Git.bind_ok h
    obtain ⟨history, s2, _, h⟩ := Git.bind_ok h
    cases hsel : selectBest R history with
    | none => rw [hsel] at h; simp [Git.throw_run] at h
    | some b =>
      rw [hsel] at h
      obtain ⟨others, s3, h3, h⟩ := Git.bind_ok h
      simp only [Git.pure_run, Prod.mk.injEq, Except.ok.injEq] at h
      rw [← h.1, List.map_cons, ih _ _ _ h3]
      rfl

/-- What a successful `GitDB.saveAttempt` has done: the active lineage is the same and,
when it is a lineage, its log is the new snapshot followed by the former log. -/
theorem saveAttempt_ok (R : Runtime) (description : String)
    (fields : List (String × JSValue)) (s s' : Repo) (hash : String)
    (h : GitDB.saveAttempt R description (JSValue.object fields) s = (Except.ok hash, s')) :
    hash = "c" ++ toString s.clock ∧ s'.head = s.head ∧
      (s.hasBranch s.head = true →
        s'.logOf s.head =
          ⟨hash, toString s.clock, R.stringify (JSValue.object
            [("description", JSValue.string description),
             ("metadata", JSValue.object fields)])⟩ :: s.logOf s.head) := by
  unfold GitDB.saveAttempt at h
  have hbody := wrap_ok _ _ _ _ _ _ h
  obtain ⟨_, s1, h1, hbody⟩ := Git.bind_ok hbody
  obtain ⟨hash', s2, h2, hbody⟩ := Git.bind_ok hbody
  obtain ⟨hh1, hb1, hc1⟩ := add_ok _ _ _ h1
  obtain ⟨hhash, hh2, hb2⟩ := commit_ok _ _ _ _ h2
  simp only [Git.pure_run, Prod.mk.injEq, Except.ok.injEq] at hbody
  obtain ⟨he, hs⟩ := hbody
  subst hs; subst he
  refine ⟨by rw [hhash, hc1], by rw [hh2, hh1], ?_⟩
  intro hb
  have hany : s1.branches.any (fun b => b.1 == s1.head) = true := by
    rw [hb1, hh1]; exact hb
  unfold Repo.logOf
  rw [hb2, ← hh1, logOf_map_commit _ _ _ hany, hb1, hc1]

/-- The entries `sourceSolutions` of the enriched metadata are those the caller passed. -/
theorem enrichedMetadata_sourceSolutions (R : Runtime) (evaluation : JSNumber) (now : String)
    (best : List BestSolution) :
    JSValue.lookup "sourceSolutions" (enrichedMetadata R evaluation now (sourceMetadata best)) =
      JSValue.array (best.map sourceEntry) := by
  unfold enrichedMetadata
  rw [lookup_setField_other _ _ _ _ (by decide), lookup_setField_other _ _ _ _ (by decide),
    lookup_setField_other _ _ _ _ (by decide)]
  simp [sourceMetadata, JSValue.lookup]

/-- C14. When `createConvergedSolution` returns, its `sourceSolutions` is the list
`getBestSolutions()` computes on the state of the call: one entry per space that
`listSolutionSpaces()` returns on that state, in that order, each with the hash and score
of `getBestSolutions()`; and the newest snapshot of the convergence space carries, under
`sourceSolutions`, the `space`/`hash`/`score` triples of the same entries. -/
theorem convergence_provenance (R : Runtime) (evaluator : Evaluator) (now description : String)
    (convergenceStrategy : ConvergenceStrategy) (s s' : Repo) (result : Converged)
    (h : createConvergedSolution R evaluator now description convergenceStrategy s =
      (Except.ok result, s')) :
    ∃ spaces s0 s1,
      GitDB.listSolutionSpaces s = (Except.ok spaces, s0) ∧
      getBestSolutions R s = (Except.ok result.sourceSolutions, s1) ∧
      result.sourceSolutions.map (fun b => b.space) = spaces ∧
      ((s'.logOf "converged-solution").head?).map Commit.message =
        some (R.stringify (savedMessage R evaluator now description result.solution
          (sourceMetadata result.sourceSolutions))) ∧
      (((savedMessage R evaluator now description result.solution
          (sourceMetadata result.sourceSolutions)).get "metadata").get "metadata").get
            "sourceSolutions" =
        JSValue.array (result.sourceSolutions.map (fun b => JSValue.object
          [("space", JSValue.string b.space), ("hash", JSValue.string b.hash),
           ("score", b.score)])) := by
  unfold createConvergedSolution at h
  obtain ⟨best, s1, h1, h⟩ := Git.bind_ok h
  obtain ⟨pair, s2, h2, h⟩ := Git.bind_ok h
  obtain ⟨converged, s3, h3, h⟩ := Git.bind_ok h
  obtain ⟨hash, s4, h4, h⟩ := Git.bind_ok h
  simp only [Git.pure_run, Prod.mk.injEq, Except.ok.injEq] at h
  obtain ⟨hres, hs⟩ := h
  subst hs; subst hres
  have h1' := h1
  unfold getBestSolutions at h1'
  obtain ⟨spaces, s0, hl, hb⟩ := Git.bind_ok h1'
  obtain ⟨branch, original⟩ := pair
  obtain ⟨_, _, hhead2, _, hhas2, _⟩ := initSolutionSpace_ok _ _ _ _ _ _ h2
  have hsan : sanitizeBranchName "converged-solution" = "converged-solution" := by decide
  rw [hsan] at hhead2 hhas2
  have hs3 : s3 = s2 := by
    unfold awaited at h3
    exact ((Prod.mk.inj h3).2).symm
  subst hs3
  unfold SolutionExplorer.saveAttempt attemptPayload at h4
  obtain ⟨_, _, hlog⟩ := saveAttempt_ok R description _ _ _ _ h4
  rw [hhead2] at hlog
  refine ⟨spaces, s0, s1, hl, h1, bestOfSpaces_spaces R spaces _ _ _ hb, ?_, ?_⟩
  · rw [hlog hhas2]
    rfl
  · show JSValue.lookup "sourceSolutions" (enrichedMetadata R
        (evaluateSolution R evaluator converged) now (sourceMetadata best)) = _
    rw [enrichedMetadata_sourceSolutions]
    rfl


/-- Witness of C14: two exploration spaces with their seeding snapshots. -/
theorem convergence_provenance_witness :
    ∃ spaces s0 s1,
      GitDB.listSolutionSpaces pathsRepo = (Except.ok spaces, s0) ∧
      getBestSolutions (exampleRuntime JSValue.null) pathsRepo =
        (Except.ok exampleConverged.sourceSolutions, s1) ∧
      exampleConverged.sourceSolutions.map (fun b => b.space) = spaces ∧
      ((convergedRepo.logOf "converged-solution").head?).map Commit.message =
        some ((exampleRuntime JSValue.null).stringify (savedMessage (exampleRuntime JSValue.null)
          defaultEvaluator "2024-01-01T00:00:00.000Z" "first convergence"
          exampleConverged.solution (sourceMetadata exampleConverged.sourceSolutions))) ∧
      (((savedMessage (exampleRuntime JSValue.null) defaultEvaluator
          "2024-01-01T00:00:00.000Z" "first convergence" exampleConverged.solution
          (sourceMetadata exampleConverged.sourceSolutions)).get "metadata").get "metadata").get
            "sourceSolutions" =
        JSValue.array (exampleConverged.sourceSolutions.map (fun b => JSValue.object
          [("space", JSValue.string b.space), ("hash", JSValue.string b.hash),
           ("score", b.score)])) :=
  convergence_provenance (exampleRuntime JSValue.null) defaultEvaluator
    "2024-01-01T00:00:00.000Z" "first convergence" exampleStrategy pathsRepo convergedRepo
    exampleConverged rfl

/-- A call of `initSolutionSpace` for a name whose lineage exists throws and leaves the
lineages as they are. -/
theorem initSolutionSpace_existing (spaceName description : String) (s : Repo)
    (hb : s.hasBranch (sanitizeBranchName spaceName) = true) :
    (∃ e, (GitDB.initSolutionSpace spaceName description s).1 = Except.error e) ∧
      (GitDB.initSolutionSpace spaceName description s).2.branches = s.branches := by
  unfold GitDB.initSolutionSpace GitDB.wrap
  simp only [Git.tryCatch_run, Git.bind_run, revparseHead, checkoutLocalBranch]
  have hf := environment_frame "revparse" s
  rcases h1 : environment "revparse" s with ⟨e1 | u1, s1⟩
  · rw [h1] at hf
    exact ⟨⟨_, rfl⟩, hf.2.1⟩
  · rw [h1] at hf
    simp only
    have hf2 := environment_frame "checkoutLocalBranch" s1
    rcases h2 : environment "checkoutLocalBranch" s1 with ⟨e2 | u2, s2⟩
    · rw [h2] at hf2
      exact ⟨⟨_, rfl⟩, by simp only [Git.throw_run]; rw [hf2.2.1, hf.2.1]⟩
    · rw [h2] at hf2
      have hb2 : s2.hasBranch (sanitizeBranchName spaceName) = true := by
        rw [hasBranch_congr s s2 _ (by rw [hf2.2.1, hf.2.1])]; exact hb
      simp only [hb2, if_true, Git.throw_run]
      exact ⟨⟨_, rfl⟩, by rw [hf2.2.1, hf.2.1]⟩

/-- C15, as stated, fails: after a first call that returns, the convergence space
exists, and a second call throws the error of `initSolutionSpace`. -/
theorem createConvergedSolution_second_call_throws :
    (createConvergedSolution (exampleRuntime JSValue.null) defaultEvaluator
        "2024-01-01T00:00:00.000Z" "first convergence" exampleStrategy pathsRepo).1 =
        Except.ok exampleConverged ∧
      convergedRepo.hasBranch "converged-solution" = true ∧
      (createConvergedSolution (exampleRuntime JSValue.null) defaultEvaluator
        "2024-01-02T00:00:00.000Z" "second convergence" exampleStrategy convergedRepo).1 =
        Except.error ⟨"GitDB.initSolutionSpace",
          "Failed to initialize solution space: a branch named converged-solution already exists"⟩ :=
  ⟨rfl, rfl, rfl⟩

/-- The error `initSolutionSpace` throws on a name that is a lineage already: an error of
`initSolutionSpace` itself, with the message of the creation when no call fails for a
reason of the environment. -/
theorem initSolutionSpace_existing_error (spaceName description : String) (s : Repo)
    (hb : s.hasBranch (sanitizeBranchName spaceName) = true) :
    ∃ m, (GitDB.initSolutionSpace spaceName description s).1 =
        Except.error ⟨"GitDB.initSolutionSpace",
          "Failed to initialize solution space: " ++ m⟩ ∧
      (s.faults = [] →
        m = "a branch named " ++ sanitizeBranchName spaceName ++ " already exists") := by
  unfold GitDB.initSolutionSpace GitDB.wrap
  simp only [Git.tryCatch_run, Git.bind_run, revparseHead, checkoutLocalBranch]
  have hf := environment_frame "revparse" s
  rcases h1 : environment "revparse" s with ⟨e1 | u1, s1⟩
  · refine ⟨e1.message, rfl, fun hnil => ?_⟩
    rw [environment_nil _ s hnil] at h1
    cases h1
  · rw [h1] at hf
    simp only
    have hf2 := environment_frame "checkoutLocalBranch" s1
    rcases h2 : environment "checkoutLocalBranch" s1 with ⟨e2 | u2, s2⟩
    · refine ⟨e2.message, rfl, fun hnil => ?_⟩
      rw [environment_nil _ s hnil] at h1
      have hs1 : s1 = s := ((Prod.mk.inj h1).2).symm
      rw [hs1, environment_nil _ s hnil] at h2
      cases h2
    · rw [h2] at hf2
      have hb2 : s2.hasBranch (sanitizeBranchName spaceName) = true := by
        rw [hasBranch_congr s s2 _ (by rw [hf2.2.1, hf.2.1])]; exact hb
      simp only [hb2, if_true, Git.throw_run]
      exact ⟨_, rfl, fun _ => rfl⟩

/-- C15, amended. When the convergence space `converged-solution` already exists (for
example after an earlier call), `createConvergedSolution` does not reuse it: the call
throws, and every lineage keeps exactly the attempts it had, so the earlier converged
attempt is not overwritten and no attempt is appended. The error is that of
`getBestSolutions` when that call throws; when it returns, the error is the one
`initSolutionSpace` throws, `Failed to initialize solution space: ...`, with the message
of the refused creation when no backend call fails for a reason of the environment. -/
theorem createConvergedSolution_existing_space (R : Runtime) (evaluator : Evaluator)
    (now description : String) (convergenceStrategy : ConvergenceStrategy) (s : Repo)
    (hb : s.hasBranch "converged-solution" = true) :
    (∃ e, (createConvergedSolution R evaluator now description convergenceStrategy s).1 =
        Except.error e) ∧
      (createConvergedSolution R evaluator now description convergenceStrategy s).2.branches =
        s.branches ∧
      (∀ e s1, getBestSolutions R s = (Except.error e, s1) →
        (createConvergedSolution R evaluator now description convergenceStrategy s).1 =
          Except.error e) ∧
      (∀ best s1, getBestSolutions R s = (Except.ok best, s1) →
        ∃ m, (createConvergedSolution R evaluator now description convergenceStrategy s).1 =
            Except.error ⟨"GitDB.initSolutionSpace",
              "Failed to initialize solution space: " ++ m⟩ ∧
          (s1.faults = [] → m = "a branch named converged-solution already exists")) := by
  have hsan : sanitizeBranchName "converged-solution" = "converged-solution" := by decide
  have hk := keepsBranches_getBestSolutions R s
  refine ⟨?_, ?_, ?_, ?_⟩
  · unfold createConvergedSolution
    rw [Git.bind_run]
    rcases h1 : getBestSolutions R s with ⟨e1 | best, s1⟩
    · exact ⟨_, rfl⟩
    · rw [h1] at hk
      simp only [Git.bind_run]
      have hb1 : s1.hasBranch (sanitizeBranchName "converged-solution") = true := by
        rw [hsan, hasBranch_congr s s1 _ hk]; exact hb
      obtain ⟨⟨e, he⟩, _⟩ :=
        initSolutionSpace_existing "converged-solution" "Final converged solution" s1 hb1
      rcases h2 : GitDB.initSolutionSpace "converged-solution" "Final converged solution" s1
        with ⟨e2 | pair, s2⟩
      · exact ⟨_, rfl⟩
      · rw [h2] at he; simp at he
  · unfold createConvergedSolution
    rw [Git.bind_run]
    rcases h1 : getBestSolutions R s with ⟨e1 | best, s1⟩
    · rw [h1] at hk
      exact hk
    · rw [h1] at hk
      simp only [Git.bind_run]
      have hb1 : s1.hasBranch (sanitizeBranchName "converged-solution") = true := by
        rw [hsan, hasBranch_congr s s1 _ hk]; exact hb
      obtain ⟨⟨e, he⟩, hbr⟩ :=
        initSolutionSpace_existing "converged-solution" "Final converged solution" s1 hb1
      rcases h2 : GitDB.initSolutionSpace "converged-solution" "Final converged solution" s1
        with ⟨e2 | pair, s2⟩
      · rw [h2] at hbr
        simp only; rw [hbr, hk]
      · rw [h2] at he; simp at he
  · intro e s1 h1
    unfold createConvergedSolution
    rw [Git.bind_run, h1]
  · intro best s1 h1
    rw [h1] at hk
    have hb1 : s1.hasBranch (sanitizeBranchName "converged-solution") = true := by
      rw [hsan, hasBranch_congr s s1 _ hk]; exact hb
    obtain ⟨m, hm, hmsg⟩ :=
      initSolutionSpace_existing_error "converged-solution" "Final converged solution" s1 hb1
    refine ⟨m, ?_, fun hnil => by rw [hmsg hnil, hsan]; rfl⟩
    unfold createConvergedSolution
    rw [Git.bind_run, h1]
    simp only [Git.bind_run]
    rcases h2 : GitDB.initSolutionSpace "converged-solution" "Final converged solution" s1
      with ⟨e2 | pair, s2⟩
    · rw [h2] at hm
      simp only at hm
      simp only
      rw [Except.error.inj hm]
    · rw [h2] at hm; simp at hm

/-- Witness of C15, amended: the second call on `convergedRepo`, where `getBestSolutions`
returns, throws the error of `initSolutionSpace`. -/
theorem createConvergedSolution_existing_space_witness :
    (createConvergedSolution (exampleRuntime JSValue.null) defaultEvaluator
        "2024-01-02T00:00:00.000Z" "second convergence" exampleStrategy convergedRepo).2.branches
        = convergedRepo.branches ∧
      ∃ m, (createConvergedSolution (exampleRuntime JSValue.null) defaultEvaluator
          "2024-01-02T00:00:00.000Z" "second convergence" exampleStrategy convergedRepo).1 =
          Except.error ⟨"GitDB.initSolutionSpace",
            "Failed to initialize solution space: " ++ m⟩ ∧
        ((getBestSolutions (exampleRuntime JSValue.null) convergedRepo).2.faults = [] →
          m = "a branch named converged-solution already exists") :=
  ⟨(createConvergedSolution_existing_space (exampleRuntime JSValue.null) defaultEvaluator
      "2024-01-02T00:00:00.000Z" "second convergence" exampleStrategy convergedRepo rfl).2.1,
    (createConvergedSolution_existing_space (exampleRuntime JSValue.null) defaultEvaluator
      "2024-01-02T00:00:00.000Z" "second convergence" exampleStrategy convergedRepo
      rfl).2.2.2 _ _ rfl⟩


/-! ## Runs on a store where no call fails -/

theorem switchSolutionSpace_run (space : String) (s : Repo) (hf : s.faults = [])
    (hb : s.hasBranch (sanitizeBranchName space) = true) :
    GitDB.switchSolutionSpace space s =
      (Except.ok (), { s with head := sanitizeBranchName space }) := by
  unfold GitDB.switchSolutionSpace GitDB.wrap checkout
  simp only [Git.tryCatch_run, Git.bind_run, environment_nil _ s hf, hb, if_true]

theorem getAttemptHistory_run (R : Runtime) (s : Repo) (hf : s.faults = []) :
    GitDB.getAttemptHistory R s =
      (Except.ok ((s.logOf s.head).map (decodeCommit R)), s) := by
  unfold GitDB.getAttemptHistory GitDB.wrap logAll
  simp only [Git.tryCatch_run, Git.bind_run, environment_nil _ s hf, Git.pure_run]

theorem listSolutionSpaces_run (s : Repo) (hf : s.faults = []) :
    GitDB.listSolutionSpaces s =
      (Except.ok ((s.branches.map (fun b => b.1)).filter
        (fun branch => branch != "main" && branch != "master")), s) := by
  unfold GitDB.listSolutionSpaces GitDB.wrap branchAll
  simp only [Git.tryCatch_run, Git.bind_run, environment_nil _ s hf, Git.pure_run]

theorem selectBest_isSome (R : Runtime) (history : List Attempt) (hne : history ≠ []) :
    ∃ best, selectBest R history = some best := by
  cases history with
  | nil => exact absurd rfl hne
  | cons first rest => exact ⟨_, rfl⟩

/-- On a store where no call fails, with every space to visit a lineage named by its own
sanitized name and holding at least one snapshot, the loop of `getBestSolutions` returns
the entry of the best attempt of each space, in order. -/
theorem bestOfSpaces_run (R : Runtime) (spaces : List String) (s : Repo)
    (hf : s.faults = [])
    (hsp : ∀ sp ∈ spaces, sanitizeBranchName sp = sp ∧ s.hasBranch sp = true ∧
      s.logOf sp ≠ []) :
    ∃ s', bestOfSpaces R spaces s =
        (Except.ok (spaces.filterMap (fun sp =>
          (selectBest R ((s.logOf sp).map (decodeCommit R))).map (bestEntry sp))), s') ∧
      s'.faults = [] ∧ s'.branches = s.branches := by
  induction spaces generalizing s with
  | nil => exact ⟨s, rfl, hf, rfl⟩
  | cons space rest ih =>
    obtain ⟨hsan, hb, hlog⟩ := hsp space (List.mem_cons_self _ _)
    have hb' : s.hasBranch (sanitizeBranchName space) = true := by rw [hsan]; exact hb
    have hrest : ∀ sp ∈ rest, sanitizeBranchName sp = sp ∧
        ({ s with head := space } : Repo).hasBranch sp = true ∧
        ({ s with head := space } : Repo).logOf sp ≠ [] :=
      fun sp h => hsp sp (List.mem_cons_of_mem _ h)
    obtain ⟨s', hrun, hf', hbr'⟩ := ih { s with head := space } hf hrest
    have hne : (s.logOf space).map (decodeCommit R) ≠ [] := by
      simpa using hlog
    obtain ⟨best, hbest⟩ := selectBest_isSome R _ hne
    refine ⟨s', ?_, hf', hbr'⟩
    have h1 := switchSolutionSpace_run space s hf hb'
    rw [hsan] at h1
    have h2 := getAttemptHistory_run R { s with head := space } hf
    have hlogeq : ({ s with head := space } : Repo).logOf space = s.logOf space := rfl
    rw [hlogeq] at h2
    have hrun' : bestOfSpaces R rest { s with head := space } =
        (Except.ok (rest.filterMap (fun sp =>
          (selectBest R ((s.logOf sp).map (decodeCommit R))).map (bestEntry sp))), s') := hrun
    simp only [bestOfSpaces, Git.bind_run, h1, h2, hbest, hrun', Git.pure_run,
      List.filterMap_cons, Option.map_some']

theorem getBestSolutions_run (R : Runtime) (s : Repo) (hf : s.faults = [])
    (hsp : SpacesReadable s) :
    ∃ s', getBestSolutions R s =
        (Except.ok (((s.branches.map (fun b => b.1)).filter
          (fun branch => branch != "main" && branch != "master")).filterMap (fun sp =>
            (selectBest R ((s.logOf sp).map (decodeCommit R))).map (bestEntry sp))), s') := by
  obtain ⟨s', hrun, _, _⟩ := bestOfSpaces_run R _ s hf hsp
  refine ⟨s', ?_⟩
  unfold getBestSolutions
  rw [Git.bind_run, listSolutionSpaces_run s hf]
  exact hrun


theorem decodeCommit_hash (R : Runtime) (c : Commit) : (decodeCommit R c).hash = c.hash := by
  unfold decodeCommit
  cases R.parse c.message with
  | none => rfl
  | some v => cases v <;> rfl

/-- Without any evaluation in the history, the `reduce` keeps the first entry. -/
theorem selectBest_unevaluated (R : Runtime) (first : Attempt) (rest : List Attempt)
    (hnone : ∀ a ∈ first :: rest, a.metadata.getOpt "evaluation" = JSValue.undefined) :
    selectBest R (first :: rest) = some first ∧
      scoreOf first = JSValue.number (JSNumber.fin 0) := by
  have hzero : ∀ a ∈ first :: rest, scoreOf a = JSValue.number (JSNumber.fin 0) := by
    intro a ha
    unfold scoreOf
    rw [hnone a ha]
    rfl
  refine ⟨?_, hzero first (List.mem_cons_self _ _)⟩
  unfold selectBest
  simp only
  congr 1
  exact foldl_pickBetter_zero R _ _ (hzero first (List.mem_cons_self _ _)) hzero

/-- C16. For a space whose history is non-empty but holds no attempt with an evaluation,
`getBestSolutions` selects the first (newest) history entry and reports score 0 with the
description and hash of that entry: so does the `reduce` on every such history, and so
does the entry `getBestSolutions` returns for the space on a store where no call fails
and every listed space can be read. -/
theorem unevaluated_space_scores_zero (R : Runtime) (space : String) :
    (∀ (first : Attempt) (rest : List Attempt),
        (∀ a ∈ first :: rest, a.metadata.getOpt "evaluation" = JSValue.undefined) →
        selectBest R (first :: rest) = some first ∧
          (bestEntry space first).score = JSValue.number (JSNumber.fin 0) ∧
          (bestEntry space first).description = first.description ∧
          (bestEntry space first).hash = first.hash) ∧
      (∀ (s : Repo) (newest : Commit) (older : List Commit),
        s.faults = [] → SpacesReadable s → s.hasBranch space = true →
        space ≠ "main" → space ≠ "master" →
        s.logOf space = newest :: older →
        (∀ c ∈ newest :: older,
          (decodeCommit R c).metadata.getOpt "evaluation" = JSValue.undefined) →
        ∃ best s', getBestSolutions R s = (Except.ok best, s') ∧
          (⟨space, (decodeCommit R newest).metadata.getOpt "solution",
            JSValue.number (JSNumber.fin 0), (decodeCommit R newest).description,
            newest.hash⟩ : BestSolution) ∈ best) := by
  constructor
  · intro first rest hnone
    obtain ⟨h1, h2⟩ := selectBest_unevaluated R first rest hnone
    exact ⟨h1, h2, rfl, rfl⟩
  · intro s newest older hf hsp hb hmain hmaster hlog hnone
    obtain ⟨s', hrun⟩ := getBestSolutions_run R s hf hsp
    refine ⟨_, s', hrun, ?_⟩
    rw [List.mem_filterMap]
    refine ⟨space, ?_, ?_⟩
    · rw [List.mem_filter]
      refine ⟨?_, by simp [hmain, hmaster]⟩
      unfold Repo.hasBranch at hb
      rw [List.any_eq_true] at hb
      obtain ⟨b, hbm, hbe⟩ := hb
      rw [List.mem_map]
      exact ⟨b, hbm, by simpa using hbe⟩
    · rw [hlog, List.map_cons]
      have hnone' : ∀ a ∈ decodeCommit R newest :: older.map (decodeCommit R),
          a.metadata.getOpt "evaluation" = JSValue.undefined := by
        intro a ha
        rcases List.mem_cons.mp ha with h | h
        · rw [h]; exact hnone newest (List.mem_cons_self _ _)
        · obtain ⟨c, hc, rfl⟩ := List.mem_map.mp h
          exact hnone c (List.mem_cons_of_mem _ hc)
      obtain ⟨h1, h2⟩ := selectBest_unevaluated R _ _ hnone'
      rw [h1, Option.map_some']
      unfold bestEntry
      rw [h2, decodeCommit_hash]

/-- Witness of C16: the space `exploration-path-1` of `pathsRepo`, which holds only
seeding snapshots. -/
theorem unevaluated_space_scores_zero_witness :
    ∃ best s', getBestSolutions (exampleRuntime JSValue.null) pathsRepo = (Except.ok best, s') ∧
      (⟨"exploration-path-1",
        (decodeCommit (exampleRuntime JSValue.null)
          ⟨"c1", "1", "T - Exploration Path 1"⟩).metadata.getOpt "solution",
        JSValue.number (JSNumber.fin 0),
        (decodeCommit (exampleRuntime JSValue.null)
          ⟨"c1", "1", "T - Exploration Path 1"⟩).description,
        "c1"⟩ : BestSolution) ∈ best :=
  (unevaluated_space_scores_zero (exampleRuntime JSValue.null) "exploration-path-1").2
    pathsRepo ⟨"c1", "1", "T - Exploration Path 1"⟩ [exampleCommit] rfl
    (by
      intro sp hsp
      simp only [pathsRepo, List.map, List.filter] at hsp
      simp at hsp
      rcases hsp with h | h <;> subst h <;> exact ⟨by decide, by decide, by decide⟩)
    (by decide) (by decide) (by decide) rfl
    (by
      intro c hc
      simp only [List.mem_cons, List.mem_singleton, List.not_mem_nil, or_false] at hc
      rcases hc with h | h <;> subst h <;> rfl)

/-! ## The attempt record -/

theorem getAttemptHistory_ok (R : Runtime) (s s' : Repo) (history : List Attempt)
    (h : GitDB.getAttemptHistory R s = (Except.ok history, s')) :
    history = (s.logOf s.head).map (decodeCommit R) := by
  unfold GitDB.getAttemptHistory at h
  have hbody := wrap_ok _ _ _ _ _ _ h
  obtain ⟨log, s1, h1, hbody⟩ := Git.bind_ok hbody
  unfold logAll at h1
  obtain ⟨_, s0, h0, h1⟩ := Git.bind_ok h1
  obtain ⟨hh, hb, _, _⟩ := environment_ok _ _ _ _ h0
  simp only [Prod.mk.injEq, Except.ok.injEq] at h1
  simp only [Git.pure_run, Prod.mk.injEq, Except.ok.injEq] at hbody
  rw [← hbody.1, ← h1.1, hh, logOf_congr s s0 _ hb]

theorem retrieveAttempt_ok (R : Runtime) (commitHash : String) (s s' : Repo)
    (attempt : Attempt) (diff : String)
    (h : GitDB.retrieveAttempt R commitHash s = (Except.ok (attempt, diff), s')) :
    ∃ c, s.findCommit commitHash = some c ∧ attempt = decodeCommit R c := by
  unfold GitDB.retrieveAttempt at h
  have hbody := wrap_ok _ _ _ _ _ _ h
  obtain ⟨shown, s1, h1, hbody⟩ := Git.bind_ok hbody
  obtain ⟨commit, s2, h2, hbody⟩ := Git.bind_ok hbody
  have hk1 : s1.branches = s.branches := by
    unfold showCommit at h1
    obtain ⟨_, s0, h0, h1⟩ := Git.bind_ok h1
    have hb0 := (environment_ok _ _ _ _ h0).2.1
    cases hfc : s0.findCommit commitHash with
    | none => rw [hfc] at h1; simp at h1
    | some c =>
      rw [hfc] at h1
      simp only [Prod.mk.injEq] at h1
      rw [← h1.2]; exact hb0
  unfold logLatest at h2
  obtain ⟨_, s0, h0, h2⟩ := Git.bind_ok h2
  have hb0 := (environment_ok _ _ _ _ h0).2.1
  have hfind : s0.findCommit commitHash = s.findCommit commitHash := by
    unfold Repo.findCommit; rw [hb0, hk1]
  cases hfc : s0.findCommit commitHash with
  | none => rw [hfc] at h2; simp at h2
  | some c =>
    rw [hfc] at h2
    simp only [Prod.mk.injEq, Except.ok.injEq] at h2
    simp only [Git.pure_run, Prod.mk.injEq, Except.ok.injEq] at hbody
    refine ⟨c, by rw [← hfind]; exact hfc, ?_⟩
    rw [← hbody.1.1, ← h2.1]

theorem retrieveAttempt_run (R : Runtime) (commitHash : String) (s : Repo) (c : Commit)
    (hf : s.faults = []) (hc : s.findCommit commitHash = some c) :
    GitDB.retrieveAttempt R commitHash s =
      (Except.ok (decodeCommit R c, "commit " ++ c.hash), s) := by
  unfold GitDB.retrieveAttempt GitDB.wrap showCommit logLatest
  simp only [Git.tryCatch_run, Git.bind_run, environment_nil _ s hf, hc, Git.pure_run]

/-- The snapshot a fresh hash names once the active lineage has taken it. -/
theorem findCommit_map_commit (branches : List (String × List Commit)) (head : String)
    (c : Commit)
    (hb : branches.any (fun b => b.1 == head) = true)
    (hfresh : branches.findSome? (fun b => b.2.find? (fun d => d.hash == c.hash)) = none) :
    (branches.map (fun b : String × List Commit =>
        if b.1 == head then (b.1, c :: b.2) else b)).findSome?
          (fun b => b.2.find? (fun d => d.hash == c.hash)) = some c := by
  induction branches with
  | nil => simp at hb
  | cons b bs ih =>
    rw [List.findSome?_cons] at hfresh
    cases hfb : b.2.find? (fun d => d.hash == c.hash) with
    | some d => rw [hfb] at hfresh; simp at hfresh
    | none =>
      rw [hfb] at hfresh
      by_cases hh : (b.1 == head) = true
      · simp only [List.map_cons, hh, if_true, List.findSome?_cons, List.find?,
          beq_self_eq_true]
      · have hh' : (b.1 == head) = false := by simpa using hh
        have hb' : bs.any (fun b => b.1 == head) = true := by
          simpa [List.any_cons, hh'] using hb
        simp only [List.map_cons, hh', Bool.false_eq_true, if_false, List.findSome?_cons, hfb]
        exact ih hb' hfresh

/-- On a store where no call fails, `GitDB.saveAttempt` returns the next hash and leaves a
store where no call fails, with the same active lineage, whose log starts with the new
snapshot. -/
theorem saveAttempt_run (R : Runtime) (description : String) (fields : List (String × JSValue))
    (s : Repo) (hf : s.faults = []) (hb : s.hasBranch s.head = true) :
    ∃ s1, GitDB.saveAttempt R description (JSValue.object fields) s =
        (Except.ok ("c" ++ toString s.clock), s1) ∧
      s1.faults = [] ∧ s1.head = s.head ∧ s1.hasBranch s1.head = true ∧
      s1.clock = s.clock + 1 ∧
      s1.logOf s1.head =
        ⟨"c" ++ toString s.clock, toString s.clock, R.stringify (JSValue.object
          [("description", JSValue.string description),
           ("metadata", JSValue.object fields)])⟩ :: s.logOf s.head ∧
      (s.findCommit ("c" ++ toString s.clock) = none →
        s1.findCommit ("c" ++ toString s.clock) =
          some ⟨"c" ++ toString s.clock, toString s.clock, R.stringify (JSValue.object
            [("description", JSValue.string description),
             ("metadata", JSValue.object fields)])⟩) := by
  obtain ⟨hd, bs, fl, fs, ck⟩ := s
  simp only at hf hb
  subst hf
  refine ⟨_, rfl, rfl, rfl, ?_, rfl, ?_, ?_⟩
  · simp only [Repo.hasBranch]
    rw [hasBranch_map_commit]
    exact hb
  · simp only [Repo.logOf]
    exact logOf_map_commit bs hd _ hb
  · intro hfresh
    exact findCommit_map_commit bs hd ⟨"c" ++ toString ck, toString ck,
      R.stringify (JSValue.object
        [("description", JSValue.string description),
         ("metadata", JSValue.object fields)])⟩ hb hfresh


/-- The message `GitDB.saveAttempt` writes decodes to its description and metadata when
`JSON.parse` reads back what `JSON.stringify` wrote. -/
theorem decodeCommit_saved (R : Runtime) (description : String) (metadata : JSValue)
    (hash date : String)
    (hparse : R.parse (R.stringify (JSValue.object
        [("description", JSValue.string description), ("metadata", metadata)])) =
      some (JSValue.object
        [("description", JSValue.string description), ("metadata", metadata)])) :
    decodeCommit R ⟨hash, date, R.stringify (JSValue.object
        [("description", JSValue.string description), ("metadata", metadata)])⟩ =
      ⟨hash, date, JSValue.string description, metadata⟩ := by
  unfold decodeCommit
  simp only [hparse]
  rfl

/-- C18. Round trip of the attempt record. For every description and every metadata
object that JSON represents (`JSON.parse` reads back what `JSON.stringify` writes for the
message object), on a store where no call fails and the next hash is fresh,
`GitDB.saveAttempt(description, metadata)` returns a hash, `getAttemptHistory` then lists
first an attempt with that hash, that description and that metadata, and
`retrieveAttempt(hash)` returns the same attempt. -/
theorem attempt_round_trip (R : Runtime) (description : String)
    (fields : List (String × JSValue)) (s : Repo)
    (hf : s.faults = []) (hb : s.hasBranch s.head = true)
    (hfresh : s.findCommit ("c" ++ toString s.clock) = none)
    (hparse : R.parse (R.stringify (JSValue.object
        [("description", JSValue.string description),
         ("metadata", JSValue.object fields)])) =
      some (JSValue.object
        [("description", JSValue.string description),
         ("metadata", JSValue.object fields)])) :
    ∃ hash date s1,
      GitDB.saveAttempt R description (JSValue.object fields) s = (Except.ok hash, s1) ∧
      (∃ older s2, GitDB.getAttemptHistory R s1 =
        (Except.ok (⟨hash, date, JSValue.string description, JSValue.object fields⟩ :: older),
          s2)) ∧
      (∃ diff s3, GitDB.retrieveAttempt R hash s1 =
        (Except.ok (⟨hash, date, JSValue.string description, JSValue.object fields⟩, diff),
          s3)) := by
  obtain ⟨s1, hrun, hf1, _, _, _, hlog, hfind⟩ := saveAttempt_run R description fields s hf hb
  refine ⟨_, toString s.clock, s1, hrun, ?_, ?_⟩
  · refine ⟨(s.logOf s.head).map (decodeCommit R), s1, ?_⟩
    rw [getAttemptHistory_run R s1 hf1, hlog, List.map_cons,
      decodeCommit_saved R description _ _ _ hparse]
  · refine ⟨"commit " ++ ("c" ++ toString s.clock), s1, ?_⟩
    rw [retrieveAttempt_run R _ s1 _ hf1 (hfind hfresh),
      decodeCommit_saved R description _ _ _ hparse]

/-- Witness of C18: the attempt `attempt` with solution `b`, saved on `exampleRepo`. -/
theorem attempt_round_trip_witness :
    ∃ hash date s1,
      GitDB.saveAttempt (exampleRuntime plainMessage) "attempt"
        (JSValue.object [("solution", JSValue.string "b")]) exampleRepo =
        (Except.ok hash, s1) ∧
      (∃ older s2, GitDB.getAttemptHistory (exampleRuntime plainMessage) s1 =
        (Except.ok (⟨hash, date, JSValue.string "attempt",
          JSValue.object [("solution", JSValue.string "b")]⟩ :: older), s2)) ∧
      (∃ diff s3, GitDB.retrieveAttempt (exampleRuntime plainMessage) hash s1 =
        (Except.ok (⟨hash, date, JSValue.string "attempt",
          JSValue.object [("solution", JSValue.string "b")]⟩, diff), s3)) :=
  attempt_round_trip (exampleRuntime plainMessage) "attempt"
    [("solution", JSValue.string "b")] exampleRepo rfl rfl rfl rfl

/-- C19, as stated, fails: a snapshot whose message is the JSON text `5` is decoded by
`getAttemptHistory` and `retrieveAttempt` to an attempt whose description and metadata
are `undefined`, not the raw message and the empty object. -/
theorem json_number_message_not_raw :
    numberRuntime.parse "5" = some (JSValue.number (JSNumber.fin 5)) ∧
      (GitDB.getAttemptHistory numberRuntime numberRepo).1 =
        Except.ok [⟨"c0", "0", JSValue.undefined, JSValue.undefined⟩] ∧
      (GitDB.retrieveAttempt numberRuntime "c0" numberRepo).1 =
        Except.ok (⟨"c0", "0", JSValue.undefined, JSValue.undefined⟩, "commit c0") ∧
      JSValue.undefined ≠ JSValue.string "5" :=
  ⟨rfl, rfl, rfl, by intro h; cases h⟩

/-- C19, amended. `getAttemptHistory` decodes every snapshot of the active space and
`retrieveAttempt` the snapshot its hash names, both in the same way: for a message that
is not valid JSON, or that is the JSON text `null`, the description is the raw message
and the metadata the empty object; for valid JSON of any other shape (a number, a string,
a boolean, an array, an object) the description and the metadata are the properties
`description` and `metadata` of the parsed value, `undefined` where it has none. -/
theorem decode_fallback (R : Runtime) :
    (∀ (s s' : Repo) (history : List Attempt),
        GitDB.getAttemptHistory R s = (Except.ok history, s') →
        history = (s.logOf s.head).map (decodeCommit R)) ∧
      (∀ (commitHash : String) (s s' : Repo) (attempt : Attempt) (diff : String),
        GitDB.retrieveAttempt R commitHash s = (Except.ok (attempt, diff), s') →
        ∃ c, s.findCommit commitHash = some c ∧ attempt = decodeCommit R c) ∧
      (∀ c : Commit, R.parse c.message = none ∨ R.parse c.message = some JSValue.null →
        decodeCommit R c = ⟨c.hash, c.date, JSValue.string c.message, JSValue.object []⟩) ∧
      (∀ (c : Commit) (v : JSValue), R.parse c.message = some v →
        v ≠ JSValue.null → v ≠ JSValue.undefined →
        decodeCommit R c = ⟨c.hash, c.date, v.get "description", v.get "metadata"⟩ ∧
        ((∀ fields, v ≠ JSValue.object fields) →
          v.get "description" = JSValue.undefined ∧ v.get "metadata" = JSValue.undefined)) := by
  refine ⟨fun s s' history h => getAttemptHistory_ok R s s' history h,
    fun commitHash s s' attempt diff h => retrieveAttempt_ok R commitHash s s' attempt diff h,
    ?_, ?_⟩
  · intro c h
    unfold decodeCommit
    rcases h with h | h <;> rw [h]
  · intro c v hv hnull hundef
    constructor
    · unfold decodeCommit
      rw [hv]
      cases v with
      | null => exact absurd rfl hnull
      | undefined => exact absurd rfl hundef
      | _ => rfl
    · intro hobj
      cases v with
      | object fields => exact absurd rfl (hobj fields)
      | _ => exact ⟨rfl, rfl⟩

/-- Witness of C19, amended: the plain-text message of the root snapshot of
`exampleRepo`, which is not JSON. -/
theorem decode_fallback_witness :
    decodeCommit (exampleRuntime JSValue.null) exampleCommit =
      ⟨"c0", "0", JSValue.string "Initial commit", JSValue.object []⟩ :=
  (decode_fallback (exampleRuntime JSValue.null)).2.2.1 exampleCommit (Or.inl rfl)

/-- C20. `getAttemptHistory` returns one attempt per snapshot of the active space, in the
backend's newest-first order, each with the hash of its snapshot; and after saving the
attempts A1, A2, A3 in that order into the active space of a store where no call fails,
it lists A3, then A2, then A1, then the attempts the space held before. -/
theorem history_newest_first (R : Runtime) :
    (∀ (s s' : Repo) (history : List Attempt),
        GitDB.getAttemptHistory R s = (Except.ok history, s') →
        history = (s.logOf s.head).map (decodeCommit R) ∧
          history.map (fun a => a.hash) = (s.logOf s.head).map (fun c => c.hash)) ∧
      (∀ (s : Repo) (d1 d2 d3 : String) (m1 m2 m3 : List (String × JSValue)),
        s.faults = [] → s.hasBranch s.head = true →
        ∃ h1 h2 h3 t1 t2 t3 s1 s2 s3 s4,
          GitDB.saveAttempt R d1 (JSValue.object m1) s = (Except.ok h1, s1) ∧
          GitDB.saveAttempt R d2 (JSValue.object m2) s1 = (Except.ok h2, s2) ∧
          GitDB.saveAttempt R d3 (JSValue.object m3) s2 = (Except.ok h3, s3) ∧
          GitDB.getAttemptHistory R s3 =
            (Except.ok (
              decodeCommit R ⟨h3, t3, R.stringify (JSValue.object
                [("description", JSValue.string d3), ("metadata", JSValue.object m3)])⟩ ::
              decodeCommit R ⟨h2, t2, R.stringify (JSValue.object
                [("description", JSValue.string d2), ("metadata", JSValue.object m2)])⟩ ::
              decodeCommit R ⟨h1, t1, R.stringify (JSValue.object
                [("description", JSValue.string d1), ("metadata", JSValue.object m1)])⟩ ::
              (s.logOf s.head).map (decodeCommit R)), s4)) := by
  constructor
  · intro s s' history h
    have := getAttemptHistory_ok R s s' history h
    refine ⟨this, ?_⟩
    rw [this, List.map_map]
    congr 1
    funext c
    exact decodeCommit_hash R c
  · intro s d1 d2 d3 m1 m2 m3 hf hb
    obtain ⟨s1, hr1, hf1, hh1, hb1, _, hl1, _⟩ := saveAttempt_run R d1 m1 s hf hb
    obtain ⟨s2, hr2, hf2, hh2, hb2, _, hl2, _⟩ := saveAttempt_run R d2 m2 s1 hf1 hb1
    obtain ⟨s3, hr3, hf3, hh3, hb3, _, hl3, _⟩ := saveAttempt_run R d3 m3 s2 hf2 hb2
    refine ⟨_, _, _, toString s.clock, toString s1.clock, toString s2.clock,
      s1, s2, s3, s3, hr1, hr2, hr3, ?_⟩
    rw [getAttemptHistory_run R s3 hf3, hl3, hl2, hl1]
    rfl

/-- Witness of C20: three attempts saved on `exampleRepo`. -/
theorem history_newest_first_witness :
    ∃ h1 h2 h3 t1 t2 t3 s1 s2 s3 s4,
      GitDB.saveAttempt (exampleRuntime JSValue.null) "A1" (JSValue.object []) exampleRepo =
        (Except.ok h1, s1) ∧
      GitDB.saveAttempt (exampleRuntime JSValue.null) "A2" (JSValue.object []) s1 =
        (Except.ok h2, s2) ∧
      GitDB.saveAttempt (exampleRuntime JSValue.null) "A3" (JSValue.object []) s2 =
        (Except.ok h3, s3) ∧
      GitDB.getAttemptHistory (exampleRuntime JSValue.null) s3 =
        (Except.ok (
          decodeCommit (exampleRuntime JSValue.null) ⟨h3, t3,
            (exampleRuntime JSValue.null).stringify (JSValue.object
              [("description", JSValue.string "A3"), ("metadata", JSValue.object [])])⟩ ::
          decodeCommit (exampleRuntime JSValue.null) ⟨h2, t2,
            (exampleRuntime JSValue.null).stringify (JSValue.object
              [("description", JSValue.string "A2"), ("metadata", JSValue.object [])])⟩ ::
          decodeCommit (exampleRuntime JSValue.null) ⟨h1, t1,
            (exampleRuntime JSValue.null).stringify (JSValue.object
              [("description", JSValue.string "A1"), ("metadata", JSValue.object [])])⟩ ::
          (exampleRepo.logOf exampleRepo.head).map
            (decodeCommit (exampleRuntime JSValue.null))), s4) :=
  (history_newest_first (exampleRuntime JSValue.null)).2 exampleRepo "A1" "A2" "A3" [] [] []
    rfl rfl


/-! ## Specifications of awaited calls -/

theorem Triple.bind {α β : Type} {P : Repo → Prop} {x : Git α} {f : α → Git β}
    {Q : α → Repo → Prop} {Q' : β → Repo → Prop} {E : Repo → Prop}
    (hx : Triple P x Q E) (hf : ∀ a, Triple (Q a) (f a) Q' E) : Triple P (x >>= f) Q' E := by
  intro s hs
  have h1 := hx s hs
  rw [Git.bind_run]
  rcases hxs : x s with ⟨e | a, s1⟩
  · rw [hxs] at h1; exact h1
  · rw [hxs] at h1; exact hf a s1 h1

theorem Triple.tryCatch {α : Type} {P : Repo → Prop} {x : Git α} {h : JSError → Git α}
    {Q : α → Repo → Prop} {D E : Repo → Prop}
    (hx : Triple P x Q D) (hh : ∀ e, Triple D (h e) Q E) : Triple P (tryCatch x h) Q E := by
  intro s hs
  have h1 := hx s hs
  rw [Git.tryCatch_run]
  rcases hxs : x s with ⟨e | a, s1⟩
  · rw [hxs] at h1; exact hh e s1 h1
  · rw [hxs] at h1; exact h1

theorem Triple.pure {α : Type} {P : Repo → Prop} {a : α} {Q : α → Repo → Prop}
    {E : Repo → Prop} (h : ∀ s, P s → Q a s) : Triple P (pure a : Git α) Q E :=
  fun s hs => h s hs

theorem Triple.throw {α : Type} {P : Repo → Prop} {e : JSError} {Q : α → Repo → Prop}
    {E : Repo → Prop} (h : ∀ s, P s → E s) : Triple P (throw e : Git α) Q E :=
  fun s hs => h s hs

theorem Triple.weaken {α : Type} {P P' : Repo → Prop} {x : Git α}
    {Q Q' : α → Repo → Prop} {E E' : Repo → Prop} (hx : Triple P x Q E)
    (hP : ∀ s, P' s → P s) (hQ : ∀ a s, Q a s → Q' a s) (hE : ∀ s, E s → E' s) :
    Triple P' x Q' E' := by
  intro s hs
  have h1 := hx s (hP s hs)
  rcases hxs : x s with ⟨e | a, s1⟩
  · rw [hxs] at h1; exact hE _ h1
  · rw [hxs] at h1; exact hQ _ _ h1

/-- The environment's part of a call: it takes one entry off the plan; the call goes
through and the number of planned failures is the same, or it throws and one planned
failure is spent. -/
theorem environment_cases (origin : String) (s : Repo) :
    (environment origin s = (Except.ok (), { s with faults := s.faults.tail }) ∧
        ({ s with faults := s.faults.tail } : Repo).failures = s.failures) ∨
      (∃ m, environment origin s =
          (Except.error ⟨origin, m⟩, { s with faults := s.faults.tail }) ∧
        ({ s with faults := s.faults.tail } : Repo).failures + 1 = s.failures) := by
  obtain ⟨hd, bs, fl, fs, ck⟩ := s
  rcases fs with _ | ⟨_ | m, rest⟩
  · left; exact ⟨rfl, rfl⟩
  · left; exact ⟨rfl, rfl⟩
  · right; exact ⟨m, rfl, rfl⟩

/-- A call that only consults the environment, under a budget of `k` planned failures
and a condition `F` on the active lineage, the lineages and the files. -/
theorem environment_triple (origin : String) (k : Nat)
    (F : String → List (String × List Commit) → List (String × String) → Prop) :
    Triple (fun s => s.failures ≤ k ∧ F s.head s.branches s.files) (environment origin)
      (fun _ s => s.failures ≤ k ∧ F s.head s.branches s.files)
      (fun s => s.failures + 1 ≤ k ∧ F s.head s.branches s.files) := by
  intro s hs
  rcases environment_cases origin s with ⟨he, hfl⟩ | ⟨m, he, hfl⟩
  · rw [he]
    exact ⟨by rw [hfl]; exact hs.1, hs.2⟩
  · rw [he]
    exact ⟨by rw [hfl]; exact hs.1, hs.2⟩


theorem hasBranch_filter_ne (branches : List (String × List Commit)) (name b : String)
    (hne : name ≠ b) :
    (branches.filter (fun x => x.1 != b)).any (fun x => x.1 == name) =
      branches.any (fun x => x.1 == name) := by
  rw [List.any_filter]
  congr 1
  funext x
  by_cases hx : x.1 = name
  · have hxb : ¬ x.1 = b := fun h => hne (hx ▸ h)
    simp [hx, hxb, hne]
  · simp [hx]

/-- The clean-up of `createSolution` and `combineSolutions`, started with a quiet plan and
the home space among the lineages, ends with the disposable space deleted. -/
theorem cleanup_deletes {α : Type} (home b : String) (error : JSError) (hne : home ≠ b) :
    Triple (QuietHome home)
      ((do
        checkout home
        tryCatch (deleteLocalBranch b) (fun _ => pure ())
        throw error) : Git α)
      (fun _ _ => False) (fun s => s.hasBranch b = false) := by
  intro s hs
  obtain ⟨hq, hh⟩ := hs
  have henv : ∀ (o : String) (t : Repo), t.failures = 0 →
      environment o t = (Except.ok (), { t with faults := t.faults.tail }) ∧
        ({ t with faults := t.faults.tail } : Repo).failures = 0 := by
    intro o t ht
    rcases environment_cases o t with ⟨he, hfl⟩ | ⟨m, he, hfl⟩
    · exact ⟨he, by rw [hfl]; exact ht⟩
    · omega
  obtain ⟨he1, hq1⟩ := henv "checkout" s hq
  have hh1 : ({ s with faults := s.faults.tail } : Repo).hasBranch home = true := hh
  obtain ⟨he2, _⟩ := henv "deleteLocalBranch"
    { s with faults := s.faults.tail, head := home } hq1
  simp only [Git.bind_run, checkout, he1, hh1, if_true, Git.tryCatch_run, deleteLocalBranch,
    he2, Git.throw_run, Git.pure_run]
  by_cases hb : s.hasBranch b = true
  · have hb1 : ({ s with faults := s.faults.tail.tail, head := home } : Repo).hasBranch b
        = true := hb
    have hbne : (b != home) = true := by simpa using (Ne.symm hne)
    simp only [hb1, hbne, Bool.and_self, if_true]
    exact hasBranch_filter _ _
  · have hb0 : s.hasBranch b = false := by simpa using hb
    have hb1 : ({ s with faults := s.faults.tail.tail, head := home } : Repo).hasBranch b
        = false := hb0
    simp only [hb1, Bool.false_and, Bool.false_eq_true, if_false]


/-- When the `try` block of `createSolution` or `combineSolutions` returns, its last step
has deleted the disposable space. -/
theorem restore_tail_deletes {α : Type} (cb b : String) (a : α) (s s' : Repo) (x : α)
    (h : ((do
      checkout cb
      deleteLocalBranch b
      return a) : Git α) s = (Except.ok x, s')) : s'.hasBranch b = false := by
  obtain ⟨u, s1, h1, h⟩ := Git.bind_ok h
  obtain ⟨_, s2, h2, h⟩ := Git.bind_ok h
  obtain ⟨_, _, hf⟩ := deleteLocalBranch_ok _ _ _ _ h2
  have e3 : s' = s2 := ((Prod.mk.inj h).2).symm
  rw [e3]
  unfold Repo.hasBranch
  rw [hf]
  exact hasBranch_filter _ _

theorem createSolution_ok_deletes (pe : PatchExplorer) (name : String) (modifier : Git Unit)
    (s s' : Repo) (path : String)
    (h : pe.createSolution name modifier s = (Except.ok path, s')) :
    s'.hasBranch ("solution/" ++ name) = false := by
  unfold PatchExplorer.createSolution at h
  rw [Git.tryCatch_run] at h
  split at h
  · next a s1 hb =>
    obtain ⟨_, _, _, hb⟩ := Git.bind_ok hb
    obtain ⟨_, _, _, hb⟩ := Git.bind_ok hb
    obtain ⟨_, _, _, hb⟩ := Git.bind_ok hb
    obtain ⟨_, _, _, hb⟩ := Git.bind_ok hb
    obtain ⟨_, _, _, hb⟩ := Git.bind_ok hb
    obtain ⟨_, _, _, hb⟩ := Git.bind_ok hb
    have := restore_tail_deletes _ _ _ _ _ _ hb
    rw [← (Prod.mk.inj h).2]; exact this
  · next e s1 hb =>
    rw [Git.bind_run] at h
    rcases hc : checkout pe.currentBranch s1 with ⟨e1 | u, s2⟩
    · rw [hc] at h; simp at h
    · rw [hc] at h
      simp only [Git.bind_run, Git.tryCatch_run] at h
      rcases hd : deleteLocalBranch ("solution/" ++ name) s2 with ⟨e2 | u2, s3⟩
      · rw [hd] at h; simp [Git.pure_run, Git.throw_run] at h
      · rw [hd] at h; simp [Git.throw_run] at h

theorem combineSolutions_ok_deletes (pe : PatchExplorer) (names : List String)
    (outputName : String) (s s' : Repo) (path : String)
    (h : pe.combineSolutions names outputName s = (Except.ok path, s')) :
    s'.hasBranch ("combine/" ++ outputName) = false := by
  unfold PatchExplorer.combineSolutions at h
  rw [Git.tryCatch_run] at h
  split at h
  · next a s1 hb =>
    obtain ⟨_, _, _, hb⟩ := Git.bind_ok hb
    obtain ⟨_, _, _, hb⟩ := Git.bind_ok hb
    obtain ⟨_, _, _, hb⟩ := Git.bind_ok hb
    obtain ⟨_, _, _, hb⟩ := Git.bind_ok hb
    obtain ⟨_, _, _, hb⟩ := Git.bind_ok hb
    obtain ⟨_, _, _, hb⟩ := Git.bind_ok hb
    have := restore_tail_deletes _ _ _ _ _ _ hb
    rw [← (Prod.mk.inj h).2]; exact this
  · next e s1 hb =>
    rw [Git.bind_run] at h
    rcases hc : checkout pe.currentBranch s1 with ⟨e1 | u, s2⟩
    · rw [hc] at h; simp at h
    · rw [hc] at h
      simp only [Git.bind_run, Git.tryCatch_run] at h
      rcases hd : deleteLocalBranch ("combine/" ++ outputName) s2 with ⟨e2 | u2, s3⟩
      · rw [hd] at h; simp [Git.pure_run, Git.throw_run] at h
      · rw [hd] at h; simp [Git.throw_run] at h


/-! ### With a quiet plan -/

theorem quiet_environment (home origin : String) :
    Triple (QuietHome home) (environment origin) (fun _ => QuietHome home) (QuietHome home) := by
  intro s hs
  rcases environment_cases origin s with ⟨he, hfl⟩ | ⟨m, he, hfl⟩
  · rw [he]; exact ⟨by rw [hfl]; exact hs.1, hs.2⟩
  · have := hs.1; omega

/-- A step that follows the environment's part and leaves the fault plan alone. -/
theorem quiet_step {α : Type} (home origin : String) (g : Git α)
    (hg : ∀ t, t.hasBranch home = true →
      (g t).2.faults = t.faults ∧ (g t).2.hasBranch home = true) :
    Triple (QuietHome home) (environment origin >>= fun _ => g) (fun _ => QuietHome home)
      (QuietHome home) := by
  refine Triple.bind (quiet_environment home origin) (fun _ t ht => ?_)
  obtain ⟨h1, h2⟩ := hg t ht.2
  have hq : (g t).2.failures = 0 := by
    unfold Repo.failures; rw [h1]; exact ht.1
  rcases hgt : g t with ⟨e | a, t'⟩
  · rw [hgt] at hq h2; exact ⟨hq, h2⟩
  · rw [hgt] at hq h2; exact ⟨hq, h2⟩

theorem quiet_checkoutLocalBranch (home b : String) :
    Triple (QuietHome home) (checkoutLocalBranch b) (fun _ => QuietHome home)
      (QuietHome home) := by
  unfold checkoutLocalBranch
  refine quiet_step home _ _ (fun t ht => ?_)
  by_cases hb : t.hasBranch b = true
  · simp only [hb, if_true]; exact ⟨trivial, ht⟩
  · simp only [hb, if_false, Bool.false_eq_true]
    refine ⟨trivial, ?_⟩
    unfold Repo.hasBranch at ht ⊢
    simp only [List.any_append, ht, Bool.true_or]

theorem quiet_checkout (home name : String) :
    Triple (QuietHome home) (checkout name) (fun _ => QuietHome home) (QuietHome home) := by
  unfold checkout
  refine quiet_step home _ _ (fun t ht => ?_)
  by_cases hb : t.hasBranch name = true
  · simp only [hb, if_true]; exact ⟨trivial, ht⟩
  · simp only [hb, if_false, Bool.false_eq_true]; exact ⟨trivial, ht⟩

theorem quiet_add (home : String) :
    Triple (QuietHome home) add (fun _ => QuietHome home) (QuietHome home) :=
  quiet_environment home "add"

theorem quiet_commit (home message : String) :
    Triple (QuietHome home) (commit message) (fun _ => QuietHome home) (QuietHome home) := by
  unfold commit
  refine quiet_step home _ _ (fun t ht => ⟨rfl, ?_⟩)
  unfold Repo.hasBranch at ht ⊢
  simp only
  rw [hasBranch_map_commit]; exact ht

theorem quiet_formatPatch (home : String) :
    Triple (QuietHome home) formatPatch (fun _ => QuietHome home) (QuietHome home) := by
  unfold formatPatch
  refine quiet_step home _ _ (fun t ht => ?_)
  cases t.logOf t.head with
  | nil => exact ⟨rfl, ht⟩
  | cons c cs => exact ⟨rfl, ht⟩

theorem quiet_writeFile (home path content : String) :
    Triple (QuietHome home) (writeFile path content) (fun _ => QuietHome home)
      (QuietHome home) := by
  unfold writeFile
  exact quiet_step home _ _ (fun t ht => ⟨rfl, ht⟩)

theorem quiet_applyPatch (home path : String) :
    Triple (QuietHome home) (applyPatch path) (fun _ => QuietHome home) (QuietHome home) := by
  unfold applyPatch
  refine quiet_step home _ _ (fun t ht => ?_)
  by_cases hb : t.files.any (fun f => f.1 == path) = true
  · simp only [hb, if_true]; exact ⟨trivial, ht⟩
  · simp only [hb, if_false, Bool.false_eq_true]; exact ⟨trivial, ht⟩

theorem quiet_deleteLocalBranch (home b : String) (hne : home ≠ b) :
    Triple (QuietHome home) (deleteLocalBranch b) (fun _ => QuietHome home)
      (QuietHome home) := by
  unfold deleteLocalBranch
  refine quiet_step home _ _ (fun t ht => ?_)
  by_cases hb : (t.hasBranch b && b != t.head) = true
  · simp only [hb, if_true]
    refine ⟨trivial, ?_⟩
    unfold Repo.hasBranch at ht ⊢
    simp only
    rw [hasBranch_filter_ne _ _ _ hne]; exact ht
  · simp only [hb, if_false, Bool.false_eq_true]; exact ⟨trivial, ht⟩

theorem quiet_applyAll (pe : PatchExplorer) (home : String) (names : List String) :
    Triple (QuietHome home) (pe.applyAll names) (fun _ => QuietHome home) (QuietHome home) := by
  induction names with
  | nil => exact Triple.pure (fun s hs => hs)
  | cons name rest ih =>
    unfold PatchExplorer.applyAll
    exact Triple.bind (quiet_applyPatch home _) (fun _ => ih)

/-- A modifier that makes no backend call and leaves the lineages alone keeps the plan
quiet and the home space among the lineages, whether it returns or throws. -/
theorem quiet_modifier (home : String) (modifier : Git Unit)
    (hmod : ∀ t, (modifier t).2.faults = t.faults ∧ (modifier t).2.branches = t.branches) :
    Triple (QuietHome home) modifier (fun _ => QuietHome home) (QuietHome home) := by
  intro s hs
  obtain ⟨hf, hb⟩ := hmod s
  have hq : (modifier s).2.failures = 0 := by
    unfold Repo.failures; rw [hf]; exact hs.1
  have hh : (modifier s).2.hasBranch home = true := by
    unfold Repo.hasBranch; rw [hb]; exact hs.2
  rcases hm : modifier s with ⟨e | u, s'⟩
  · rw [hm] at hq hh; exact ⟨hq, hh⟩
  · rw [hm] at hq hh; exact ⟨hq, hh⟩

theorem createSolution_quiet (pe : PatchExplorer) (name : String) (modifier : Git Unit)
    (hne : pe.currentBranch ≠ "solution/" ++ name)
    (hmod : ∀ t, (modifier t).2.faults = t.faults ∧ (modifier t).2.branches = t.branches) :
    Triple (QuietHome pe.currentBranch) (pe.createSolution name modifier)
      (fun _ _ => True) (fun s => s.hasBranch ("solution/" ++ name) = false) := by
  unfold PatchExplorer.createSolution
  refine Triple.tryCatch (D := QuietHome pe.currentBranch) ?_
    (fun e => (cleanup_deletes pe.currentBranch _ e hne).weaken (fun _ h => h)
      (fun _ _ h => h.elim) (fun _ h => h))
  refine Triple.bind (quiet_checkoutLocalBranch _ _) (fun _ => ?_)
  refine Triple.bind (quiet_modifier _ modifier hmod) (fun _ => ?_)
  refine Triple.bind (quiet_add _) (fun _ => ?_)
  refine Triple.bind (quiet_commit _ _) (fun _ => ?_)
  refine Triple.bind (quiet_formatPatch _) (fun _ => ?_)
  refine Triple.bind (quiet_writeFile _ _ _) (fun _ => ?_)
  refine Triple.bind (quiet_checkout _ _) (fun _ => ?_)
  refine Triple.bind (quiet_deleteLocalBranch _ _ hne) (fun _ => ?_)
  exact Triple.pure (fun _ _ => trivial)

theorem combineSolutions_quiet (pe : PatchExplorer) (names : List String) (outputName : String)
    (hne : pe.currentBranch ≠ "combine/" ++ outputName) :
    Triple (QuietHome pe.currentBranch) (pe.combineSolutions names outputName)
      (fun _ _ => True) (fun s => s.hasBranch ("combine/" ++ outputName) = false) := by
  unfold PatchExplorer.combineSolutions
  refine Triple.tryCatch (D := QuietHome pe.currentBranch) ?_
    (fun e => (cleanup_deletes pe.currentBranch _ e hne).weaken (fun _ h => h)
      (fun _ _ h => h.elim) (fun _ h => h))
  refine Triple.bind (quiet_checkoutLocalBranch _ _) (fun _ => ?_)
  refine Triple.bind (quiet_applyAll pe _ names) (fun _ => ?_)
  refine Triple.bind (quiet_add _) (fun _ => ?_)
  refine Triple.bind (quiet_commit _ _) (fun _ => ?_)
  refine Triple.bind (quiet_formatPatch _) (fun _ => ?_)
  refine Triple.bind (quiet_writeFile _ _ _) (fun _ => ?_)
  refine Triple.bind (quiet_checkout _ _) (fun _ => ?_)
  refine Triple.bind (quiet_deleteLocalBranch _ _ hne) (fun _ => ?_)
  exact Triple.pure (fun _ _ => trivial)


/-! ### With one planned failure to spare -/

/-- A backend call under a budget of one planned failure whose own part cannot fail: it
returns within the budget, or the environment made it throw and the plan is quiet. -/
theorem spare_step {α : Type} (home origin : String) (g : Git α) (P : Repo → Prop)
    (Q : α → Repo → Prop) (hP : ∀ s, P s → s.hasBranch home = true)
    (hpop : ∀ s, P s → P { s with faults := s.faults.tail })
    (hg : ∀ t, t.failures ≤ 1 → P t →
      match g t with
      | (Except.ok a, t') => t'.failures ≤ 1 ∧ Q a t'
      | (Except.error _, _) => False) :
    Triple (fun s => s.failures ≤ 1 ∧ P s) (environment origin >>= fun _ => g)
      (fun a s => s.failures ≤ 1 ∧ Q a s) (QuietHome home) := by
  refine Triple.bind (Q := fun _ s => s.failures ≤ 1 ∧ P s) ?_ (fun _ t ht => ?_)
  · intro s hs
    rcases environment_cases origin s with ⟨he, hfl⟩ | ⟨m, he, hfl⟩
    · rw [he]; exact ⟨by rw [hfl]; exact hs.1, hpop s hs.2⟩
    · rw [he]
      have := hs.1
      exact ⟨by omega, hP _ (hpop s hs.2)⟩
  · have h := hg t ht.1 ht.2
    rcases hgt : g t with ⟨e | a, t'⟩
    · rw [hgt] at h; exact h.elim
    · rw [hgt] at h; exact h

theorem spare_checkoutLocalBranch (home b : String) (G : List (String × String) → Prop) :
    Triple (fun s => s.failures ≤ 1 ∧
        (s.hasBranch home = true ∧ s.hasBranch b = false ∧ G s.files))
      (checkoutLocalBranch b) (fun _ s => s.failures ≤ 1 ∧ (Entered home b s ∧ G s.files))
      (QuietHome home) := by
  unfold checkoutLocalBranch
  refine spare_step home _ _ _ _ (fun s h => h.1) (fun s h => h) (fun t ht hp => ?_)
  obtain ⟨hh, hb, hG⟩ := hp
  simp only [hb, Bool.false_eq_true, if_false]
  refine ⟨ht, ⟨?_, ?_, rfl⟩, hG⟩
  · unfold Repo.hasBranch at hh ⊢
    simp only [List.any_append, hh, Bool.true_or]
  · unfold Repo.hasBranch
    simp only [List.any_append, List.any_cons, beq_self_eq_true, Bool.true_or, Bool.or_true]

theorem spare_enter_files {α : Type} {home b : String} {x : Git α}
    {G : List (String × String) → Prop} {Q : α → Repo → Prop} {E : Repo → Prop}
    (h : Triple (fun s => s.failures ≤ 1 ∧ Entered home b s) x Q E) :
    Triple (fun s => s.failures ≤ 1 ∧ (Entered home b s ∧ G s.files)) x Q E :=
  h.weaken (fun _ hs => ⟨hs.1, hs.2.1⟩) (fun _ _ hq => hq) (fun _ he => he)

theorem spare_add (home b : String) :
    Triple (fun s => s.failures ≤ 1 ∧ Entered home b s) add
      (fun _ s => s.failures ≤ 1 ∧ Entered home b s) (QuietHome home) := by
  intro s hs
  unfold add
  rcases environment_cases "add" s with ⟨he, hfl⟩ | ⟨m, he, hfl⟩
  · rw [he]; exact ⟨by rw [hfl]; exact hs.1, hs.2⟩
  · rw [he]
    have := hs.1
    exact ⟨by omega, hs.2.1⟩

theorem spare_commit (home b message : String) :
    Triple (fun s => s.failures ≤ 1 ∧ Entered home b s) (commit message)
      (fun _ s => s.failures ≤ 1 ∧ (Entered home b s ∧ s.logOf s.head ≠ []))
      (QuietHome home) := by
  unfold commit
  refine spare_step home _ _ _ _ (fun s h => h.1) (fun s h => h) (fun t ht hp => ?_)
  obtain ⟨hh, hb, hd⟩ := hp
  refine ⟨ht, ⟨?_, ?_, hd⟩, ?_⟩
  · unfold Repo.hasBranch at hh ⊢
    simp only
    rw [hasBranch_map_commit]; exact hh
  · unfold Repo.hasBranch at hb ⊢
    simp only
    rw [hasBranch_map_commit]; exact hb
  · have hbh : t.branches.any (fun x => x.1 == t.head) = true := by
      rw [hd]; exact hb
    unfold Repo.logOf
    simp only
    rw [logOf_map_commit _ _ _ hbh]
    exact List.cons_ne_nil _ _

theorem spare_formatPatch (home b : String) :
    Triple (fun s => s.failures ≤ 1 ∧ (Entered home b s ∧ s.logOf s.head ≠ [])) formatPatch
      (fun _ s => s.failures ≤ 1 ∧ Entered home b s) (QuietHome home) := by
  unfold formatPatch
  refine spare_step home _ _ _ _ (fun s h => h.1.1) (fun s h => h) (fun t ht hp => ?_)
  obtain ⟨he, hl⟩ := hp
  rcases hlog : t.logOf t.head with _ | ⟨c, cs⟩
  · exact absurd hlog hl
  · exact ⟨ht, he⟩

theorem spare_writeFile (home b path content : String) :
    Triple (fun s => s.failures ≤ 1 ∧ Entered home b s) (writeFile path content)
      (fun _ s => s.failures ≤ 1 ∧ Entered home b s) (QuietHome home) := by
  unfold writeFile
  exact spare_step home _ _ _ _ (fun s h => h.1) (fun s h => h)
    (fun t ht hp => ⟨ht, hp⟩)

theorem spare_checkout (home b : String) :
    Triple (fun s => s.failures ≤ 1 ∧ Entered home b s) (checkout home)
      (fun _ s => s.failures ≤ 1 ∧
        (s.hasBranch home = true ∧ s.hasBranch b = true ∧ s.head = home))
      (QuietHome home) := by
  unfold checkout
  refine spare_step home _ _ _ _ (fun s h => h.1) (fun s h => h) (fun t ht hp => ?_)
  obtain ⟨hh, hb, _⟩ := hp
  simp only [hh, if_true]
  exact ⟨ht, hh, hb, trivial⟩

theorem spare_deleteLocalBranch (home b : String) (hne : home ≠ b) :
    Triple (fun s => s.failures ≤ 1 ∧
        (s.hasBranch home = true ∧ s.hasBranch b = true ∧ s.head = home))
      (deleteLocalBranch b) (fun _ s => s.failures ≤ 1 ∧ True) (QuietHome home) := by
  unfold deleteLocalBranch
  refine spare_step home _ _ _ _ (fun s h => h.1) (fun s h => h) (fun t ht hp => ?_)
  obtain ⟨hh, hb, hd⟩ := hp
  have hbne : (b != t.head) = true := by rw [hd]; simpa using (Ne.symm hne)
  simp only [hb, hbne, Bool.and_self, if_true]
  exact ⟨ht, trivial⟩

theorem spare_applyPatch (home b path : String) (G : List (String × String) → Prop)
    (hG : ∀ fs, G fs → fs.any (fun f => f.1 == path) = true) :
    Triple (fun s => s.failures ≤ 1 ∧ (Entered home b s ∧ G s.files)) (applyPatch path)
      (fun _ s => s.failures ≤ 1 ∧ (Entered home b s ∧ G s.files)) (QuietHome home) := by
  unfold applyPatch
  refine spare_step home _ _ _ _ (fun s h => h.1.1) (fun s h => h) (fun t ht hp => ?_)
  simp only [hG _ hp.2, if_true]
  exact ⟨ht, hp⟩

theorem spare_applyAll (pe : PatchExplorer) (home b : String) (names all : List String)
    (hsub : ∀ n ∈ names, n ∈ all) :
    Triple
      (fun s => s.failures ≤ 1 ∧ (Entered home b s ∧
        ∀ n ∈ all, s.files.any (fun f => f.1 == pe.patchPath n) = true))
      (pe.applyAll names)
      (fun _ s => s.failures ≤ 1 ∧ (Entered home b s ∧
        ∀ n ∈ all, s.files.any (fun f => f.1 == pe.patchPath n) = true))
      (QuietHome home) := by
  induction names with
  | nil => exact Triple.pure (fun s hs => hs)
  | cons name rest ih =>
    unfold PatchExplorer.applyAll
    refine Triple.bind (spare_applyPatch home b (pe.patchPath name)
      (fun fs => ∀ n ∈ all, fs.any (fun f => f.1 == pe.patchPath n) = true) (fun fs h => ?_))
      (fun _ => ih (fun n hn => hsub n (List.mem_cons_of_mem _ hn)))
    exact h name (hsub name (List.mem_cons_self _ _))

/-- A modifier that returns and leaves the plan, the lineages and the active lineage
alone keeps every condition on them. -/
theorem spare_modifier (home b : String) (modifier : Git Unit)
    (hmod : ∀ t, ∃ t', modifier t = (Except.ok (), t') ∧ t'.faults = t.faults ∧
      t'.branches = t.branches ∧ t'.head = t.head) :
    Triple (fun s => s.failures ≤ 1 ∧ (Entered home b s ∧ True)) modifier
      (fun _ s => s.failures ≤ 1 ∧ Entered home b s) (QuietHome home) := by
  intro s hs
  obtain ⟨t', hm, hf, hb, hd⟩ := hmod s
  rw [hm]
  obtain ⟨hq, ⟨hh, hbb, hhead⟩, _⟩ := hs
  refine ⟨?_, ?_, ?_, ?_⟩
  · unfold Repo.failures at hq ⊢; rw [hf]; exact hq
  · unfold Repo.hasBranch at hh ⊢; rw [hb]; exact hh
  · unfold Repo.hasBranch at hbb ⊢; rw [hb]; exact hbb
  · rw [hd]; exact hhead

theorem createSolution_spare (pe : PatchExplorer) (name : String) (modifier : Git Unit)
    (hmod : ∀ t, ∃ t', modifier t = (Except.ok (), t') ∧ t'.faults = t.faults ∧
      t'.branches = t.branches ∧ t'.head = t.head) :
    Triple
      (fun s => s.failures ≤ 1 ∧ (s.hasBranch pe.currentBranch = true ∧
        s.hasBranch ("solution/" ++ name) = false ∧ True))
      (pe.createSolution name modifier)
      (fun _ _ => True) (fun s => s.hasBranch ("solution/" ++ name) = false) := by
  by_cases hne : pe.currentBranch = "solution/" ++ name
  · intro s hs
    rw [hne] at hs
    have h1 := hs.2.1
    rw [hs.2.2.1] at h1
    exact absurd h1 (by decide)
  unfold PatchExplorer.createSolution
  refine Triple.tryCatch (D := QuietHome pe.currentBranch) ?_
    (fun e => (cleanup_deletes pe.currentBranch _ e hne).weaken (fun _ h => h)
      (fun _ _ h => h.elim) (fun _ h => h))
  refine Triple.bind (spare_checkoutLocalBranch _ _ (fun _ => True)) (fun _ => ?_)
  refine Triple.bind (spare_modifier _ _ modifier hmod) (fun _ => ?_)
  refine Triple.bind (spare_add _ _) (fun _ => ?_)
  refine Triple.bind (spare_commit _ _ _) (fun _ => ?_)
  refine Triple.bind (spare_formatPatch _ _) (fun _ => ?_)
  refine Triple.bind (spare_writeFile _ _ _ _) (fun _ => ?_)
  refine Triple.bind (spare_checkout _ _) (fun _ => ?_)
  refine Triple.bind (spare_deleteLocalBranch _ _ hne) (fun _ => ?_)
  exact Triple.pure (fun _ _ => trivial)

theorem combineSolutions_spare (pe : PatchExplorer) (names : List String)
    (outputName : String) :
    Triple
      (fun s => s.failures ≤ 1 ∧ (s.hasBranch pe.currentBranch = true ∧
        s.hasBranch ("combine/" ++ outputName) = false ∧
        ∀ n ∈ names, s.files.any (fun f => f.1 == pe.patchPath n) = true))
      (pe.combineSolutions names outputName)
      (fun _ _ => True) (fun s => s.hasBranch ("combine/" ++ outputName) = false) := by
  by_cases hne : pe.currentBranch = "combine/" ++ outputName
  · intro s hs
    rw [hne] at hs
    have h1 := hs.2.1
    rw [hs.2.2.1] at h1
    exact absurd h1 (by decide)
  unfold PatchExplorer.combineSolutions
  refine Triple.tryCatch (D := QuietHome pe.currentBranch) ?_
    (fun e => (cleanup_deletes pe.currentBranch _ e hne).weaken (fun _ h => h)
      (fun _ _ h => h.elim) (fun _ h => h))
  refine Triple.bind (spare_checkoutLocalBranch _ _
    (fun fs => ∀ n ∈ names, fs.any (fun f => f.1 == pe.patchPath n) = true)) (fun _ => ?_)
  refine Triple.bind (spare_applyAll pe _ _ names names (fun _ h => h)) (fun _ => ?_)
  refine Triple.bind (spare_enter_files
    (G := fun fs => ∀ n ∈ names, fs.any (fun f => f.1 == pe.patchPath n) = true)
    (spare_add _ _)) (fun _ => ?_)
  refine Triple.bind (spare_commit _ _ _) (fun _ => ?_)
  refine Triple.bind (spare_formatPatch _ _) (fun _ => ?_)
  refine Triple.bind (spare_writeFile _ _ _ _) (fun _ => ?_)
  refine Triple.bind (spare_checkout _ _) (fun _ => ?_)
  refine Triple.bind (spare_deleteLocalBranch _ _ hne) (fun _ => ?_)
  exact Triple.pure (fun _ _ => trivial)


/-- A call that deletes the space whenever it returns and whenever it throws from a state
of `P` leaves the space deleted, whatever the outcome. -/
theorem absent_after {α : Type} (x : Git α) (P : Repo → Prop) (b : String)
    (hok : ∀ s s' a, x s = (Except.ok a, s') → s'.hasBranch b = false)
    (ht : Triple P x (fun _ _ => True) (fun s => s.hasBranch b = false)) (s : Repo)
    (hs : P s) : (x s).2.hasBranch b = false := by
  have h := ht s hs
  rcases hx : x s with ⟨e | a, s'⟩
  · rw [hx] at h; exact h
  · exact hok s s' a hx

/-! ## The clean-up of `createSolution` and `combineSolutions` -/

/-- C12. The clean-up's restoring `checkout` is not guarded: when it fails, its error is
the one the caller gets. With a throwing modifier `createSolution` throws the modifier's
error on a store where no call fails, and the error of `checkout` when the restoring
checkout fails; with a missing patch `combineSolutions` throws the error of the patch
application, and the error of `checkout` when the restoring checkout fails. -/
theorem cleanup_checkout_replaces_primary_error :
    (exampleExplorer.createSolution "fix" failingModifier exampleRepo).1 =
        Except.error ⟨"modifier", "cannot write"⟩ ∧
      (exampleExplorer.createSolution "fix" failingModifier (conflictRepo 1)).1 =
        Except.error ⟨"checkout", "local changes would be overwritten"⟩ ∧
      (exampleExplorer.combineSolutions ["missing"] "all" exampleRepo).1 =
        Except.error ⟨"apply", "cannot open .patches/missing.patch"⟩ ∧
      (exampleExplorer.combineSolutions ["missing"] "all" (conflictRepo 2)).1 =
        Except.error ⟨"checkout", "local changes would be overwritten"⟩ :=
  ⟨rfl, rfl, rfl, rfl⟩

/-- C13, counterexample. On a store where the clean-up's deletion fails,
`createSolution` with a throwing modifier throws the modifier's error and the disposable
space `solution/fix`, which was no lineage before the call, is one after it. -/
theorem createSolution_leaves_disposable_space :
    lockedRepo.hasBranch "solution/fix" = false ∧
      (exampleExplorer.createSolution "fix" failingModifier lockedRepo).1 =
        Except.error ⟨"modifier", "cannot write"⟩ ∧
      (exampleExplorer.createSolution "fix" failingModifier lockedRepo).2.hasBranch
        "solution/fix" = true :=
  ⟨rfl, rfl, rfl⟩

/-- C13, amended. Whenever `createSolution` or `combineSolutions` returns, the disposable
space is not among the lineages. Whatever the outcome, it is not among them after the call
when no backend call fails for a reason of the environment, the home space is a lineage
other than the disposable space and the modifier makes no backend call and leaves the
lineages alone (it may throw); and when at most one backend call fails for a reason of the
environment, the home space is a lineage, the disposable space was none before the call,
the modifier returns and leaves the plan, the lineages and the active lineage alone, and
every named patch file exists. -/
theorem disposable_space_deleted (pe : PatchExplorer) (name outputName : String)
    (names : List String) (modifier : Git Unit) (s : Repo) :
    (∀ s' path, pe.createSolution name modifier s = (Except.ok path, s') →
        s'.hasBranch ("solution/" ++ name) = false) ∧
      (∀ s' path, pe.combineSolutions names outputName s = (Except.ok path, s') →
        s'.hasBranch ("combine/" ++ outputName) = false) ∧
      (s.failures = 0 → s.hasBranch pe.currentBranch = true →
        pe.currentBranch ≠ "solution/" ++ name →
        (∀ t, (modifier t).2.faults = t.faults ∧ (modifier t).2.branches = t.branches) →
        (pe.createSolution name modifier s).2.hasBranch ("solution/" ++ name) = false) ∧
      (s.failures = 0 → s.hasBranch pe.currentBranch = true →
        pe.currentBranch ≠ "combine/" ++ outputName →
        (pe.combineSolutions names outputName s).2.hasBranch ("combine/" ++ outputName)
          = false) ∧
      (s.failures ≤ 1 → s.hasBranch pe.currentBranch = true →
        s.hasBranch ("solution/" ++ name) = false →
        (∀ t, ∃ t', modifier t = (Except.ok (), t') ∧ t'.faults = t.faults ∧
          t'.branches = t.branches ∧ t'.head = t.head) →
        (pe.createSolution name modifier s).2.hasBranch ("solution/" ++ name) = false) ∧
      (s.failures ≤ 1 → s.hasBranch pe.currentBranch = true →
        s.hasBranch ("combine/" ++ outputName) = false →
        (∀ n ∈ names, s.files.any (fun f => f.1 == pe.patchPath n) = true) →
        (pe.combineSolutions names outputName s).2.hasBranch ("combine/" ++ outputName)
          = false) := by
  refine ⟨?_, ?_, ?_, ?_, ?_, ?_⟩
  · intro s' path h
    exact createSolution_ok_deletes pe name modifier s s' path h
  · intro s' path h
    exact combineSolutions_ok_deletes pe names outputName s s' path h
  · intro hq hh hne hmod
    exact absent_after _ _ _ (createSolution_ok_deletes pe name modifier)
      (createSolution_quiet pe name modifier hne hmod) s ⟨hq, hh⟩
  · intro hq hh hne
    exact absent_after _ _ _ (combineSolutions_ok_deletes pe names outputName)
      (combineSolutions_quiet pe names outputName hne) s ⟨hq, hh⟩
  · intro hq hh hb hmod
    exact absent_after _ _ _ (createSolution_ok_deletes pe name modifier)
      (createSolution_spare pe name modifier hmod) s ⟨hq, hh, hb, trivial⟩
  · intro hq hh hb hfiles
    exact absent_after _ _ _ (combineSolutions_ok_deletes pe names outputName)
      (combineSolutions_spare pe names outputName) s ⟨hq, hh, hb, hfiles⟩

/-- The example explorer: a run of `createSolution` that returns, one whose modifier
throws, one whose snapshot step fails, and runs of `combineSolutions` with a missing patch
and with a failing snapshot step all leave the disposable space deleted. -/
theorem disposable_space_deleted_witness :
    (exampleExplorer.createSolution "fix" (pure ()) exampleRepo).2.hasBranch
        ("solution/" ++ "fix") = false ∧
      (exampleExplorer.combineSolutions ["a"] "all" patchedRepo).2.hasBranch
        ("combine/" ++ "all") = false ∧
      (exampleExplorer.createSolution "fix" failingModifier exampleRepo).2.hasBranch
        ("solution/" ++ "fix") = false ∧
      (exampleExplorer.combineSolutions ["missing"] "all" exampleRepo).2.hasBranch
        ("combine/" ++ "all") = false ∧
      (exampleExplorer.createSolution "fix" (pure ()) (conflictRepo 2)).2.hasBranch
        ("solution/" ++ "fix") = false ∧
      (exampleExplorer.combineSolutions ["a"] "all"
        { patchedRepo with faults := [none, none, none, some "disk full"] }).2.hasBranch
        ("combine/" ++ "all") = false :=
  ⟨(disposable_space_deleted exampleExplorer "fix" "all" ["a"] (pure ()) exampleRepo).1
      (exampleExplorer.createSolution "fix" (pure ()) exampleRepo).2 ".patches/fix.patch" rfl,
    (disposable_space_deleted exampleExplorer "fix" "all" ["a"] (pure ()) patchedRepo).2.1
      (exampleExplorer.combineSolutions ["a"] "all" patchedRepo).2 ".patches/all.patch" rfl,
    (disposable_space_deleted exampleExplorer "fix" "all" ["a"] failingModifier
      exampleRepo).2.2.1 rfl rfl (by decide) (fun _ => ⟨rfl, rfl⟩),
    (disposable_space_deleted exampleExplorer "fix" "all" ["missing"] failingModifier
      exampleRepo).2.2.2.1 rfl rfl (by decide),
    (disposable_space_deleted exampleExplorer "fix" "all" ["a"] (pure ())
      (conflictRepo 2)).2.2.2.2.1 (by decide) rfl rfl (fun t => ⟨t, rfl, rfl, rfl, rfl⟩),
    (disposable_space_deleted exampleExplorer "fix" "all" ["a"] (pure ())
      { patchedRepo with faults := [none, none, none, some "disk full"] }).2.2.2.2.2
      (by decide) rfl rfl (by decide)⟩

/-! ## Listing of the solution spaces -/

theorem branchAll_ok (s s' : Repo) (names : List String)
    (h : branchAll s = (Except.ok names, s')) : names = s.branches.map (fun b => b.1) := by
  unfold branchAll at h
  obtain ⟨_, s0, h0, h1⟩ := Git.bind_ok h
  obtain ⟨_, hb, _, _⟩ := environment_ok _ _ _ _ h0
  simp only [Prod.mk.injEq, Except.ok.injEq] at h1
  rw [← h1.1, hb]

theorem listSolutionSpaces_ok (s s' : Repo) (spaces : List String)
    (h : GitDB.listSolutionSpaces s = (Except.ok spaces, s')) :
    spaces = (s.branches.map (fun b => b.1)).filter
      (fun branch => branch != "main" && branch != "master") := by
  unfold GitDB.listSolutionSpaces at h
  have hbody := wrap_ok _ _ _ _ _ _ h
  obtain ⟨names, s1, h1, hbody⟩ := Git.bind_ok hbody
  simp only [Git.pure_run, Prod.mk.injEq, Except.ok.injEq] at hbody
  rw [← hbody.1, branchAll_ok s s1 names h1]

/-- C23. For every list of backend lineages, whenever `listSolutionSpaces` returns, its
result is the list of lineage names with `main` and `master` filtered out: a sublist of
the backend's list, in the backend's order, that holds a name exactly when the name is a
lineage other than `main` and `master`; and on a store where no backend call fails it
does return. -/
theorem listSolutionSpaces_filters_defaults (s : Repo) :
    (∀ (s' : Repo) (spaces : List String),
        GitDB.listSolutionSpaces s = (Except.ok spaces, s') →
        spaces = (s.branches.map (fun b => b.1)).filter
          (fun branch => branch != "main" && branch != "master") ∧
        spaces.Sublist (s.branches.map (fun b => b.1)) ∧
        (∀ name, name ∈ spaces ↔
          (name ∈ s.branches.map (fun b => b.1) ∧ name ≠ "main" ∧ name ≠ "master"))) ∧
      (s.faults = [] →
        GitDB.listSolutionSpaces s =
          (Except.ok ((s.branches.map (fun b => b.1)).filter
            (fun branch => branch != "main" && branch != "master")), s)) := by
  refine ⟨?_, fun hf => listSolutionSpaces_run s hf⟩
  intro s' spaces h
  have hs := listSolutionSpaces_ok s s' spaces h
  refine ⟨hs, ?_, ?_⟩
  · rw [hs]; exact List.filter_sublist _
  · intro name
    rw [hs, List.mem_filter]
    simp only [Bool.and_eq_true, bne_iff_ne, ne_eq]

/-- The store with the lineages `main`, `exploration-path-1` and `exploration-path-2`:
`listSolutionSpaces` returns the two exploration spaces, in that order. -/
theorem listSolutionSpaces_filters_defaults_witness :
    GitDB.listSolutionSpaces pathsRepo =
        (Except.ok ["exploration-path-1", "exploration-path-2"], pathsRepo) ∧
      ("main" ∈ ["exploration-path-1", "exploration-path-2"] ↔
        ("main" ∈ pathsRepo.branches.map (fun b => b.1) ∧ "main" ≠ "main" ∧
          "main" ≠ "master")) :=
  ⟨(listSolutionSpaces_filters_defaults pathsRepo).2 rfl,
    ((listSolutionSpaces_filters_defaults pathsRepo).1 pathsRepo
      ["exploration-path-1", "exploration-path-2"] rfl).2.2 "main"⟩

/-! ## Pairwise comparison of solutions -/

theorem indexPairs_succ (n : Nat) :
    indexPairs (n + 1) =
      (List.range n).map (fun j => (0, j + 1)) ++
        (indexPairs n).map (fun p => (p.1 + 1, p.2 + 1)) := by
  unfold indexPairs
  rw [List.range_succ_eq_map]
  simp only [List.flatMap_cons, List.flatMap_map, List.filter_cons, List.filter_map,
    List.map_map, List.map_flatMap, lt_self_iff_false, decide_False, Bool.false_eq_true,
    if_false]
  congr 1
  · congr 1
    apply List.filter_eq_self.mpr
    intro a _
    simp
  · congr 1
    funext i
    simp only [Nat.not_lt_zero, decide_False, Bool.false_eq_true, if_false]
    rw [List.map_map]
    have hp : ((fun j => decide (i + 1 < j)) ∘ Nat.succ) = fun j => decide (i < j) := by
      funext j
      simp only [Function.comp, Nat.succ_eq_add_one, Nat.add_lt_add_iff_right]
    rw [hp]
    rfl

theorem indexPairs_length (n : Nat) : (indexPairs n).length * 2 = n * (n - 1) := by
  induction n with
  | zero => rfl
  | succ n ih =>
    rw [indexPairs_succ, List.length_append, List.length_map, List.length_map,
      List.length_range, Nat.add_mul, ih]
    cases n with
    | zero => rfl
    | succ m =>
      simp only [Nat.add_sub_cancel]
      ring

theorem mem_indexPairs (n i j : Nat) : (i, j) ∈ indexPairs n ↔ (i < j ∧ j < n) := by
  unfold indexPairs
  simp only [List.mem_flatMap, List.mem_range, List.mem_map, List.mem_filter,
    decide_eq_true_eq, Prod.mk.injEq]
  constructor
  · rintro ⟨a, _, b, ⟨hb, hab⟩, rfl, rfl⟩
    exact ⟨hab, hb⟩
  · rintro ⟨hij, hj⟩
    exact ⟨i, by omega, j, ⟨hj, hij⟩, rfl, rfl⟩

theorem indexPairs_ordered (n : Nat) :
    (indexPairs n).Pairwise (fun p q => p.1 < q.1 ∨ (p.1 = q.1 ∧ p.2 < q.2)) := by
  induction n with
  | zero => exact List.Pairwise.nil
  | succ n ih =>
    rw [indexPairs_succ, List.pairwise_append]
    refine ⟨?_, ?_, ?_⟩
    · rw [List.pairwise_map]
      refine (List.pairwise_lt_range n).imp ?_
      intro a b hab
      exact Or.inr ⟨rfl, by omega⟩
    · rw [List.pairwise_map]
      refine ih.imp ?_
      intro p q hpq
      rcases hpq with h | ⟨h1, h2⟩
      · exact Or.inl (by omega)
      · exact Or.inr ⟨by omega, by omega⟩
    · intro p hp q hq
      simp only [List.mem_map, List.mem_range] at hp hq
      obtain ⟨j, _, rfl⟩ := hp
      obtain ⟨r, _, rfl⟩ := hq
      exact Or.inl (by simp)

theorem map_getD_range (l : List String) :
    (List.range l.length).map (fun j => l.getD j "") = l := by
  induction l with
  | nil => rfl
  | cons a l ih =>
    rw [List.length_cons, List.range_succ_eq_map, List.map_cons, List.map_map]
    conv_rhs => rw [← ih]
    rfl

theorem compareAttempts_ok (hash1 hash2 : String) (s s' : Repo) (text : String)
    (h : GitDB.compareAttempts hash1 hash2 s = (Except.ok text, s')) :
    diff hash1 hash2 s = (Except.ok text, s') := by
  unfold GitDB.compareAttempts at h
  exact wrap_ok _ _ _ _ _ _ h

theorem compareAttempts_run (hash1 hash2 : String) (s : Repo) (a b : Commit)
    (hf : s.faults = []) (h1 : s.findCommit hash1 = some a) (h2 : s.findCommit hash2 = some b) :
    GitDB.compareAttempts hash1 hash2 s =
      (Except.ok ("diff " ++ a.hash ++ " " ++ b.hash), s) := by
  unfold GitDB.compareAttempts GitDB.wrap diff
  simp only [Git.tryCatch_run, Git.bind_run, environment_nil _ s hf, h1, h2]

theorem compareWith_ok (first : String) (rest : List String) (s s' : Repo)
    (row : List Comparison) (h : compareWith first rest s = (Except.ok row, s')) :
    row.map (fun c => (c.solution1, c.solution2)) = rest.map (fun second => (first, second)) ∧
      ∀ c ∈ row, ∃ t t', GitDB.compareAttempts c.solution1 c.solution2 t =
        (Except.ok c.diff, t') := by
  induction rest generalizing s s' row with
  | nil =>
    simp only [compareWith, Git.pure_run, Prod.mk.injEq, Except.ok.injEq] at h
    rw [← h.1]
    exact ⟨rfl, fun c hc => absurd hc (List.not_mem_nil c)⟩
  | cons second rest ih =>
    unfold compareWith at h
    obtain ⟨text, s1, h1, h⟩ := Git.bind_ok h
    obtain ⟨others, s2, h2, h⟩ := Git.bind_ok h
    simp only [Git.pure_run, Prod.mk.injEq, Except.ok.injEq] at h
    obtain ⟨ih1, ih2⟩ := ih s1 s2 others h2
    rw [← h.1]
    refine ⟨by rw [List.map_cons, List.map_cons, ih1], ?_⟩
    intro c hc
    rcases List.mem_cons.mp hc with rfl | hc
    · exact ⟨s, s1, h1⟩
    · exact ih2 c hc

theorem compareSolutions_ok (hashes : List String) (s s' : Repo) (result : List Comparison)
    (h : compareSolutions hashes s = (Except.ok result, s')) :
    result.map (fun c => (c.solution1, c.solution2)) =
        (indexPairs hashes.length).map (fun p => (hashes.getD p.1 "", hashes.getD p.2 "")) ∧
      ∀ c ∈ result, ∃ t t', GitDB.compareAttempts c.solution1 c.solution2 t =
        (Except.ok c.diff, t') := by
  induction hashes generalizing s s' result with
  | nil =>
    simp only [compareSolutions, Git.pure_run, Prod.mk.injEq, Except.ok.injEq] at h
    rw [← h.1]
    exact ⟨rfl, fun c hc => absurd hc (List.not_mem_nil c)⟩
  | cons first rest ih =>
    unfold compareSolutions at h
    obtain ⟨row, s1, h1, h⟩ := Git.bind_ok h
    obtain ⟨others, s2, h2, h⟩ := Git.bind_ok h
    simp only [Git.pure_run, Prod.mk.injEq, Except.ok.injEq] at h
    obtain ⟨r1, r2⟩ := compareWith_ok first rest s s1 row h1
    obtain ⟨ih1, ih2⟩ := ih s1 s2 others h2
    rw [← h.1]
    refine ⟨?_, ?_⟩
    · rw [List.map_append, r1, ih1, List.length_cons, indexPairs_succ, List.map_append,
        List.map_map, List.map_map]
      congr 1
      conv_lhs => rw [← map_getD_range rest, List.map_map]
      rfl
    · intro c hc
      rcases List.mem_append.mp hc with hc | hc
      · exact r2 c hc
      · exact ih2 c hc

theorem compareWith_run (first : String) (rest : List String) (s : Repo)
    (hf : s.faults = []) (h1 : (s.findCommit first).isSome = true)
    (hr : ∀ h ∈ rest, (s.findCommit h).isSome = true) :
    ∃ row, compareWith first rest s = (Except.ok row, s) := by
  induction rest with
  | nil => exact ⟨[], rfl⟩
  | cons second rest ih =>
    obtain ⟨a, ha⟩ := Option.isSome_iff_exists.mp h1
    obtain ⟨b, hb⟩ := Option.isSome_iff_exists.mp (hr second (List.mem_cons_self _ _))
    obtain ⟨row, hrow⟩ := ih (fun h hh => hr h (List.mem_cons_of_mem _ hh))
    refine ⟨⟨first, second, "diff " ++ a.hash ++ " " ++ b.hash⟩ :: row, ?_⟩
    unfold compareWith
    simp only [Git.bind_run, compareAttempts_run first second s a b hf ha hb, hrow,
      Git.pure_run]

theorem compareSolutions_run (hashes : List String) (s : Repo) (hf : s.faults = [])
    (hr : ∀ h ∈ hashes, (s.findCommit h).isSome = true) :
    ∃ result, compareSolutions hashes s = (Except.ok result, s) := by
  induction hashes with
  | nil => exact ⟨[], rfl⟩
  | cons first rest ih =>
    obtain ⟨row, hrow⟩ := compareWith_run first rest s hf (hr first (List.mem_cons_self _ _))
      (fun h hh => hr h (List.mem_cons_of_mem _ hh))
    obtain ⟨others, hothers⟩ := ih (fun h hh => hr h (List.mem_cons_of_mem _ hh))
    refine ⟨row ++ others, ?_⟩
    unfold compareSolutions
    simp only [Git.bind_run, hrow, hothers, Git.pure_run]

/-- C22. For every list of `n` hashes, whenever `compareSolutions` returns, its entries
are, in order, the pairs `(hashes[i], hashes[j])` for the index pairs `i < j` in
lexicographic order, each with a diff that `compareAttempts` returns for the two hashes;
the result has `n(n-1)/2` entries; the index pairs are exactly the pairs `i < j < n`, so
no index is paired with itself; and on a store where no backend call fails and every hash
names a snapshot, `compareSolutions` does return. -/
theorem compareSolutions_pairs (hashes : List String) :
    (∀ (s s' : Repo) (result : List Comparison),
        compareSolutions hashes s = (Except.ok result, s') →
        result.map (fun c => (c.solution1, c.solution2)) =
            (indexPairs hashes.length).map
              (fun p => (hashes.getD p.1 "", hashes.getD p.2 "")) ∧
          result.length = hashes.length * (hashes.length - 1) / 2 ∧
          (∀ c ∈ result, ∃ t t', GitDB.compareAttempts c.solution1 c.solution2 t =
            (Except.ok c.diff, t'))) ∧
      (∀ i j, (i, j) ∈ indexPairs hashes.length ↔ (i < j ∧ j < hashes.length)) ∧
      (indexPairs hashes.length).Pairwise
        (fun p q => p.1 < q.1 ∨ (p.1 = q.1 ∧ p.2 < q.2)) ∧
      (∀ s : Repo, s.faults = [] → (∀ h ∈ hashes, (s.findCommit h).isSome = true) →
        ∃ result, compareSolutions hashes s = (Except.ok result, s)) := by
  refine ⟨?_, mem_indexPairs _, indexPairs_ordered _, compareSolutions_run hashes⟩
  intro s s' result h
  obtain ⟨h1, h2⟩ := compareSolutions_ok hashes s s' result h
  refine ⟨h1, ?_, h2⟩
  have hl : result.length = (indexPairs hashes.length).length := by
    have := congrArg List.length h1
    simpa only [List.length_map] using this
  rw [hl, ← indexPairs_length, Nat.mul_div_cancel _ (by decide : 0 < 2)]

/-- Three hashes on the store with two exploration spaces: `compareSolutions` returns the
three entries for the index pairs (0,1), (0,2), (1,2). -/
theorem compareSolutions_pairs_witness :
    (∃ result, compareSolutions ["c0", "c1", "c2"] pathsRepo = (Except.ok result, pathsRepo)) ∧
      ([⟨"c0", "c1", "diff c0 c1"⟩, ⟨"c0", "c2", "diff c0 c2"⟩,
          ⟨"c1", "c2", "diff c1 c2"⟩] : List Comparison).length = 3 * (3 - 1) / 2 :=
  ⟨(compareSolutions_pairs ["c0", "c1", "c2"]).2.2.2 pathsRepo rfl (by decide),
    ((compareSolutions_pairs ["c0", "c1", "c2"]).1 pathsRepo pathsRepo
      [⟨"c0", "c1", "diff c0 c1"⟩, ⟨"c0", "c2", "diff c0 c2"⟩, ⟨"c1", "c2", "diff c1 c2"⟩]
      rfl).2.1⟩

/-! ## Listing of the stored patches -/

/-- C24, a defect of the code. `listSolutions` removes the first `.patch` of a file name,
not the trailing extension: after `createSolution('a.patchwork', ...)` has stored
`a.patchwork.patch`, `listSolutions` returns `awork.patch` for it and not the name
`a.patchwork`; for a name without `.patch` inside, such as `fix`, it returns the name. -/
theorem listSolutions_removes_first_occurrence :
    (exampleExplorer.createSolution "a.patchwork" (pure ()) exampleRepo).1 =
        Except.ok ".patches/a.patchwork.patch" ∧
      (exampleExplorer.createSolution "a.patchwork" (pure ()) exampleRepo).2.files =
        [(".patches/a.patchwork.patch", "From c1")] ∧
      (exampleExplorer.listSolutions
        (exampleExplorer.createSolution "a.patchwork" (pure ()) exampleRepo).2).1 =
        Except.ok ["awork.patch"] ∧
      (exampleExplorer.listSolutions
        (exampleExplorer.createSolution "fix" (pure ()) exampleRepo).2).1 =
        Except.ok ["fix"] :=
  ⟨rfl, rfl, rfl, rfl⟩

/-! ## The latest configuration of a community -/

/-- C27, a defect of the code. `findLatestConfig` keeps every file whose name starts with
the community name, also the files of a community whose name continues it. With saved
configurations of the communities `weekend_planner` and `weekend_planner_v2` in the
directory, `findLatestConfig('weekend_planner')`, the call of `main()`, returns the older
file of `weekend_planner_v2`; when only `weekend_planner_v2` has a saved configuration it
returns that file and not `null`; with files of `weekend_planner` alone it returns the one
with the greatest timestamp. -/
theorem findLatestConfig_takes_longer_name :
    findLatestConfig "/w" (Except.ok
        [configFileName "weekend_planner" "2024-01-01T00-00-00-000Z",
         configFileName "weekend_planner_v2" "2023-01-01T00-00-00-000Z"])
        "weekend_planner" =
        some "/w/communities/weekend_planner_v2-2023-01-01T00-00-00-000Z.yml" ∧
      findLatestConfig "/w" (Except.ok
        [configFileName "weekend_planner_v2" "2023-01-01T00-00-00-000Z"])
        "weekend_planner" =
        some "/w/communities/weekend_planner_v2-2023-01-01T00-00-00-000Z.yml" ∧
      findLatestConfig "/w" (Except.ok
        [configFileName "weekend_planner" "2023-06-01T00-00-00-000Z",
         configFileName "weekend_planner" "2024-01-01T00-00-00-000Z",
         configFileName "weekend_planner" "2023-12-31T23-59-59-999Z"])
        "weekend_planner" =
        some "/w/communities/weekend_planner-2024-01-01T00-00-00-000Z.yml" := by
  refine ⟨?_, ?_, ?_⟩ <;> decide

/-! ## Lineages that exist before a call of the explorer -/

/-- C29, a defect of the code. When the disposable name is already a lineage, the
creation of the disposable space fails and the clean-up deletes the lineage that was
there before the call: `createSolution('fix', ...)` throws the error of the creation and
`solution/fix`, a lineage with a snapshot of its own before the call, is gone after it;
`combineSolutions([], 'all')` does the same to `combine/all`. -/
theorem cleanup_deletes_existing_lineage :
    occupiedRepo.logOf "solution/fix" = [⟨"c1", "1", "earlier work"⟩, exampleCommit] ∧
      (exampleExplorer.createSolution "fix" (pure ()) occupiedRepo).1 =
        Except.error ⟨"checkoutLocalBranch", "a branch named solution/fix already exists"⟩ ∧
      (exampleExplorer.createSolution "fix" (pure ()) occupiedRepo).2.hasBranch
        "solution/fix" = false ∧
      occupiedRepo.hasBranch "combine/all" = true ∧
      (exampleExplorer.combineSolutions [] "all" occupiedRepo).1 =
        Except.error ⟨"checkoutLocalBranch", "a branch named combine/all already exists"⟩ ∧
      (exampleExplorer.combineSolutions [] "all" occupiedRepo).2.hasBranch
        "combine/all" = false :=
  ⟨rfl, rfl, rfl, rfl, rfl, rfl⟩

/-! ## The stored patches when a call of the explorer throws -/

theorem raises_bind {α β : Type} {P : Repo → Prop} {x : Git α} {f : α → Git β}
    {Q : α → Repo → Prop} {Q' : β → Repo → Prop} {E : JSError → Repo → Prop}
    (hx : Raises P x Q E) (hf : ∀ a, Raises (Q a) (f a) Q' E) : Raises P (x >>= f) Q' E := by
  intro s hs
  have h1 := hx s hs
  rw [Git.bind_run]
  rcases hxs : x s with ⟨e | a, s1⟩
  · rw [hxs] at h1; exact h1
  · rw [hxs] at h1; exact hf a s1 h1

theorem raises_tryCatch {α : Type} {P : Repo → Prop} {x : Git α} {h : JSError → Git α}
    {Q : α → Repo → Prop} {D E : JSError → Repo → Prop}
    (hx : Raises P x Q D) (hh : ∀ e, Raises (D e) (h e) Q E) : Raises P (tryCatch x h) Q E := by
  intro s hs
  have h1 := hx s hs
  rw [Git.tryCatch_run]
  rcases hxs : x s with ⟨e | a, s1⟩
  · rw [hxs] at h1; exact hh e s1 h1
  · rw [hxs] at h1; exact h1

theorem raises_pure {α : Type} {P : Repo → Prop} {a : α} {Q : α → Repo → Prop}
    {E : JSError → Repo → Prop} (h : ∀ s, P s → Q a s) : Raises P (pure a : Git α) Q E :=
  fun s hs => h s hs

theorem raises_throw {α : Type} {P : Repo → Prop} {e : JSError} {Q : α → Repo → Prop}
    {E : JSError → Repo → Prop} (h : ∀ s, P s → E e s) : Raises P (throw e : Git α) Q E :=
  fun s hs => h s hs

theorem raises_weaken {α : Type} {P P' : Repo → Prop} {x : Git α}
    {Q Q' : α → Repo → Prop} {E E' : JSError → Repo → Prop} (hx : Raises P x Q E)
    (hP : ∀ s, P' s → P s) (hQ : ∀ a s, Q a s → Q' a s) (hE : ∀ e s, E e s → E' e s) :
    Raises P' x Q' E' := by
  intro s hs
  have h1 := hx s (hP s hs)
  rcases hxs : x s with ⟨e | a, s1⟩
  · rw [hxs] at h1; exact hE _ _ h1
  · rw [hxs] at h1; exact hQ _ _ h1

theorem raises_environment (origin : String) (V : List (String × String) → Prop) :
    Raises (fun s => V s.files) (environment origin)
      (fun _ s => V s.files) (fun e s => V s.files ∧ e.origin = origin) := by
  intro s hs
  have hfr := (environment_frame origin s).2.2.1
  rcases he : environment origin s with ⟨e | u, s1⟩
  · rw [he] at hfr
    simp only at hfr
    exact ⟨by rw [hfr]; exact hs, environment_error origin s s1 e he⟩
  · rw [he] at hfr
    simp only at hfr
    show V s1.files
    rw [hfr]; exact hs

/-- A backend call whose own part leaves the files alone and throws errors of the call's
own origin only: a condition on the files survives the call, and a thrown error carries
the origin of the call. -/
theorem raises_step {α : Type} (origin : String) (g : Git α)
    (V : List (String × String) → Prop)
    (hg : ∀ t, (g t).2.files = t.files ∧ ∀ e, (g t).1 = Except.error e → e.origin = origin) :
    Raises (fun s => V s.files) (environment origin >>= fun _ => g)
      (fun _ s => V s.files) (fun e s => V s.files ∧ e.origin = origin) := by
  refine raises_bind (raises_environment origin V) (fun _ t ht => ?_)
  obtain ⟨h1, h2⟩ := hg t
  rcases hgt : g t with ⟨e | a, t'⟩
  · rw [hgt] at h1 h2
    simp only at h1
    exact ⟨by rw [h1]; exact ht, h2 e rfl⟩
  · rw [hgt] at h1
    simp only at h1
    show V t'.files
    rw [h1]; exact ht

theorem raises_checkoutLocalBranch (name : String) (V : List (String × String) → Prop) :
    Raises (fun s => V s.files) (checkoutLocalBranch name)
      (fun _ s => V s.files) (fun e s => V s.files ∧ e.origin = "checkoutLocalBranch") := by
  unfold checkoutLocalBranch
  refine raises_step _ _ V (fun t => ?_)
  by_cases hb : t.hasBranch name = true
  · simp only [hb, if_true]
    exact ⟨trivial, fun e he => by rw [← Except.error.inj he]⟩
  · simp only [hb, if_false, Bool.false_eq_true]
    exact ⟨trivial, fun e he => by cases he⟩

theorem raises_checkout (name : String) (V : List (String × String) → Prop) :
    Raises (fun s => V s.files) (checkout name)
      (fun _ s => V s.files) (fun e s => V s.files ∧ e.origin = "checkout") := by
  unfold checkout
  refine raises_step _ _ V (fun t => ?_)
  by_cases hb : t.hasBranch name = true
  · simp only [hb, if_true]
    exact ⟨trivial, fun e he => by cases he⟩
  · simp only [hb, if_false, Bool.false_eq_true]
    exact ⟨trivial, fun e he => by rw [← Except.error.inj he]⟩

theorem raises_deleteLocalBranch (name : String) (V : List (String × String) → Prop) :
    Raises (fun s => V s.files) (deleteLocalBranch name)
      (fun _ s => V s.files) (fun e s => V s.files ∧ e.origin = "deleteLocalBranch") := by
  unfold deleteLocalBranch
  refine raises_step _ _ V (fun t => ?_)
  by_cases hb : (t.hasBranch name && name != t.head) = true
  · simp only [hb, if_true]
    exact ⟨trivial, fun e he => by cases he⟩
  · simp only [hb, if_false, Bool.false_eq_true]
    exact ⟨trivial, fun e he => by rw [← Except.error.inj he]⟩

theorem raises_add (V : List (String × String) → Prop) :
    Raises (fun s => V s.files) add
      (fun _ s => V s.files) (fun e s => V s.files ∧ e.origin = "add") :=
  raises_environment "add" V

theorem raises_commit (message : String) (V : List (String × String) → Prop) :
    Raises (fun s => V s.files) (commit message)
      (fun _ s => V s.files) (fun e s => V s.files ∧ e.origin = "commit") := by
  unfold commit
  exact raises_step _ _ V (fun t => ⟨rfl, fun e he => by cases he⟩)

theorem raises_formatPatch (V : List (String × String) → Prop) :
    Raises (fun s => V s.files) formatPatch
      (fun _ s => V s.files) (fun e s => V s.files ∧ e.origin = "format-patch") := by
  unfold formatPatch
  refine raises_step _ _ V (fun t => ?_)
  cases t.logOf t.head with
  | nil => exact ⟨rfl, fun e he => by rw [← Except.error.inj he]⟩
  | cons c cs => exact ⟨rfl, fun e he => by cases he⟩

theorem raises_applyPatch (path : String) (V : List (String × String) → Prop) :
    Raises (fun s => V s.files) (applyPatch path)
      (fun _ s => V s.files) (fun e s => V s.files ∧ e.origin = "apply") := by
  unfold applyPatch
  refine raises_step _ _ V (fun t => ?_)
  by_cases hb : t.files.any (fun f => f.1 == path) = true
  · simp only [hb, if_true]
    exact ⟨trivial, fun e he => by cases he⟩
  · simp only [hb, if_false, Bool.false_eq_true]
    exact ⟨trivial, fun e he => by rw [← Except.error.inj he]⟩

theorem raises_applyAll (pe : PatchExplorer) (names : List String)
    (V : List (String × String) → Prop) :
    Raises (fun s => V s.files) (pe.applyAll names)
      (fun _ s => V s.files) (fun e s => V s.files ∧ e.origin = "apply") := by
  induction names with
  | nil => exact raises_pure (fun s hs => hs)
  | cons name rest ih =>
    unfold PatchExplorer.applyAll
    exact raises_bind (raises_applyPatch _ V) (fun _ => ih)

/-- The write of a file throws only for a reason of the environment, and then nothing is
written. -/
theorem raises_writeFile (path content : String) (V : List (String × String) → Prop) :
    Raises (fun s => V s.files) (writeFile path content)
      (fun _ _ => True) (fun e s => V s.files ∧ e.origin = "writeFile") := by
  unfold writeFile
  refine raises_bind (raises_environment "writeFile" V) (fun _ t _ => ?_)
  exact trivial

/-- The clean-up leaves the files alone: it throws the error it was given, or the error
of its own `checkout`. -/
theorem raises_cleanup {α : Type} (home b : String) (error : JSError)
    (V : List (String × String) → Prop) :
    Raises (fun s => V s.files)
      ((do
        checkout home
        tryCatch (deleteLocalBranch b) (fun _ => pure ())
        throw error) : Git α)
      (fun _ _ => False) (fun e s => (V s.files ∧ e = error) ∨ e.origin = "checkout") := by
  refine raises_bind (raises_weaken (raises_checkout home V) (fun _ h => h) (fun _ _ h => h)
    (fun _ _ h => Or.inr h.2)) (fun _ => ?_)
  refine raises_bind (Q := fun _ s => V s.files) ?_ (fun _ => raises_throw (fun s hs => Or.inl ⟨hs, rfl⟩))
  exact raises_tryCatch (D := fun _ s => V s.files)
    (raises_weaken (raises_deleteLocalBranch b V) (fun _ h => h) (fun _ _ h => h) (fun _ _ h => h.1))
    (fun _ => raises_pure (fun _ h => h))

theorem createSolution_raises (pe : PatchExplorer) (name : String) (modifier : Git Unit)
    (V : List (String × String) → Prop)
    (hmod : ∀ t, V t.files → V (modifier t).2.files) :
    Raises (fun s => V s.files) (pe.createSolution name modifier) (fun _ _ => True)
      (fun e s => V s.files ∨ e.origin = "checkout" ∨ e.origin = "deleteLocalBranch") := by
  unfold PatchExplorer.createSolution
  refine raises_tryCatch
    (D := fun e s => V s.files ∨ e.origin = "checkout" ∨ e.origin = "deleteLocalBranch")
    ?_ (fun e => ?_)
  · refine raises_bind (raises_weaken (raises_checkoutLocalBranch _ V) (fun _ h => h)
      (fun _ _ h => h) (fun _ _ h => Or.inl h.1)) (fun _ => ?_)
    refine raises_bind (Q := fun _ s => V s.files) ?_ (fun _ => ?_)
    · intro t ht
      have := hmod t ht
      rcases hm : modifier t with ⟨e | u, t'⟩
      · rw [hm] at this; exact Or.inl this
      · rw [hm] at this; exact this
    refine raises_bind (raises_weaken (raises_add V) (fun _ h => h)
      (fun _ _ h => h) (fun _ _ h => Or.inl h.1)) (fun _ => ?_)
    refine raises_bind (raises_weaken (raises_commit _ V) (fun _ h => h)
      (fun _ _ h => h) (fun _ _ h => Or.inl h.1)) (fun _ => ?_)
    refine raises_bind (raises_weaken (raises_formatPatch V) (fun _ h => h)
      (fun _ _ h => h) (fun _ _ h => Or.inl h.1)) (fun _ => ?_)
    refine raises_bind (raises_weaken (raises_writeFile _ _ V) (fun _ h => h)
      (fun _ _ h => h) (fun _ _ h => Or.inl h.1)) (fun _ => ?_)
    refine raises_bind (raises_weaken (raises_checkout _ (fun _ => True)) (fun _ h => h)
      (fun _ _ h => h) (fun _ _ h => Or.inr (Or.inl h.2))) (fun _ => ?_)
    refine raises_bind (raises_weaken (raises_deleteLocalBranch _ (fun _ => True)) (fun _ h => h)
      (fun _ _ h => h) (fun _ _ h => Or.inr (Or.inr h.2))) (fun _ => ?_)
    exact raises_pure (fun _ _ => trivial)
  · by_cases hc : e.origin = "checkout" ∨ e.origin = "deleteLocalBranch"
    · refine raises_weaken (raises_cleanup pe.currentBranch _ e (fun _ => True))
        (fun _ _ => trivial) (fun _ _ h => h.elim) (fun e' s h => ?_)
      rcases h with ⟨_, rfl⟩ | h
      · exact Or.inr hc
      · exact Or.inr (Or.inl h)
    · refine raises_weaken (raises_cleanup pe.currentBranch _ e V)
        (fun s h => h.resolve_right hc) (fun _ _ h => h.elim) (fun e' s h => ?_)
      rcases h with ⟨hv, _⟩ | h
      · exact Or.inl hv
      · exact Or.inr (Or.inl h)

theorem combineSolutions_raises (pe : PatchExplorer) (names : List String)
    (outputName : String) (V : List (String × String) → Prop) :
    Raises (fun s => V s.files) (pe.combineSolutions names outputName) (fun _ _ => True)
      (fun e s => V s.files ∨ e.origin = "checkout" ∨ e.origin = "deleteLocalBranch") := by
  unfold PatchExplorer.combineSolutions
  refine raises_tryCatch
    (D := fun e s => V s.files ∨ e.origin = "checkout" ∨ e.origin = "deleteLocalBranch")
    ?_ (fun e => ?_)
  · refine raises_bind (raises_weaken (raises_checkoutLocalBranch _ V) (fun _ h => h)
      (fun _ _ h => h) (fun _ _ h => Or.inl h.1)) (fun _ => ?_)
    refine raises_bind (raises_weaken (raises_applyAll pe names V) (fun _ h => h)
      (fun _ _ h => h) (fun _ _ h => Or.inl h.1)) (fun _ => ?_)
    refine raises_bind (raises_weaken (raises_add V) (fun _ h => h)
      (fun _ _ h => h) (fun _ _ h => Or.inl h.1)) (fun _ => ?_)
    refine raises_bind (raises_weaken (raises_commit _ V) (fun _ h => h)
      (fun _ _ h => h) (fun _ _ h => Or.inl h.1)) (fun _ => ?_)
    refine raises_bind (raises_weaken (raises_formatPatch V) (fun _ h => h)
      (fun _ _ h => h) (fun _ _ h => Or.inl h.1)) (fun _ => ?_)
    refine raises_bind (raises_weaken (raises_writeFile _ _ V) (fun _ h => h)
      (fun _ _ h => h) (fun _ _ h => Or.inl h.1)) (fun _ => ?_)
    refine raises_bind (raises_weaken (raises_checkout _ (fun _ => True)) (fun _ h => h)
      (fun _ _ h => h) (fun _ _ h => Or.inr (Or.inl h.2))) (fun _ => ?_)
    refine raises_bind (raises_weaken (raises_deleteLocalBranch _ (fun _ => True)) (fun _ h => h)
      (fun _ _ h => h) (fun _ _ h => Or.inr (Or.inr h.2))) (fun _ => ?_)
    exact raises_pure (fun _ _ => trivial)
  · by_cases hc : e.origin = "checkout" ∨ e.origin = "deleteLocalBranch"
    · refine raises_weaken (raises_cleanup pe.currentBranch _ e (fun _ => True))
        (fun _ _ => trivial) (fun _ _ h => h.elim) (fun e' s h => ?_)
      rcases h with ⟨_, rfl⟩ | h
      · exact Or.inr hc
      · exact Or.inr (Or.inl h)
    · refine raises_weaken (raises_cleanup pe.currentBranch _ e V)
        (fun s h => h.resolve_right hc) (fun _ _ h => h.elim) (fun e' s h => ?_)
      rcases h with ⟨hv, _⟩ | h
      · exact Or.inl hv
      · exact Or.inr (Or.inl h)

/-- C30, counterexample. When the `checkout` that follows the write of the patch fails,
`createSolution` throws and the patch `fix.patch`, which was not stored before the call,
is stored after it. -/
theorem createSolution_throws_after_write :
    exampleExplorer.stored (conflictRepo 5) = [] ∧
      (exampleExplorer.createSolution "fix" (pure ()) (conflictRepo 5)).1 =
        Except.error ⟨"checkout", "local changes would be overwritten"⟩ ∧
      exampleExplorer.stored
          (exampleExplorer.createSolution "fix" (pure ()) (conflictRepo 5)).2 =
        [(".patches/fix.patch", "From c1")] :=
  ⟨rfl, rfl, rfl⟩

/-- C30, amended. When `createSolution` or `combineSolutions` throws an error that was
raised before the snapshot step had recorded its snapshot - not by the patch extraction,
the write of the patch file, a `checkout` or the deletion of the disposable space, so by
the creation of the disposable space, the modifier, a patch application, the staging or
the snapshot step -, the stored patch artifacts and their contents are the same as before
the call; for `createSolution` the modifier is one that leaves the stored patches
alone. -/
theorem patch_store_kept_on_early_failure (pe : PatchExplorer) (name outputName : String)
    (names : List String) (modifier : Git Unit) (s : Repo) :
    ((∀ t, pe.stored (modifier t).2 = pe.stored t) →
        ∀ (e : JSError) (s' : Repo),
          pe.createSolution name modifier s = (Except.error e, s') →
          e.origin ≠ "format-patch" → e.origin ≠ "writeFile" →
          e.origin ≠ "checkout" → e.origin ≠ "deleteLocalBranch" →
          pe.stored s' = pe.stored s) ∧
      (∀ (e : JSError) (s' : Repo),
        pe.combineSolutions names outputName s = (Except.error e, s') →
        e.origin ≠ "format-patch" → e.origin ≠ "writeFile" →
        e.origin ≠ "checkout" → e.origin ≠ "deleteLocalBranch" →
        pe.stored s' = pe.stored s) := by
  refine ⟨?_, ?_⟩
  · intro hmod e s' h _ _ h1 h2
    have hr := createSolution_raises pe name modifier
      (fun fs => fs.filter (fun f => (entryOf pe.patchDir f.1).isSome) = pe.stored s)
      (fun t ht => (hmod t).trans ht) s rfl
    rw [h] at hr
    rcases hr with hr | hr | hr
    · exact hr
    · exact absurd hr h1
    · exact absurd hr h2
  · intro e s' h _ _ h1 h2
    have hr := combineSolutions_raises pe names outputName
      (fun fs => fs.filter (fun f => (entryOf pe.patchDir f.1).isSome) = pe.stored s) s rfl
    rw [h] at hr
    rcases hr with hr | hr | hr
    · exact hr
    · exact absurd hr h1
    · exact absurd hr h2

/-- The example explorer: a run of `createSolution` whose snapshot step fails and a run of
`combineSolutions` with a missing patch throw and leave the stored patches as they
were. -/
theorem patch_store_kept_on_early_failure_witness :
    exampleExplorer.stored
        (exampleExplorer.createSolution "fix" (pure ()) { patchedRepo with
          faults := [none, none, some "index is locked"] }).2 =
        exampleExplorer.stored { patchedRepo with
          faults := [none, none, some "index is locked"] } ∧
      exampleExplorer.stored
        (exampleExplorer.combineSolutions ["missing"] "a" patchedRepo).2 =
        exampleExplorer.stored patchedRepo :=
  ⟨(patch_store_kept_on_early_failure exampleExplorer "fix" "a" ["missing"] (pure ())
      { patchedRepo with faults := [none, none, some "index is locked"] }).1
      (fun _ => rfl) ⟨"commit", "index is locked"⟩ _ rfl (by decide) (by decide)
      (by decide) (by decide),
    (patch_store_kept_on_early_failure exampleExplorer "fix" "a" ["missing"] (pure ())
      patchedRepo).2 ⟨"apply", "cannot open .patches/missing.patch"⟩ _ rfl
      (by decide) (by decide) (by decide) (by decide)⟩

/-! ## The payload of an attempt -/

theorem mem_keys_setField (key : String) (v : JSValue) (fields : List (String × JSValue))
    (k : String) :
    k ∈ (JSValue.setField key v fields).map (fun f => f.1) ↔
      (k = key ∨ k ∈ fields.map (fun f => f.1)) := by
  induction fields with
  | nil => simp [JSValue.setField]
  | cons f fs ih =>
    obtain ⟨k0, w⟩ := f
    by_cases hk : k0 = key
    · subst hk
      simp [JSValue.setField]
    · simp only [JSValue.setField, hk, if_false, List.map_cons, List.mem_cons, ih]
      tauto

theorem enrichedMetadata_iteration (R : Runtime) (evaluation : JSNumber) (now : String)
    (metadata : List (String × JSValue)) :
    JSValue.lookup "iteration" (enrichedMetadata R evaluation now metadata) =
      R.add ((JSValue.lookup "iteration" metadata).orElse (JSValue.number (JSNumber.fin 0)))
        (JSValue.number (JSNumber.fin 1)) := by
  unfold enrichedMetadata
  rw [lookup_setField_same]

theorem enrichedMetadata_other (R : Runtime) (evaluation : JSNumber) (now : String)
    (metadata : List (String × JSValue)) (key : String) (h1 : key ≠ "evaluation")
    (h2 : key ≠ "timestamp") (h3 : key ≠ "iteration") :
    JSValue.lookup key (enrichedMetadata R evaluation now metadata) =
      JSValue.lookup key metadata := by
  unfold enrichedMetadata
  rw [lookup_setField_other _ _ _ _ (Ne.symm h3), lookup_setField_other _ _ _ _ (Ne.symm h2),
    lookup_setField_other _ _ _ _ (Ne.symm h1)]

/-- C26, counterexample. With caller metadata whose `iteration` is NaN, the iteration
`saveAttempt` hands to the store is 1, while `M.iteration + 1` is NaN. -/
theorem iteration_of_nan_is_one :
    JSValue.lookup "iteration" [("iteration", JSValue.number JSNumber.nan)] =
        JSValue.number JSNumber.nan ∧
      JSValue.lookup "iteration"
        (enrichedMetadata arithmeticRuntime (JSNumber.fin 1) "2024-01-01T00:00:00.000Z"
          [("iteration", JSValue.number JSNumber.nan)]) = JSValue.number (JSNumber.fin 1) ∧
      arithmeticRuntime.add (JSValue.number JSNumber.nan) (JSValue.number (JSNumber.fin 1)) =
        JSValue.number JSNumber.nan ∧
      JSValue.number (JSNumber.fin 1) ≠ JSValue.number JSNumber.nan := by
  refine ⟨rfl, ?_, rfl, by intro h; cases h⟩
  rw [enrichedMetadata_iteration]
  show JSValue.number (JSNumber.fin (0 + 1)) = JSValue.number (JSNumber.fin 1)
  norm_num

/-- C26, amended. `SolutionExplorer.saveAttempt` hands the store the payload
`{solution, metadata: M'}`: the call is `GitDB.saveAttempt` on that object. `M'` holds the
keys of `M` and the keys `evaluation`, `timestamp` and `iteration`; every other key keeps
the value it has in `M`; `evaluation` is the score `evaluateSolution` gives; `iteration`
is `(M.iteration || 0) + 1`: 0 + 1 when `M.iteration` is absent or another falsy value,
`M.iteration + 1` when it is truthy. -/
theorem saveAttempt_payload (R : Runtime) (evaluator : Evaluator) (now description : String)
    (solution : JSValue) (metadata : List (String × JSValue)) :
    SolutionExplorer.saveAttempt R evaluator now description solution metadata =
        GitDB.saveAttempt R description (JSValue.object
          [("solution", solution),
           ("metadata", JSValue.object
              (enrichedMetadata R (evaluateSolution R evaluator solution) now metadata))]) ∧
      (∀ key, key ∈ (enrichedMetadata R (evaluateSolution R evaluator solution) now
          metadata).map (fun f => f.1) ↔
        (key ∈ metadata.map (fun f => f.1) ∨ key = "evaluation" ∨ key = "timestamp" ∨
          key = "iteration")) ∧
      (∀ key, key ≠ "evaluation" → key ≠ "timestamp" → key ≠ "iteration" →
        JSValue.lookup key
            (enrichedMetadata R (evaluateSolution R evaluator solution) now metadata) =
          JSValue.lookup key metadata) ∧
      JSValue.lookup "evaluation"
          (enrichedMetadata R (evaluateSolution R evaluator solution) now metadata) =
        JSValue.number (evaluateSolution R evaluator solution) ∧
      ((JSValue.lookup "iteration" metadata).truthy = false →
        JSValue.lookup "iteration"
            (enrichedMetadata R (evaluateSolution R evaluator solution) now metadata) =
          R.add (JSValue.number (JSNumber.fin 0)) (JSValue.number (JSNumber.fin 1))) ∧
      ((JSValue.lookup "iteration" metadata).truthy = true →
        JSValue.lookup "iteration"
            (enrichedMetadata R (evaluateSolution R evaluator solution) now metadata) =
          R.add (JSValue.lookup "iteration" metadata) (JSValue.number (JSNumber.fin 1))) := by
  refine ⟨rfl, ?_, ?_, enrichedMetadata_evaluation _ _ _ _, ?_, ?_⟩
  · intro key
    unfold enrichedMetadata
    rw [mem_keys_setField, mem_keys_setField, mem_keys_setField]
    tauto
  · intro key h1 h2 h3
    exact enrichedMetadata_other R _ now metadata key h1 h2 h3
  · intro h
    rw [enrichedMetadata_iteration, JSValue.orElse, h]
    rfl
  · intro h
    rw [enrichedMetadata_iteration, JSValue.orElse, h]
    rfl

/-- Caller metadata with the iteration 2 and a note: the iteration handed on is 2 + 1, the
note is kept; without an iteration it is 0 + 1. -/
theorem saveAttempt_payload_witness :
    JSValue.lookup "note"
        (enrichedMetadata arithmeticRuntime
          (evaluateSolution arithmeticRuntime defaultEvaluator (JSValue.string "b"))
          "2024-01-01T00:00:00.000Z"
          [("note", JSValue.string "n"), ("iteration", JSValue.number (JSNumber.fin 2))]) =
        JSValue.string "n" ∧
      JSValue.lookup "iteration"
        (enrichedMetadata arithmeticRuntime
          (evaluateSolution arithmeticRuntime defaultEvaluator (JSValue.string "b"))
          "2024-01-01T00:00:00.000Z"
          [("note", JSValue.string "n"), ("iteration", JSValue.number (JSNumber.fin 2))]) =
        arithmeticRuntime.add (JSValue.number (JSNumber.fin 2))
          (JSValue.number (JSNumber.fin 1)) ∧
      JSValue.lookup "iteration"
        (enrichedMetadata arithmeticRuntime
          (evaluateSolution arithmeticRuntime defaultEvaluator (JSValue.string "b"))
          "2024-01-01T00:00:00.000Z" []) =
        arithmeticRuntime.add (JSValue.number (JSNumber.fin 0))
          (JSValue.number (JSNumber.fin 1)) :=
  ⟨(saveAttempt_payload arithmeticRuntime defaultEvaluator "2024-01-01T00:00:00.000Z"
      "attempt" (JSValue.string "b")
      [("note", JSValue.string "n"), ("iteration", JSValue.number (JSNumber.fin 2))]).2.2.1
      "note" (by decide) (by decide) (by decide),
    (saveAttempt_payload arithmeticRuntime defaultEvaluator "2024-01-01T00:00:00.000Z"
      "attempt" (JSValue.string "b")
      [("note", JSValue.string "n"),
       ("iteration", JSValue.number (JSNumber.fin 2))]).2.2.2.2.2
      (by simp [JSValue.lookup, JSValue.truthy]),
    (saveAttempt_payload arithmeticRuntime defaultEvaluator "2024-01-01T00:00:00.000Z"
      "attempt" (JSValue.string "b") []).2.2.2.2.1 rfl⟩

/-! ## The space a listed name denotes -/

theorem lookup_assign_same {β : Type} (key : String) (value : β) (l : List (String × β)) :
    (assign key value l).lookup key = some value := by
  induction l with
  | nil => simp [assign, List.lookup]
  | cons f fs ih =>
    obtain ⟨k, w⟩ := f
    by_cases hk : k = key
    · subst hk
      simp [assign, List.lookup]
    · have hk' : (key == k) = false := by simpa using (Ne.symm hk)
      simp only [assign, hk, if_false, List.lookup, hk', ih]

theorem lookup_assign_other {β : Type} (key other : String) (value : β)
    (l : List (String × β)) (hne : key ≠ other) :
    (assign other value l).lookup key = l.lookup key := by
  induction l with
  | nil =>
    have hk' : (key == other) = false := by simpa using hne
    simp [assign, List.lookup, hk']
  | cons f fs ih =>
    obtain ⟨k, w⟩ := f
    by_cases hk : k = other
    · subst hk
      have hk' : (key == k) = false := by simpa using hne
      simp only [assign, if_true, List.lookup, hk']
    · by_cases hk2 : key = k
      · subst hk2
        simp only [assign, hk, if_false, List.lookup, beq_self_eq_true]
      · have hk' : (key == k) = false := by simpa using hk2
        simp only [assign, hk, if_false, List.lookup, hk', ih]

theorem lookup_foldl_assign {β : Type} (H : String → β) (spaces : List String)
    (h0 : List (String × β)) (sp : String) :
    (spaces.foldl (fun h x => assign x (H x) h) h0).lookup sp =
      if sp ∈ spaces then some (H sp) else h0.lookup sp := by
  induction spaces generalizing h0 with
  | nil => simp
  | cons x rest ih =>
    rw [List.foldl_cons, ih]
    by_cases h1 : sp ∈ rest
    · simp [h1]
    · by_cases h2 : sp = x
      · subst h2
        simp [h1, lookup_assign_same]
      · simp [h1, h2, lookup_assign_other _ _ _ _ h2]

theorem historyOfSpaces_run (R : Runtime) (spaces : List String) (s : Repo)
    (h0 : List (String × List Attempt)) (hf : s.faults = [])
    (hsp : ∀ sp ∈ spaces, sanitizeBranchName sp = sp ∧ s.hasBranch sp = true) :
    ∃ s', historyOfSpaces R spaces h0 s =
        (Except.ok (spaces.foldl
          (fun h x => assign x ((s.logOf x).map (decodeCommit R)) h) h0), s') ∧
      s'.faults = [] ∧ s'.branches = s.branches := by
  induction spaces generalizing s h0 with
  | nil => exact ⟨s, rfl, hf, rfl⟩
  | cons space rest ih =>
    obtain ⟨hsan, hb⟩ := hsp space (List.mem_cons_self _ _)
    have hb' : s.hasBranch (sanitizeBranchName space) = true := by rw [hsan]; exact hb
    have hrest : ∀ sp ∈ rest, sanitizeBranchName sp = sp ∧
        ({ s with head := space } : Repo).hasBranch sp = true :=
      fun sp h => hsp sp (List.mem_cons_of_mem _ h)
    obtain ⟨s', hrun, hf', hbr⟩ := ih { s with head := space }
      (assign space ((s.logOf space).map (decodeCommit R)) h0) hf hrest
    refine ⟨s', ?_, hf', hbr⟩
    have h1 := switchSolutionSpace_run space s hf hb'
    rw [hsan] at h1
    have h2 := getAttemptHistory_run R { s with head := space } hf
    have hrun' : historyOfSpaces R rest
        (assign space ((s.logOf space).map (decodeCommit R)) h0) { s with head := space } =
        (Except.ok (rest.foldl
          (fun h x => assign x ((s.logOf x).map (decodeCommit R)) h)
          (assign space ((s.logOf space).map (decodeCommit R)) h0)), s') := hrun
    simp only [historyOfSpaces, Git.bind_run, h1, h2, List.foldl_cons]
    exact hrun'

theorem hasBranch_of_mem (s : Repo) (sp : String)
    (h : sp ∈ s.branches.map (fun b => b.1)) : s.hasBranch sp = true := by
  unfold Repo.hasBranch
  rw [List.any_eq_true]
  obtain ⟨b, hb, rfl⟩ := List.mem_map.mp h
  exact ⟨b, hb, by simp⟩

theorem getExplorationHistory_run (R : Runtime) (s : Repo) (hf : s.faults = [])
    (hsp : ∀ sp ∈ (s.branches.map (fun b => b.1)).filter
      (fun branch => branch != "main" && branch != "master"), sanitizeBranchName sp = sp) :
    ∃ result s', getExplorationHistory R s = (Except.ok result, s') ∧
      ∀ sp ∈ (s.branches.map (fun b => b.1)).filter
          (fun branch => branch != "main" && branch != "master"),
        result.lookup sp = some ((s.logOf sp).map (decodeCommit R)) := by
  obtain ⟨s', hrun, _, _⟩ := historyOfSpaces_run R _ s [] hf
    (fun sp h => ⟨hsp sp h, hasBranch_of_mem s sp (List.mem_filter.mp h).1⟩)
  refine ⟨((s.branches.map (fun b => b.1)).filter
      (fun branch => branch != "main" && branch != "master")).foldl
      (fun h x => assign x ((s.logOf x).map (decodeCommit R)) h) [], s', ?_, ?_⟩
  · unfold getExplorationHistory
    rw [Git.bind_run, listSolutionSpaces_run s hf]
    exact hrun
  · intro sp h
    rw [lookup_foldl_assign (fun x => (s.logOf x).map (decodeCommit R)), if_pos h]

/-- C28, a defect of the code. `switchSolutionSpace` sanitises the name
`listSolutionSpaces` returned. On a store with the lineages `Draft` and `draft`,
`listSolutionSpaces` returns both names; the entry `getBestSolutions` labels `Draft` has
the hash of the newest snapshot of `draft`, and the history `getExplorationHistory` files
under `Draft` is that of `draft`. -/
theorem listed_name_read_from_other_lineage :
    (GitDB.listSolutionSpaces mixedCaseRepo).1 = Except.ok ["Draft", "draft"] ∧
      (mixedCaseRepo.logOf "Draft").map (fun c => c.hash) = ["c1", "c0"] ∧
      (mixedCaseRepo.logOf "draft").map (fun c => c.hash) = ["c2", "c0"] ∧
      ((getBestSolutions (exampleRuntime JSValue.null) mixedCaseRepo).1.map
          (fun best => best.map (fun b => (b.space, b.hash)))) =
        Except.ok [("Draft", "c2"), ("draft", "c2")] ∧
      ((getExplorationHistory (exampleRuntime JSValue.null) mixedCaseRepo).1.map
          (fun history => history.map (fun h => (h.1, h.2.map (fun a => a.hash))))) =
        Except.ok [("Draft", ["c2", "c0"]), ("draft", ["c2", "c0"])] :=
  ⟨rfl, rfl, rfl, rfl, rfl⟩

/-- Listed names that sanitisation leaves unchanged. On a store where no backend call
fails and every listed space bears such a name, `getBestSolutions` (every listed space holding a
snapshot) returns one entry per listed space, in order, each built from the best attempt
of the history of the space it is labelled with, and `getExplorationHistory` files under
each listed space the history of that space. Every name `initSolutionSpace` gives to a
space is left unchanged by sanitisation. -/
theorem listed_space_read_by_own_name (R : Runtime) (s : Repo) :
    (s.faults = [] → SpacesReadable s →
        ∃ result s', getBestSolutions R s = (Except.ok result, s') ∧
          result.map (fun b => b.space) = (s.branches.map (fun b => b.1)).filter
            (fun branch => branch != "main" && branch != "master") ∧
          ∀ entry ∈ result, ∃ best,
            selectBest R ((s.logOf entry.space).map (decodeCommit R)) = some best ∧
              entry = bestEntry entry.space best) ∧
      (s.faults = [] →
        (∀ sp ∈ (s.branches.map (fun b => b.1)).filter
          (fun branch => branch != "main" && branch != "master"),
          sanitizeBranchName sp = sp) →
        ∃ result s', getExplorationHistory R s = (Except.ok result, s') ∧
          ∀ sp ∈ (s.branches.map (fun b => b.1)).filter
              (fun branch => branch != "main" && branch != "master"),
            result.lookup sp = some ((s.logOf sp).map (decodeCommit R))) ∧
      (∀ name : String,
        sanitizeBranchName (sanitizeBranchName name) = sanitizeBranchName name) := by
  refine ⟨?_, getExplorationHistory_run R s, sanitizeBranchName_fixed⟩
  intro hf hsp
  obtain ⟨s', hrun⟩ := getBestSolutions_run R s hf hsp
  refine ⟨((s.branches.map (fun b => b.1)).filter
      (fun branch => branch != "main" && branch != "master")).filterMap (fun sp =>
        (selectBest R ((s.logOf sp).map (decodeCommit R))).map (bestEntry sp)),
    s', hrun, ?_, ?_⟩
  · unfold getBestSolutions at hrun
    rw [Git.bind_run, listSolutionSpaces_run s hf] at hrun
    exact bestOfSpaces_spaces R _ s s' _ hrun
  · intro entry he
    obtain ⟨sp, _, hsome⟩ := List.mem_filterMap.mp he
    obtain ⟨best, hbest, hentry⟩ := Option.map_eq_some'.mp hsome
    subst hentry
    exact ⟨best, hbest, rfl⟩

/-- The store with two exploration spaces: both calls return, the entries and histories
are those of the spaces they are labelled with. -/
theorem listed_space_read_by_own_name_witness :
    (∃ result s', getBestSolutions (exampleRuntime JSValue.null) pathsRepo =
        (Except.ok result, s') ∧
      result.map (fun b => b.space) = (pathsRepo.branches.map (fun b => b.1)).filter
        (fun branch => branch != "main" && branch != "master") ∧
      ∀ entry ∈ result, ∃ best,
        selectBest (exampleRuntime JSValue.null)
            ((pathsRepo.logOf entry.space).map (decodeCommit (exampleRuntime JSValue.null))) =
          some best ∧ entry = bestEntry entry.space best) ∧
      (∃ result s', getExplorationHistory (exampleRuntime JSValue.null) pathsRepo =
        (Except.ok result, s') ∧
      ∀ sp ∈ (pathsRepo.branches.map (fun b => b.1)).filter
          (fun branch => branch != "main" && branch != "master"),
        result.lookup sp =
          some ((pathsRepo.logOf sp).map (decodeCommit (exampleRuntime JSValue.null)))) :=
  ⟨(listed_space_read_by_own_name (exampleRuntime JSValue.null) pathsRepo).1 rfl
      (by intro sp h
          have h' : sp ∈ ["exploration-path-1", "exploration-path-2"] := h
          simp only [List.mem_cons, List.mem_singleton, List.not_mem_nil, or_false] at h'
          rcases h' with rfl | rfl <;> exact ⟨by decide, rfl, by decide⟩),
    (listed_space_read_by_own_name (exampleRuntime JSValue.null) pathsRepo).2.1 rfl
      (by intro sp h
          have h' : sp ∈ ["exploration-path-1", "exploration-path-2"] := h
          simp only [List.mem_cons, List.mem_singleton, List.not_mem_nil, or_false] at h'
          rcases h' with rfl | rfl <;> decide)⟩

/-! ## Names of the exploration spaces -/

theorem digitChar_isDigit (k : Nat) (hk : k < 10) : (Nat.digitChar k).isDigit = true := by
  interval_cases k <;> rfl

theorem digitChar_value (k : Nat) (hk : k < 10) : (Nat.digitChar k).toNat - 48 = k := by
  interval_cases k <;> rfl

theorem toDigitsCore_isDigit (fuel n : Nat) (ds : List Char)
    (hds : ∀ c ∈ ds, c.isDigit = true) :
    ∀ c ∈ Nat.toDigitsCore 10 fuel n ds, c.isDigit = true := by
  induction fuel generalizing n ds with
  | zero => exact hds
  | succ fuel ih =>
    have hd : ∀ c ∈ Nat.digitChar (n % 10) :: ds, c.isDigit = true := by
      intro c hc
      rcases List.mem_cons.mp hc with rfl | hc
      · exact digitChar_isDigit _ (Nat.mod_lt _ (by decide))
      · exact hds c hc
    unfold Nat.toDigitsCore
    by_cases h0 : n / 10 = 0
    · simp only [h0, if_true]; exact hd
    · simp only [h0, if_false]; exact ih _ _ hd

theorem toString_isDigit (n : Nat) : ∀ c ∈ (toString n).data, c.isDigit = true :=
  toDigitsCore_isDigit (n + 1) n [] (fun c hc => absurd hc (List.not_mem_nil c))

/-- Reading the digits back gives the number. -/
theorem toDigitsCore_value (fuel n : Nat) (ds : List Char) (hn : n < fuel) :
    (Nat.toDigitsCore 10 fuel n ds).foldl (fun acc c => acc * 10 + (c.toNat - 48)) 0 =
      ds.foldl (fun acc c => acc * 10 + (c.toNat - 48)) n := by
  induction fuel generalizing n ds with
  | zero => omega
  | succ fuel ih =>
    unfold Nat.toDigitsCore
    by_cases h0 : n / 10 = 0
    · simp only [h0, if_true, List.foldl_cons, Nat.zero_mul, Nat.zero_add]
      have hlt : n < 10 := by omega
      rw [digitChar_value _ (Nat.mod_lt _ (by decide)), Nat.mod_eq_of_lt hlt]
    · simp only [h0, if_false]
      rw [ih (n / 10) _ (by omega), List.foldl_cons,
        digitChar_value _ (Nat.mod_lt _ (by decide))]
      congr 1
      omega

theorem toString_injective (a b : Nat) (h : toString a = toString b) : a = b := by
  have hd : Nat.toDigits 10 a = Nat.toDigits 10 b := congrArg String.data h
  have ha := toDigitsCore_value (a + 1) a [] (Nat.lt_succ_self a)
  have hb := toDigitsCore_value (b + 1) b [] (Nat.lt_succ_self b)
  unfold Nat.toDigits at hd
  rw [hd, hb] at ha
  exact ha.symm

theorem pathName_injective (a b : Nat)
    (h : "exploration-path-" ++ toString a = "exploration-path-" ++ toString b) : a = b := by
  have hd := congrArg String.data h
  rw [String.data_append, String.data_append] at hd
  exact toString_injective a b (String.ext (List.append_cancel_left hd))

theorem chain_of_no_hyphen (l : List Char) (h : ∀ c ∈ l, c ≠ '-') : NoAdjacentHyphens l := by
  unfold NoAdjacentHyphens
  induction l with
  | nil => exact List.chain'_nil
  | cons a l ih =>
    cases l with
    | nil => exact List.chain'_singleton a
    | cons b l =>
      refine List.chain'_cons.mpr ⟨?_, ih (fun c hc => h c (List.mem_cons_of_mem _ hc))⟩
      intro hab
      exact h a (List.mem_cons_self _ _) hab.1

theorem isDigit_isOutputChar (c : Char) (h : c.isDigit = true) :
    isOutputChar c = true ∧ c ≠ '-' := by
  have h1 : isOutputChar c = true := by
    unfold isOutputChar
    simp [h]
  refine ⟨h1, ?_⟩
  rintro rfl
  exact absurd h (by decide)

/-- The names of the exploration spaces are names that sanitisation leaves unchanged. -/
theorem sanitizeBranchName_pathName (k : Nat) :
    sanitizeBranchName ("exploration-path-" ++ toString k) =
      "exploration-path-" ++ toString k := by
  unfold sanitizeBranchName
  apply String.ext
  show sanitizeChars ("exploration-path-" ++ toString k).data = _
  rw [String.data_append]
  apply sanitizeChars_fixed
  · intro c hc
    rcases List.mem_append.mp hc with hc | hc
    · have hp : ∀ d ∈ "exploration-path-".data, isOutputChar d = true := by decide
      exact hp c hc
    · exact (isDigit_isOutputChar c (toString_isDigit k c hc)).1
  · unfold NoAdjacentHyphens
    rw [List.chain'_append]
    have hp : "exploration-path-".data =
        ['e', 'x', 'p', 'l', 'o', 'r', 'a', 't', 'i', 'o', 'n', '-', 'p', 'a', 't', 'h', '-'] :=
      rfl
    refine ⟨by rw [hp]; simp, chain_of_no_hyphen _
      (fun c hc => (isDigit_isOutputChar c (toString_isDigit k c hc)).2), ?_⟩
    intro x _ y hy
    have hy' : y ∈ (toString k).data := List.mem_of_mem_head? hy
    intro hxy
    exact (isDigit_isOutputChar y (toString_isDigit k y hy')).2 hxy.2

/-! ## Initialisation of the exploration spaces -/

/-- C21, a defect of the code. A first call of `initializeExplorationSpaces` with two
explorations returns the two convention names and adds the two lineages. A second call on
the store the first one left, as the second flow of the demo makes, throws the error of
`initSolutionSpace` because `exploration-path-1` exists: it creates no space and returns
no list. -/
theorem initializeExplorationSpaces_second_call_throws :
    (initializeExplorationSpaces 2 "T" exampleRepo).1 =
        Except.ok ["exploration-path-1", "exploration-path-2"] ∧
      (initializeExplorationSpaces 2 "T" exampleRepo).2.branches.map (fun b => b.1) =
        ["main", "feature", "exploration-path-1", "exploration-path-2"] ∧
      (initializeExplorationSpaces 2 "U" (initializeExplorationSpaces 2 "T" exampleRepo).2).1 =
        Except.error ⟨"GitDB.initSolutionSpace",
          "Failed to initialize solution space: a branch named exploration-path-1 already exists"⟩ ∧
      (initializeExplorationSpaces 2 "U"
          (initializeExplorationSpaces 2 "T" exampleRepo).2).2.branches.map (fun b => b.1) =
        ["main", "feature", "exploration-path-1", "exploration-path-2"] ∧
      numExplorations (some 2) = 2 :=
  ⟨rfl, rfl, rfl, rfl, rfl⟩

/-! ## Completion of `getBestSolutions` -/

theorem logOf_ne_nil (s : Repo) (name : String) (hlogs : ∀ b ∈ s.branches, b.2 ≠ [])
    (hb : s.hasBranch name = true) : s.logOf name ≠ [] := by
  unfold Repo.logOf
  cases hfind : s.branches.find? (fun b => b.1 == name) with
  | none =>
    unfold Repo.hasBranch at hb
    rw [List.any_eq_true] at hb
    obtain ⟨b, hmem, hbeq⟩ := hb
    exact absurd hbeq (by simpa using List.find?_eq_none.mp hfind b hmem)
  | some b => exact hlogs b (List.mem_of_find?_eq_some hfind)

/-- The loop of `getBestSolutions` on a store where no call fails: for each space the
lineage read is the one the sanitized name denotes. -/
theorem bestOfSpaces_run_read (R : Runtime) (spaces : List String) (s : Repo)
    (hf : s.faults = [])
    (hsp : ∀ sp ∈ spaces, s.hasBranch (sanitizeBranchName sp) = true ∧
      s.logOf (sanitizeBranchName sp) ≠ []) :
    ∃ s', bestOfSpaces R spaces s =
        (Except.ok (spaces.filterMap (fun sp =>
          (selectBest R ((s.logOf (sanitizeBranchName sp)).map (decodeCommit R))).map
            (bestEntry sp))), s') ∧
      s'.faults = [] ∧ s'.branches = s.branches := by
  induction spaces generalizing s with
  | nil => exact ⟨s, rfl, hf, rfl⟩
  | cons space rest ih =>
    obtain ⟨hb, hlog⟩ := hsp space (List.mem_cons_self _ _)
    have hrest : ∀ sp ∈ rest,
        ({ s with head := sanitizeBranchName space } : Repo).hasBranch
          (sanitizeBranchName sp) = true ∧
        ({ s with head := sanitizeBranchName space } : Repo).logOf
          (sanitizeBranchName sp) ≠ [] :=
      fun sp h => hsp sp (List.mem_cons_of_mem _ h)
    obtain ⟨s', hrun, hf', hbr'⟩ := ih { s with head := sanitizeBranchName space } hf hrest
    have hne : (s.logOf (sanitizeBranchName space)).map (decodeCommit R) ≠ [] := by
      simpa using hlog
    obtain ⟨best, hbest⟩ := selectBest_isSome R _ hne
    refine ⟨s', ?_, hf', hbr'⟩
    have h1 := switchSolutionSpace_run space s hf hb
    have h2 := getAttemptHistory_run R { s with head := sanitizeBranchName space } hf
    have hlogeq : ({ s with head := sanitizeBranchName space } : Repo).logOf
        (sanitizeBranchName space) = s.logOf (sanitizeBranchName space) := rfl
    have hhead : ({ s with head := sanitizeBranchName space } : Repo).head =
        sanitizeBranchName space := rfl
    rw [hhead, hlogeq] at h2
    have hrun' : bestOfSpaces R rest { s with head := sanitizeBranchName space } =
        (Except.ok (rest.filterMap (fun sp =>
          (selectBest R ((s.logOf (sanitizeBranchName sp)).map (decodeCommit R))).map
            (bestEntry sp))), s') := hrun
    simp only [bestOfSpaces, Git.bind_run, h1, h2, hbest, hrun', Git.pure_run,
      List.filterMap_cons, Option.map_some']

/-- C17. On every store state whose backend calls succeed - no call fails for a reason of
the environment and every checkout finds its lineage - and in which, as the backend
ensures, every lineage points at a snapshot, `getBestSolutions` completes: it returns one
entry per listed space, in order, and the entry of a space whose history holds no attempt
with an evaluation has score 0. -/
theorem getBestSolutions_completes (R : Runtime) (s : Repo) (hf : s.faults = [])
    (hlogs : ∀ b ∈ s.branches, b.2 ≠ [])
    (hco : ∀ sp ∈ (s.branches.map (fun b => b.1)).filter
        (fun branch => branch != "main" && branch != "master"),
      s.hasBranch (sanitizeBranchName sp) = true) :
    ∃ result s', getBestSolutions R s = (Except.ok result, s') ∧
      result.map (fun b => b.space) = (s.branches.map (fun b => b.1)).filter
        (fun branch => branch != "main" && branch != "master") ∧
      ∀ entry ∈ result,
        (∀ a ∈ (s.logOf (sanitizeBranchName entry.space)).map (decodeCommit R),
          a.metadata.getOpt "evaluation" = JSValue.undefined) →
        entry.score = JSValue.number (JSNumber.fin 0) := by
  obtain ⟨s', hrun, _, _⟩ := bestOfSpaces_run_read R _ s hf
    (fun sp h => ⟨hco sp h, logOf_ne_nil s _ hlogs (hco sp h)⟩)
  refine ⟨((s.branches.map (fun b => b.1)).filter
      (fun branch => branch != "main" && branch != "master")).filterMap (fun sp =>
        (selectBest R ((s.logOf (sanitizeBranchName sp)).map (decodeCommit R))).map
          (bestEntry sp)), s', ?_, bestOfSpaces_spaces R _ s s' _ hrun, ?_⟩
  · unfold getBestSolutions
    rw [Git.bind_run, listSolutionSpaces_run s hf]
    exact hrun
  · intro entry he hnone
    obtain ⟨sp, _, hsome⟩ := List.mem_filterMap.mp he
    obtain ⟨best, hbest, hentry⟩ := Option.map_eq_some'.mp hsome
    subst hentry
    have hsp : (bestEntry sp best).space = sp := rfl
    rw [hsp] at hnone
    cases hh : (s.logOf (sanitizeBranchName sp)).map (decodeCommit R) with
    | nil =>
      rw [hh] at hbest
      simp [selectBest] at hbest
    | cons first rest =>
      rw [hh] at hbest hnone
      obtain ⟨hsel, hzero⟩ := selectBest_unevaluated R first rest hnone
      rw [hsel] at hbest
      have hfb : first = best := Option.some.inj hbest
      subst hfb
      exact hzero

/-- The store with two exploration spaces that hold their seeding snapshots only:
`getBestSolutions` completes with one entry per space. -/
theorem getBestSolutions_completes_witness :
    ∃ result s', getBestSolutions (exampleRuntime JSValue.null) pathsRepo =
        (Except.ok result, s') ∧
      result.map (fun b => b.space) = (pathsRepo.branches.map (fun b => b.1)).filter
        (fun branch => branch != "main" && branch != "master") ∧
      ∀ entry ∈ result,
        (∀ a ∈ (pathsRepo.logOf (sanitizeBranchName entry.space)).map
            (decodeCommit (exampleRuntime JSValue.null)),
          a.metadata.getOpt "evaluation" = JSValue.undefined) →
        entry.score = JSValue.number (JSNumber.fin 0) :=
  getBestSolutions_completes (exampleRuntime JSValue.null) pathsRepo rfl
    (by decide) (by decide)

end Agentic
